import Mathlib

/-!
Allowed-IPs table (`device/allowedips.go`) and padding extension (`warp/tls.go`).

A shallow embedding of the binary trie behind the allowed-IPs table, of the per-peer
reverse index and of the methods `Len` and `Read` of `SNICurveExtension`, followed by
the properties proved about them.

Modelling conventions.

* `net.IP` is a `List Nat` of bytes; every call owns the buffer it passes (the Go code
  stores the caller's slice in the node it creates and masks it in place; the
  embedding follows the masked value through the rest of `insert`).
* `*Peer` is `Option Peer`, `*trieEntry` is a `trieEntry` whose `null` constructor is
  the nil pointer.  A pointer to a node that sits inside a trie is the path of child
  indices leading to it from the root slot.
* An index out of range, a nil dereference and an explicit `panic` are `none`.
* The `parent` back-link of a node is written by `insert` and read by no function of
  the file; it is not part of the embedding.
* `peer.trieEntries` is a list of elements; an element carries its identity (the
  allocation number of the `list.Element`) and the `bits` and `cidr` of the node it
  points to, which are never written after the node is created.
* The machine's byte order is the parameter `le` of `isLittleEndian`.
-/

namespace Device

/-- Identity of a peer record. -/
abbrev Peer := Nat

/-- Value of `net.IPv4len`. -/
def IPv4len : Nat := 4

/-- Value of `net.IPv6len`. -/
def IPv6len : Nat := 16

/-- One `list.Element` of a peer's `trieEntries`. -/
structure Element where
  id : Nat
  bits : List Nat
  cidr : Nat
deriving DecidableEq

/-- The peers' `trieEntries` lists, with the allocation counter of list elements. -/
structure PeerLists where
  trieEntries : Peer → List Element
  next : Nat

/-- The type `trieEntry`, together with the nil pointer. -/
inductive trieEntry where
  | null : trieEntry
  | node (peer : Option Peer) (child0 child1 : trieEntry) (cidr bitAtByte bitAtShift : Nat)
      (bits : List Nat) (perPeerElem : Option Nat) : trieEntry
deriving DecidableEq

namespace trieEntry

/-- Field `peer`. -/
def peer : trieEntry → Option Peer
  | null => none
  | node p _ _ _ _ _ _ _ => p

/-- Field `child[bit]`. -/
def child : trieEntry → Nat → trieEntry
  | null, _ => null
  | node _ c0 c1 _ _ _ _ _, bit => if bit = 0 then c0 else c1

/-- Field `cidr`. -/
def cidr : trieEntry → Nat
  | null => 0
  | node _ _ _ c _ _ _ _ => c

/-- Field `bitAtByte`. -/
def bitAtByte : trieEntry → Nat
  | null => 0
  | node _ _ _ _ b _ _ _ => b

/-- Field `bitAtShift`. -/
def bitAtShift : trieEntry → Nat
  | null => 0
  | node _ _ _ _ _ s _ _ => s

/-- Field `bits`. -/
def bits : trieEntry → List Nat
  | null => []
  | node _ _ _ _ _ _ b _ => b

/-- Field `perPeerElem`. -/
def perPeerElem : trieEntry → Option Nat
  | null => none
  | node _ _ _ _ _ _ _ e => e

/-- Assignment `node.child[bit] = c`. -/
def setChild : trieEntry → Nat → trieEntry → trieEntry
  | null, _, _ => null
  | node p c0 c1 c b s bs e, bit, x =>
    if bit = 0 then node p x c1 c b s bs e else node p c0 x c b s bs e

/-- The node a path of child indices points to. -/
def get : trieEntry → List Nat → trieEntry
  | t, [] => t
  | t, bit :: rest => get (t.child bit) rest

/-- Write `x` into the slot a path of child indices points to. -/
def set : trieEntry → List Nat → trieEntry → trieEntry
  | _, [], x => x
  | t, bit :: rest, x => t.setChild bit (set (t.child bit) rest x)

end trieEntry

/-! ## Words and bit counting -/

/-- Value of a byte string read as a little-endian word. -/
def wordLE : List Nat → Nat
  | [] => 0
  | b :: bs => b + 256 * wordLE bs

/-- Value of a byte string read as a big-endian word. -/
def wordBE (bs : List Nat) : Nat := wordLE bs.reverse

/-- The `n` low bytes of `x`, least significant first. -/
def bytesLE : Nat → Nat → List Nat
  | 0, _ => []
  | n + 1, x => x % 256 :: bytesLE n (x / 256)

/-- Load `*(*uintN)(unsafe.Pointer(&ip[off]))` of a word of `n` bytes. -/
def load (le : Bool) (n : Nat) (ip : List Nat) (off : Nat) : Nat :=
  if le then wordLE ((ip.drop off).take n) else wordBE ((ip.drop off).take n)

/-- Functions `bits.ReverseBytes32` (`n = 4`) and `bits.ReverseBytes64` (`n = 8`). -/
def ReverseBytes (n : Nat) (x : Nat) : Nat := wordBE (bytesLE n x)

/-- Function `swapU32`. -/
def swapU32 (le : Bool) (i : Nat) : Nat :=
  if !le then i else ReverseBytes 4 i

/-- Function `swapU64`. -/
def swapU64 (le : Bool) (i : Nat) : Nat :=
  if !le then i else ReverseBytes 8 i

/-- Function `bits.Len` of a word of `w` bits: the number of bits needed to write `x`. -/
def Len : Nat → Nat → Nat
  | 0, _ => 0
  | w + 1, x => if x = 0 then 0 else 1 + Len w (x / 2)

/-- Function `bits.LeadingZeros32`. -/
def LeadingZeros32 (x : Nat) : Nat := 32 - Len 32 x

/-- Function `bits.LeadingZeros64`. -/
def LeadingZeros64 (x : Nat) : Nat := 64 - Len 64 x

/-- Function `commonBits`; the result is `none` when the function panics or reads
outside `ip2`. -/
def commonBits (le : Bool) (ip1 ip2 : List Nat) : Option Nat :=
  let size := ip1.length
  if size = IPv4len then
    if ip2.length < 4 then none
    else
      let x := load le 4 ip1 0 ^^^ load le 4 ip2 0
      some (LeadingZeros32 (swapU32 le x) % 256)
  else if size = IPv6len then
    if ip2.length < 16 then none
    else
      let x := load le 8 ip1 0 ^^^ load le 8 ip2 0
      if x ≠ 0 then some (LeadingZeros64 (swapU64 le x) % 256)
      else
        let x := load le 8 ip1 8 ^^^ load le 8 ip2 8
        some ((64 + LeadingZeros64 (swapU64 le x) % 256) % 256)
  else none

/-! ## The per-peer lists -/

/-- Method `list.PushBack` on `peer.trieEntries`, returning the new element's identity. -/
def PushBack (L : PeerLists) (peer : Peer) (bits : List Nat) (cidr : Nat) : Nat × PeerLists :=
  (L.next,
   { trieEntries := fun q => if q = peer then L.trieEntries q ++ [⟨L.next, bits, cidr⟩]
                             else L.trieEntries q,
     next := L.next + 1 })

/-- Method `list.Remove` on `peer.trieEntries`: the element is unlinked when it belongs
to this list. -/
def Remove (L : PeerLists) (peer : Peer) (e : Nat) : PeerLists :=
  { trieEntries := fun q => if q = peer then (L.trieEntries q).filter (fun x => x.id ≠ e)
                            else L.trieEntries q,
    next := L.next }

/-- Method `addToPeerEntries`: the node with its new `perPeerElem`, and the lists. -/
def addToPeerEntries (node : trieEntry) (L : PeerLists) : Option (trieEntry × PeerLists) :=
  match node with
  | .null => none
  | .node peer c0 c1 cidr b s bits _ =>
    match peer with
    | none => none
    | some p =>
      let r := PushBack L p bits cidr
      some (.node peer c0 c1 cidr b s bits (some r.1), r.2)

/-- Method `removeFromPeerEntries`. -/
def removeFromPeerEntries (node : trieEntry) (L : PeerLists) : Option (trieEntry × PeerLists) :=
  match node with
  | .null => none
  | .node peer c0 c1 cidr b s bits elem =>
    match elem with
    | none => some (node, L)
    | some e =>
      match peer with
      | none => none
      | some p => some (.node peer c0 c1 cidr b s bits none, Remove L p e)

/-- Method `removeByPeer`. -/
def removeByPeer : trieEntry → Option Peer → PeerLists → Option (trieEntry × PeerLists)
  | .null, _, L => some (.null, L)
  | .node peer c0 c1 cidr b s bits elem, p, L =>
    match removeByPeer c0 p L with
    | none => none
    | some (c0', L1) =>
      match removeByPeer c1 p L1 with
      | none => none
      | some (c1', L2) =>
        if peer ≠ p then some (.node peer c0' c1' cidr b s bits elem, L2)
        else
          match removeFromPeerEntries (.node peer c0' c1' cidr b s bits elem) L2 with
          | none => none
          | some (_, L3) =>
            if c0' = .null then some (c1', L3) else some (c0', L3)

/-! ## Bit selection, masking, placement -/

/-- Method `choose`. -/
def choose (node : trieEntry) (ip : List Nat) : Option Nat :=
  match ip.get? node.bitAtByte with
  | none => none
  | some byte => some ((byte >>> node.bitAtShift) &&& 1)

/-- One byte of `net.CIDRMask`: the mask byte for `n` remaining one bits. -/
def maskByte (n : Nat) : Nat :=
  if n ≥ 8 then 0xff else (0xff ^^^ (0xff >>> n)) % 256

/-- The loop of `net.CIDRMask` over `l` bytes with `n` one bits left. -/
def maskBytes : Nat → Nat → List Nat
  | 0, _ => []
  | l + 1, n => maskByte n :: maskBytes l (n - 8)

/-- Function `net.CIDRMask`; the nil mask is the empty list. -/
def CIDRMask (ones bits : Nat) : List Nat :=
  if bits ≠ 8 * IPv4len ∧ bits ≠ 8 * IPv6len then []
  else if ones > bits then []
  else maskBytes (bits / 8) ones

/-- The loop of `maskSelf`: `bits[i] &= mask[i]` for every index of the mask. -/
def maskLoop : List Nat → List Nat → List Nat
  | b :: bs, m :: ms => (b &&& m) :: maskLoop bs ms
  | bs, _ => bs

/-- The `bits` of a node after `maskSelf`. -/
def maskSelf (bits : List Nat) (cidr : Nat) : List Nat :=
  maskLoop bits (CIDRMask cidr (bits.length * 8))

/-- The loop of `nodePlacement`.  `here` is the path of `node`, `parent` the path of
the last node the loop has passed. -/
def nodePlacementLoop (le : Bool) (ip : List Nat) (cidr : Nat) :
    trieEntry → List Nat → Option (List Nat) → Option (Option (List Nat) × Bool)
  | .null, _, parent => some (parent, false)
  | .node p c0 c1 c b s bs e, here, parent =>
    if c ≤ cidr then
      match commonBits le bs ip with
      | none => none
      | some common =>
        if common ≥ c then
          if c = cidr then some (some here, true)
          else
            match choose (.node p c0 c1 c b s bs e) ip with
            | none => none
            | some bit =>
              if bit = 0 then nodePlacementLoop le ip cidr c0 (here ++ [bit]) (some here)
              else nodePlacementLoop le ip cidr c1 (here ++ [bit]) (some here)
        else some (parent, false)
    else some (parent, false)

/-- Method `nodePlacement`: the path of `parent` (`none` for nil) and `exact`. -/
def nodePlacement (le : Bool) (node : trieEntry) (ip : List Nat) (cidr : Nat) :
    Option (Option (List Nat) × Bool) :=
  nodePlacementLoop le ip cidr node [] none

/-! ## Insertion and lookup -/

/-- The composite literal `&trieEntry{peer, bits, cidr, bitAtByte, bitAtShift}` followed
by `maskSelf`. -/
def newEntry (peer : Option Peer) (ip : List Nat) (cidr : Nat) : trieEntry :=
  .node peer .null .null cidr (cidr / 8) (7 - cidr % 8) (maskSelf ip cidr) none

/-- Assignment `node.peer = peer`. -/
def setPeer : trieEntry → Option Peer → trieEntry
  | .null, _ => .null
  | .node _ c0 c1 c b s bs e, peer => .node peer c0 c1 c b s bs e

/-- The end of `insert`: `x` is written into the root slot when `parent` is nil, and
into `parent.child[parent.choose(x.bits)]` otherwise. -/
def attach (root : trieEntry) (parent : Option (List Nat)) (x : trieEntry) : Option trieEntry :=
  match parent with
  | none => some x
  | some path =>
    match choose (root.get path) x.bits with
    | none => none
    | some bit => some (root.set (path ++ [bit]) x)

/-- The part of `insert` that follows the computation of `down`: the two split cases. -/
def insertSplit (le : Bool) (root : trieEntry) (parent : Option (List Nat)) (down newNode : trieEntry)
    (ip : List Nat) (cidr : Nat) : Option trieEntry :=
  match commonBits le down.bits ip with
  | none => none
  | some common =>
    let cidr := if common < cidr then common else cidr
    if newNode.cidr = cidr then
      match choose newNode down.bits with
      | none => none
      | some bit => attach root parent (newNode.setChild bit down)
    else
      let node := newEntry none newNode.bits cidr
      match choose node down.bits with
      | none => none
      | some bit =>
        let node := node.setChild bit down
        match choose node newNode.bits with
        | none => none
        | some bit => attach root parent (node.setChild bit newNode)

/-- Method `parentIndirection.insert` on the slot holding `root`: the new content of
the slot and the peers' lists. -/
def insert (le : Bool) (root : trieEntry) (L : PeerLists) (ip : List Nat) (cidr : Nat)
    (peer : Option Peer) : Option (trieEntry × PeerLists) :=
  match root with
  | .null => addToPeerEntries (newEntry peer ip cidr) L
  | .node _ _ _ _ _ _ _ _ =>
    match nodePlacement le root ip cidr with
    | none => none
    | some (node, exact) =>
      if exact then
        match node with
        | none => none
        | some path =>
          match removeFromPeerEntries (root.get path) L with
          | none => none
          | some (n, L) =>
            match addToPeerEntries (setPeer n peer) L with
            | none => none
            | some (n, L) => some (root.set path n, L)
      else
        match addToPeerEntries (newEntry peer ip cidr) L with
        | none => none
        | some (newNode, L) =>
          -- `newNode.bits` is the caller's slice: `maskSelf` has masked `ip` too
          let ip := newNode.bits
          match node with
          | none =>
            match insertSplit le root none root newNode ip cidr with
            | none => none
            | some r => some (r, L)
          | some path =>
            match choose (root.get path) ip with
            | none => none
            | some bit =>
              let down := (root.get path).child bit
              if down = .null then some (root.set (path ++ [bit]) newNode, L)
              else
                match insertSplit le root (some path) down newNode ip cidr with
                | none => none
                | some r => some (r, L)

/-- The loop of `lookup`. -/
def lookupLoop (le : Bool) (ip : List Nat) (size : Nat) :
    trieEntry → Option Peer → Option (Option Peer)
  | .null, found => some found
  | .node p c0 c1 c b s bs e, found =>
    match commonBits le bs ip with
    | none => none
    | some common =>
      if common ≥ c then
        let found := if p ≠ none then p else found
        if b = size then some found
        else
          match choose (.node p c0 c1 c b s bs e) ip with
          | none => none
          | some bit =>
            if bit = 0 then lookupLoop le ip size c0 found
            else lookupLoop le ip size c1 found
      else some found

/-- Method `lookup`. -/
def lookup (le : Bool) (node : trieEntry) (ip : List Nat) : Option (Option Peer) :=
  lookupLoop le ip (ip.length % 256) node none

/-! ## The table -/

/-- The type `AllowedIPs`, with the peers' lists its methods act on. -/
structure AllowedIPs where
  IPv4 : trieEntry
  IPv6 : trieEntry
  lists : PeerLists

/-- The table before any operation: both roots nil, every peer's list empty. -/
def AllowedIPs.empty : AllowedIPs :=
  { IPv4 := .null, IPv6 := .null, lists := { trieEntries := fun _ => [], next := 0 } }

/-- The loop of `EntriesForPeer`: the arguments of the calls of `cb`, in order. -/
def entriesLoop (cb : List Nat → Nat → Bool) : List Element → List (List Nat × Nat)
  | [] => []
  | e :: rest => (e.bits, e.cidr) :: (if cb e.bits e.cidr then entriesLoop cb rest else [])

/-- Method `EntriesForPeer`: the arguments of the calls of `cb`, in order. -/
def EntriesForPeer (table : AllowedIPs) (peer : Option Peer) (cb : List Nat → Nat → Bool) :
    Option (List (List Nat × Nat)) :=
  match peer with
  | none => none
  | some p => some (entriesLoop cb (table.lists.trieEntries p))

/-- Method `RemoveByPeer`. -/
def RemoveByPeer (table : AllowedIPs) (peer : Option Peer) : Option AllowedIPs :=
  match removeByPeer table.IPv4 peer table.lists with
  | none => none
  | some (r4, L) =>
    match removeByPeer table.IPv6 peer L with
    | none => none
    | some (r6, L) => some { IPv4 := r4, IPv6 := r6, lists := L }

/-- Method `Insert`. -/
def Insert (le : Bool) (table : AllowedIPs) (ip : List Nat) (cidr : Nat) (peer : Option Peer) :
    Option AllowedIPs :=
  if ip.length = IPv6len then
    match insert le table.IPv6 table.lists ip cidr peer with
    | none => none
    | some (r, L) => some { IPv4 := table.IPv4, IPv6 := r, lists := L }
  else if ip.length = IPv4len then
    match insert le table.IPv4 table.lists ip cidr peer with
    | none => none
    | some (r, L) => some { IPv4 := r, IPv6 := table.IPv6, lists := L }
  else none

/-- Method `LookupIPv4`. -/
def LookupIPv4 (le : Bool) (table : AllowedIPs) (address : List Nat) : Option (Option Peer) :=
  lookup le table.IPv4 address

/-- Method `LookupIPv6`. -/
def LookupIPv6 (le : Bool) (table : AllowedIPs) (address : List Nat) : Option (Option Peer) :=
  lookup le table.IPv6 address

/-! ## Vocabulary of the properties -/

/-- An address of `w` bytes. -/
def IsAddr (w : Nat) (ip : List Nat) : Prop := ip.length = w ∧ ∀ b ∈ ip, b < 256

instance (w : Nat) (ip : List Nat) : Decidable (IsAddr w ip) := by
  unfold IsAddr; infer_instance

/-- The number written by the top `c` bits of `ip`, the most significant bit of byte 0
being the first. -/
def topBits (ip : List Nat) (c : Nat) : Nat := wordBE ip / 2 ^ (8 * ip.length - c)

/-- Bit number `i` of `ip`, bit 0 being the most significant bit of byte 0. -/
def bitAt (ip : List Nat) (i : Nat) : Nat := wordBE ip / 2 ^ (8 * ip.length - 1 - i) % 2

/-- The prefix `(a, c)` matches the address `q`: their top `c` bits are equal. -/
def Matches (a : List Nat) (c : Nat) (q : List Nat) : Prop := topBits a c = topBits q c

/-- All bits of `ip` beyond the first `c` are zero. -/
def Masked (ip : List Nat) (c : Nat) : Prop := wordBE ip % 2 ^ (8 * ip.length - c) = 0

/-! ## Invariants of the tries and of the reverse index -/

/-- The fields of a node are coherent for a family of `w` bytes: the address has `w`
bytes, `cidr` is at most the width, the cached `bitAtByte` and `bitAtShift` are those
of `cidr`, and `bits` is masked to `cidr` bits. -/
def NodeOK (w c b s : Nat) (bs : List Nat) : Prop :=
  IsAddr w bs ∧ c ≤ 8 * w ∧ b = c / 8 ∧ s = 7 - c % 8 ∧ Masked bs c

/-- The trie `t` may hang in the child slot `bit` of a node of prefix `(a, c)`: it is
nil, or its root is deeper than `c`, has the top `c` bits of `a` and has bit `c` equal
to `bit`. -/
def Below (a : List Nat) (c bit : Nat) (t : trieEntry) : Prop :=
  t = .null ∨ (c < t.cidr ∧ Matches t.bits c a ∧ bitAt t.bits c = bit)

/-- Well-formed trie of a family of `w` bytes: every node has coherent fields and
every child hangs in the slot of its bit. -/
def WF (w : Nat) : trieEntry → Prop
  | .null => True
  | .node _ c0 c1 c b s bs _ =>
    NodeOK w c b s bs ∧ Below bs c 0 c0 ∧ Below bs c 1 c1 ∧ WF w c0 ∧ WF w c1

/-- Every node without a peer has two children. -/
def Full : trieEntry → Prop
  | .null => True
  | .node p c0 c1 _ _ _ _ _ =>
    (p = none → c0 ≠ .null ∧ c1 ≠ .null) ∧ Full c0 ∧ Full c1

/-- The binding of a node: its prefix and its peer, when it has one. -/
def own (p : Option Peer) (bs : List Nat) (c : Nat) : List (List Nat × Nat × Peer) :=
  match p with
  | some q => [(bs, c, q)]
  | none => []

/-- The bindings `(bits, cidr, peer)` of the assigned nodes of a trie. -/
def bindings : trieEntry → List (List Nat × Nat × Peer)
  | .null => []
  | .node p c0 c1 c _ _ bs _ => own p bs c ++ (bindings c0 ++ bindings c1)

/-- The peer `r` is the answer of longest-prefix match for `q` among the bindings `B`:
no binding matches `q` and `r` is none, or `r` is the peer of a matching binding and
every other matching binding is strictly shorter. -/
def IsLPM (B : List (List Nat × Nat × Peer)) (q : List Nat) (r : Option Peer) : Prop :=
  match r with
  | none => ∀ x ∈ B, ¬ Matches x.1 x.2.1 q
  | some p => ∃ a c, (a, c, p) ∈ B ∧ Matches a c q ∧
      ∀ x ∈ B, Matches x.1 x.2.1 q → x.2.1 < c ∨ x = (a, c, p)

/-- The nodes of a trie: the peer, the list element, the bits and the cidr of each. -/
def entries : trieEntry → List (Option Peer × Option Nat × List Nat × Nat)
  | .null => []
  | .node p c0 c1 c _ _ bs e => (p, e, bs, c) :: (entries c0 ++ entries c1)

/-- The loops of `nodePlacement` and `lookup` do not enter `t` for the target
`(ip, cidr)`: it is nil, deeper than `cidr`, or its prefix does not match `ip`. -/
def Stops (ip : List Nat) (cidr : Nat) (t : trieEntry) : Prop :=
  t = .null ∨ cidr < t.cidr ∨ ¬ Matches t.bits t.cidr ip

/-- The peers' lists agree with the nodes `E`: a list holds exactly the elements of the
nodes assigned to its peer, element identities are distinct within a list and below
the allocation counter, and a node has a list element exactly when it has a peer. -/
def Idx (L : PeerLists) (E : List (Option Peer × Option Nat × List Nat × Nat)) : Prop :=
  (∀ p id a c, (⟨id, a, c⟩ : Element) ∈ L.trieEntries p ↔ (some p, some id, a, c) ∈ E) ∧
  (∀ p, ((L.trieEntries p).map (fun x => x.id)).Nodup) ∧
  (∀ p, ∀ x ∈ L.trieEntries p, x.id < L.next) ∧
  (∀ y ∈ E, (y.1 = none ↔ y.2.1 = none))

/-- The invariant of the tables built by inserts. -/
def Inv (T : AllowedIPs) : Prop :=
  WF 4 T.IPv4 ∧ WF 16 T.IPv6 ∧ Full T.IPv4 ∧ Full T.IPv6 ∧
    Idx T.lists (entries T.IPv4 ++ entries T.IPv6)

/-- The arguments of a valid insert: an address of 4 or 16 bytes and a prefix length
of at most its number of bits. -/
def ValidInsert (ip : List Nat) (cidr : Nat) : Prop :=
  (IsAddr 4 ip ∨ IsAddr 16 ip) ∧ cidr ≤ 8 * ip.length

instance (ip : List Nat) (cidr : Nat) : Decidable (ValidInsert ip cidr) := by
  unfold ValidInsert; infer_instance

/-- The tables obtained from the empty table by valid inserts with non-nil peers. -/
inductive Reachable (le : Bool) : AllowedIPs → Prop
  | empty : Reachable le AllowedIPs.empty
  | insert {T T' : AllowedIPs} {ip : List Nat} {cidr : Nat} {p : Peer} :
      Reachable le T → ValidInsert ip cidr → Insert le T ip cidr (some p) = some T' →
      Reachable le T'

/-- The trie without its list elements: the nodes with their bits, cidr, cached bit
position, peer and child links. -/
def strip : trieEntry → trieEntry
  | .null => .null
  | .node p c0 c1 c b s bs _ => .node p (strip c0) (strip c1) c b s bs none

/-- The root `Insert` dispatches an address of `n` bytes to. -/
def AllowedIPs.root (T : AllowedIPs) (n : Nat) : trieEntry :=
  if n = IPv6len then T.IPv6 else T.IPv4

/-- The number of occurrences of `x` in `l`. -/
def occurrences {α : Type} [DecidableEq α] (x : α) (l : List α) : Nat :=
  (l.filter (fun y => decide (y = x))).length

/-! ## Sequences of operations and examples -/

/-- An operation on the table: an insert with a non-nil peer, or the removal of a peer. -/
inductive Op where
  | insert (ip : List Nat) (cidr : Nat) (peer : Peer) : Op
  | remove (peer : Peer) : Op

/-- The operation is valid: an insert has valid arguments. -/
def Op.Valid : Op → Prop
  | .insert ip cidr _ => ValidInsert ip cidr
  | .remove _ => True

/-- One operation on a table. -/
def applyOp (le : Bool) (T : AllowedIPs) : Op → Option AllowedIPs
  | .insert ip cidr peer => Insert le T ip cidr (some peer)
  | .remove peer => RemoveByPeer T (some peer)

/-- A sequence of operations, first to last, on a table. -/
def runFrom (le : Bool) : AllowedIPs → List Op → Option AllowedIPs
  | T, [] => some T
  | T, op :: rest =>
    match applyOp le T op with
    | none => none
    | some T' => runFrom le T' rest

/-- A sequence of operations, first to last, on the empty table. -/
def run (le : Bool) (ops : List Op) : Option AllowedIPs := runFrom le AllowedIPs.empty ops

/-- The operations of the example of a rebinding: `10.0.0.0/8` for peer 1, then
`10.1.0.0/16` for peer 2. -/
def opsAB : List Op := [.insert [10, 0, 0, 0] 8 1, .insert [10, 1, 0, 0] 16 2]

/-- The table of the example: `10.0.0.0/8` bound to peer 1. -/
def tableA : AllowedIPs :=
  (Insert true AllowedIPs.empty [10, 0, 0, 0] 8 (some 1)).getD AllowedIPs.empty

/-- The table of the example: `10.0.0.0/8` bound to peer 1, then `10.1.0.0/16` to peer 2. -/
def tableAB : AllowedIPs :=
  (Insert true tableA [10, 1, 0, 0] 16 (some 2)).getD AllowedIPs.empty

/-- The operations of the example of a node with two children: `0.0.0.0/0` for peer 1,
`0.0.0.0/1` for peer 2 and `128.0.0.0/1` for peer 3. -/
def opsTwoChildren : List Op :=
  [.insert [0, 0, 0, 0] 0 1, .insert [0, 0, 0, 0] 1 2, .insert [128, 0, 0, 0] 1 3]

/-- The operations of the example of two siblings: `192.168.4.0/24` for peer 1 and
`192.168.8.0/24` for peer 2. -/
def opsSiblings : List Op :=
  [.insert [192, 168, 4, 0] 24 1, .insert [192, 168, 8, 0] 24 2]

/-- The operations of the example of a split node: `192.168.4.0/24` and
`192.168.8.0/24`, both for peer 1. -/
def opsSplit : List Op :=
  [.insert [192, 168, 4, 0] 24 1, .insert [192, 168, 8, 0] 24 1]


/-! ## Reference definition of `commonBits` -/

/-- Bit number `i` of a byte string, read in its byte: bit 0 is the most significant
bit of byte 0. -/
def bitOf (ip : List Nat) (i : Nat) : Nat := (ip.getD (i / 8) 0 >>> (7 - i % 8)) &&& 1

/-- The number of positions, among the `n` positions from `i` on, at which two byte
strings agree before they first differ. -/
def agreeFrom (ip1 ip2 : List Nat) : Nat → Nat → Nat
  | 0, _ => 0
  | n + 1, i => if bitOf ip1 i = bitOf ip2 i then 1 + agreeFrom ip1 ip2 n (i + 1) else 0

/-- Reference definition of `commonBits`, after the words of the specification: the
number of leading bits in which two equal-length byte strings agree, read big-endian. -/
def commonBitsRef (ip1 ip2 : List Nat) : Nat := agreeFrom ip1 ip2 (8 * ip1.length) 0

/-! ## Reference model of the assignments -/

/-- Reference model of one assignment, after the words of the specification: the
prefixes with their peers, oldest assignment first; an insert masks the address,
detaches the prefix from the peer that had it and pushes it back for the new peer. -/
def assign (S : List (List Nat × Nat × Peer)) (ip : List Nat) (cidr : Nat) (p : Peer) :
    List (List Nat × Nat × Peer) :=
  S.filter (fun x => decide ((x.1, x.2.1) ≠ (maskSelf ip cidr, cidr))) ++
    [(maskSelf ip cidr, cidr, p)]

/-- Reference model of the assignments after a sequence of operations: the removal of a
peer detaches all its prefixes. -/
def assignmentsFrom : List (List Nat × Nat × Peer) → List Op → List (List Nat × Nat × Peer)
  | S, [] => S
  | S, .insert ip cidr p :: rest => assignmentsFrom (assign S ip cidr p) rest
  | S, .remove p :: rest => assignmentsFrom (S.filter (fun x => decide (x.2.2 ≠ p))) rest

/-- Reference model of the assignments after a sequence of operations on the empty
table. -/
def assignments (ops : List Op) : List (List Nat × Nat × Peer) := assignmentsFrom [] ops

/-- The prefixes assigned to a peer in the reference model, oldest assignment first. -/
def assignedTo (S : List (List Nat × Nat × Peer)) (P : Peer) : List (List Nat × Nat) :=
  (S.filter (fun x => decide (x.2.2 = P))).map (fun x => (x.1, x.2.1))

/-- Reference model of the enumeration: the elements of a list up to and including the
first one for which the callback returns false. -/
def takeThrough (cb : List Nat → Nat → Bool) : List (List Nat × Nat) → List (List Nat × Nat)
  | [] => []
  | x :: rest => x :: (if cb x.1 x.2 then takeThrough cb rest else [])

/-- The operation is an insert. -/
def Op.IsInsert : Op → Prop
  | .insert _ _ _ => True
  | .remove _ => False

instance (op : Op) : Decidable op.IsInsert := by
  cases op <;> unfold Op.IsInsert <;> infer_instance

/-- The operations of the example of a prefix listed twice: the three inserts of the
example of a node with two children, the removal of peer 1, and `128.0.0.0/1` for peer 3
once more. -/
def opsTwice : List Op :=
  opsTwoChildren ++ [.remove 1, .insert [128, 0, 0, 0] 1 3]

/-- What a call leaves: it returned, with the table after the call, or it panicked,
with the table the panic leaves. -/
inductive Outcome where
  | returned (table : AllowedIPs) : Outcome
  | panicked (table : AllowedIPs) : Outcome

/-- Method `Insert` with the table it leaves.  The `default` branch of the switch
panics before any write, so it leaves the table it was given; a panic inside `insert`
is `none`, the writes done before it are not modelled. -/
def InsertOutcome (le : Bool) (table : AllowedIPs) (ip : List Nat) (cidr : Nat)
    (peer : Option Peer) : Option Outcome :=
  if ip.length = IPv6len then
    match insert le table.IPv6 table.lists ip cidr peer with
    | none => none
    | some (r, L) => some (.returned { IPv4 := table.IPv4, IPv6 := r, lists := L })
  else if ip.length = IPv4len then
    match insert le table.IPv4 table.lists ip cidr peer with
    | none => none
    | some (r, L) => some (.returned { IPv4 := r, IPv6 := table.IPv6, lists := L })
  else some (.panicked table)

instance (op : Op) : Decidable op.Valid := by
  cases op <;> unfold Op.Valid <;> infer_instance

/-- The operations of the example of a removal: the three inserts of the example of a
node with two children, `10.1.2.0/24` for peer 2, and the removal of peer 1. -/
def opsMixed : List Op :=
  opsTwoChildren ++ [.insert [10, 1, 2, 3] 24 2, .remove 1]

/-- The invariant of the tables built by inserts and removals: both tries are well
formed, a node without a peer has no list element, and the list elements of the nodes
are below the allocation counter. -/
def OpsInv (T : AllowedIPs) : Prop :=
  WF 4 T.IPv4 ∧ WF 16 T.IPv6 ∧
  ∀ y ∈ entries T.IPv4 ++ entries T.IPv6,
    (y.1 = none → y.2.1 = none) ∧ ∀ e, y.2.1 = some e → e < T.lists.next

end Device

namespace Warp

/-! ## The extension `SNICurveExtension` of `tls.go` -/

/-- Constant `utlsExtensionSNICurve`, of type `uint16`. -/
def utlsExtensionSNICurve : Nat := 0x15

/-- Constant `SNICurveSize`. -/
def SNICurveSize : Int := 1200

/-- The type `SNICurveExtension`; the embedded `*tls.GenericExtension` is read by
neither `Len` nor `Read`. -/
structure SNICurveExtension where
  SNICurveLen : Int
  WillPad : Bool

/-- The errors returned by `Read`: `io.EOF` and `io.ErrShortBuffer`. -/
inductive Err where
  | EOF : Err
  | ErrShortBuffer : Err
deriving DecidableEq

/-- Arithmetic of the type `int`: 64 bits, two's complement. -/
def wrapInt (x : Int) : Int := (x + 2 ^ 63) % 2 ^ 64 - 2 ^ 63

/-- Conversion `byte(x)` of an `int`. -/
def toByte (x : Int) : Nat := (x % 256).toNat

/-- Builtin `copy(dst, src)`: the content of `dst` after the call. -/
def copy (dst src : List Nat) : List Nat := src.take dst.length ++ dst.drop src.length

/-- Method `Len`. -/
def SNICurveExtension.Len (e : SNICurveExtension) : Int :=
  if e.WillPad then wrapInt (4 + e.SNICurveLen) else 0

/-- Method `Read`: the buffer after the call, `n` and `err`; `none` when an index of
`b` is out of range. -/
def SNICurveExtension.Read (e : SNICurveExtension) (b : List Nat) :
    Option (List Nat × Int × Err) :=
  if !e.WillPad then some (b, 0, .EOF)
  else if (b.length : Int) < e.Len then some (b, 0, .ErrShortBuffer)
  else if b.length < 4 then none
  else
    let b := b.set 0 ((utlsExtensionSNICurve >>> 8) % 256)
    let b := b.set 1 (utlsExtensionSNICurve % 256)
    let b := b.set 2 (toByte (e.SNICurveLen >>> (8 : Nat)))
    let b := b.set 3 (toByte e.SNICurveLen)
    let y := List.replicate 1200 0
    some (b.take 4 ++ copy (b.drop 4) y, e.Len, .EOF)

end Warp

namespace Device


/-! ## Properties of words -/

theorem wordLE_append (l1 l2 : List Nat) :
    wordLE (l1 ++ l2) = wordLE l1 + 256 ^ l1.length * wordLE l2 := by
  induction l1 with
  | nil => simp [wordLE]
  | cons b bs ih =>
    rw [List.cons_append]
    simp only [wordLE, ih, List.length_cons, pow_succ]
    ring

theorem wordBE_cons (b : Nat) (bs : List Nat) :
    wordBE (b :: bs) = b * 256 ^ bs.length + wordBE bs := by
  simp only [wordBE, List.reverse_cons, wordLE_append, wordLE, List.length_reverse]
  ring

theorem wordBE_nil : wordBE [] = 0 := rfl

theorem wordLE_lt (l : List Nat) (h : ∀ b ∈ l, b < 256) : wordLE l < 256 ^ l.length := by
  induction l with
  | nil => simp [wordLE]
  | cons b bs ih =>
    have hb : b < 256 := h b (List.mem_cons_self _ _)
    have hr := ih (fun x hx => h x (List.mem_cons_of_mem _ hx))
    simp only [wordLE, List.length_cons, pow_succ]
    omega

theorem wordBE_lt (l : List Nat) (h : ∀ b ∈ l, b < 256) : wordBE l < 256 ^ l.length := by
  have := wordLE_lt l.reverse (fun b hb => h b (List.mem_reverse.mp hb))
  simpa [wordBE] using this

theorem xor_add_mul (k a b x y : Nat) (ha : a < 2 ^ k) (hb : b < 2 ^ k) :
    (2 ^ k * x + a) ^^^ (2 ^ k * y + b) = 2 ^ k * (x ^^^ y) + (a ^^^ b) := by
  apply Nat.eq_of_testBit_eq
  intro i
  rw [Nat.testBit_xor, Nat.testBit_mul_pow_two_add _ ha, Nat.testBit_mul_pow_two_add _ hb,
    Nat.testBit_mul_pow_two_add _ (Nat.xor_lt_two_pow ha hb)]
  split <;> simp

theorem wordLE_xor : ∀ (a b : List Nat), a.length = b.length → (∀ x ∈ a, x < 256) →
    (∀ x ∈ b, x < 256) → wordLE a ^^^ wordLE b = wordLE (List.zipWith (· ^^^ ·) a b)
  | [], [], _, _, _ => by simp [wordLE]
  | [], _ :: _, h, _, _ => by simp at h
  | _ :: _, [], h, _, _ => by simp at h
  | x :: xs, y :: ys, h, ha, hb => by
    have hx : x < 2 ^ 8 := ha x (List.mem_cons_self _ _)
    have hy : y < 2 ^ 8 := hb y (List.mem_cons_self _ _)
    have ih := wordLE_xor xs ys (by simpa using h)
      (fun z hz => ha z (List.mem_cons_of_mem _ hz)) (fun z hz => hb z (List.mem_cons_of_mem _ hz))
    simp only [wordLE, List.zipWith_cons_cons, ← ih]
    have := xor_add_mul 8 x y (wordLE xs) (wordLE ys) hx hy
    norm_num at this
    rw [Nat.add_comm x, Nat.add_comm y, this]
    ring

theorem zipWith_xor_lt : ∀ (a b : List Nat), (∀ x ∈ a, x < 256) → (∀ x ∈ b, x < 256) →
    ∀ z ∈ List.zipWith (· ^^^ ·) a b, z < 256
  | [], _, _, _ => by simp
  | _ :: _, [], _, _ => by simp
  | x :: xs, y :: ys, ha, hb => by
    intro z hz
    simp only [List.zipWith_cons_cons, List.mem_cons] at hz
    rcases hz with rfl | hz
    · have hx : x < 2 ^ 8 := ha x (List.mem_cons_self _ _)
      have hy : y < 2 ^ 8 := hb y (List.mem_cons_self _ _)
      exact Nat.xor_lt_two_pow hx hy
    · exact zipWith_xor_lt xs ys (fun z hz => ha z (List.mem_cons_of_mem _ hz))
        (fun z hz => hb z (List.mem_cons_of_mem _ hz)) z hz

theorem bytesLE_wordLE (l : List Nat) (h : ∀ b ∈ l, b < 256) : bytesLE l.length (wordLE l) = l := by
  induction l with
  | nil => simp [bytesLE]
  | cons b bs ih =>
    have hb : b < 256 := h b (List.mem_cons_self _ _)
    have hr := ih (fun x hx => h x (List.mem_cons_of_mem _ hx))
    simp only [List.length_cons, bytesLE, wordLE]
    have h1 : (b + 256 * wordLE bs) % 256 = b := by omega
    have h2 : (b + 256 * wordLE bs) / 256 = wordLE bs := by omega
    rw [h1, h2, hr]

theorem wordBE_xor (a b : List Nat) (h : a.length = b.length) (ha : ∀ x ∈ a, x < 256)
    (hb : ∀ x ∈ b, x < 256) : wordBE a ^^^ wordBE b = wordBE (List.zipWith (· ^^^ ·) a b) := by
  unfold wordBE
  rw [wordLE_xor _ _ (by simpa using h) (fun x hx => ha x (List.mem_reverse.mp hx))
    (fun x hx => hb x (List.mem_reverse.mp hx))]
  congr 1
  rw [List.reverse_zipWith h]

theorem ReverseBytes_xor (n : Nat) (a b : List Nat) (hn : a.length = n) (h : b.length = n)
    (ha : ∀ x ∈ a, x < 256) (hb : ∀ x ∈ b, x < 256) :
    ReverseBytes n (wordLE a ^^^ wordLE b) = wordBE a ^^^ wordBE b := by
  have hl : a.length = b.length := by omega
  unfold ReverseBytes
  rw [wordLE_xor a b hl ha hb, wordBE_xor a b hl ha hb]
  have hz : (List.zipWith (· ^^^ ·) a b).length = n := by simp [hn, h]
  rw [← hz, bytesLE_wordLE _ (zipWith_xor_lt a b ha hb)]

/-! ## Bit length -/

theorem Len_le_iff : ∀ (w x k : Nat), x < 2 ^ w → (Len w x ≤ k ↔ x < 2 ^ k)
  | 0, x, k, h => by
    have hx : x = 0 := by simpa using h
    subst hx
    simp [Len]
  | w + 1, x, k, h => by
    unfold Len
    by_cases hx : x = 0
    · subst hx; simp
    · simp only [hx, if_false]
      cases k with
      | zero => simp; omega
      | succ k =>
        have h2 : x / 2 < 2 ^ w := by rw [pow_succ] at h; omega
        have := Len_le_iff w (x / 2) k h2
        rw [pow_succ]
        omega

theorem Len_le (w x : Nat) (h : x < 2 ^ w) : Len w x ≤ w := (Len_le_iff w x w h).2 h

theorem xor_lt_two_pow_iff (k x y : Nat) : x ^^^ y < 2 ^ k ↔ x / 2 ^ k = y / 2 ^ k := by
  induction k generalizing x y with
  | zero => simp [Nat.lt_one_iff]
  | succ k ih =>
    have := ih (x / 2) (y / 2)
    rw [← Nat.xor_div_two] at this
    rw [pow_succ, Nat.mul_comm, ← Nat.div_div_eq_div_mul, ← Nat.div_div_eq_div_mul, ← this]
    constructor
    · intro h; omega
    · intro h; omega


theorem wordLE_inj (u v : List Nat) (h : u.length = v.length) (hu : ∀ x ∈ u, x < 256)
    (hv : ∀ x ∈ v, x < 256) (e : wordLE u = wordLE v) : u = v := by
  rw [← bytesLE_wordLE u hu, ← bytesLE_wordLE v hv, h, e]

theorem wordBE_inj (u v : List Nat) (h : u.length = v.length) (hu : ∀ x ∈ u, x < 256)
    (hv : ∀ x ∈ v, x < 256) (e : wordBE u = wordBE v) : u = v := by
  have := wordLE_inj u.reverse v.reverse (by simpa using h)
    (fun x hx => hu x (List.mem_reverse.mp hx)) (fun x hx => hv x (List.mem_reverse.mp hx)) e
  simpa using this

theorem wordBE_append (l1 l2 : List Nat) :
    wordBE (l1 ++ l2) = wordBE l1 * 256 ^ l2.length + wordBE l2 := by
  simp only [wordBE, List.reverse_append, wordLE_append, List.length_reverse]
  ring

/-- The word the byte swap produces from the exclusive or of two loads is the exclusive
or of the big-endian values. -/
theorem swap_load (le : Bool) (n : Nat) (u v : List Nat) (hu : u.length = n) (hv : v.length = n)
    (bu : ∀ x ∈ u, x < 256) (bv : ∀ x ∈ v, x < 256) :
    (if !le then (if le then wordLE u else wordBE u) ^^^ (if le then wordLE v else wordBE v)
      else ReverseBytes n ((if le then wordLE u else wordBE u) ^^^
        (if le then wordLE v else wordBE v))) = wordBE u ^^^ wordBE v := by
  cases le
  · simp
  · simp [ReverseBytes_xor n u v hu hv bu bv]

theorem load_xor_eq_zero (le : Bool) (u v : List Nat) (h : u.length = v.length)
    (bu : ∀ x ∈ u, x < 256) (bv : ∀ x ∈ v, x < 256) :
    ((if le then wordLE u else wordBE u) ^^^ (if le then wordLE v else wordBE v)) = 0 ↔
      wordBE u = wordBE v := by
  rw [Nat.xor_eq_zero]
  cases le
  · simp
  · simp only [if_true]
    constructor
    · intro e; rw [wordLE_inj u v h bu bv e]
    · intro e; rw [wordBE_inj u v h bu bv e]

theorem IsAddr.take {w : Nat} {a : List Nat} (h : IsAddr w a) (n : Nat) :
    ∀ x ∈ a.take n, x < 256 := fun x hx => h.2 x (List.mem_of_mem_take hx)

theorem IsAddr.drop {w : Nat} {a : List Nat} (h : IsAddr w a) (n : Nat) :
    ∀ x ∈ a.drop n, x < 256 := fun x hx => h.2 x (List.mem_of_mem_drop hx)

theorem IsAddr.lt {w : Nat} {a : List Nat} (h : IsAddr w a) : wordBE a < 2 ^ (8 * w) := by
  have := wordBE_lt a h.2
  rw [h.1] at this
  rwa [pow_mul]

theorem commonBits_v4 (le : Bool) (a b : List Nat) (ha : IsAddr 4 a) (hb : IsAddr 4 b) :
    commonBits le a b = some (32 - Len 32 (wordBE a ^^^ wordBE b)) := by
  have la := ha.1
  have lb := hb.1
  unfold commonBits
  simp only [la, lb, IPv4len, if_true, Nat.lt_irrefl, if_false, load, List.drop_zero]
  have ta : a.take 4 = a := List.take_of_length_le (by omega)
  have tb : b.take 4 = b := List.take_of_length_le (by omega)
  rw [ta, tb]
  unfold swapU32
  rw [swap_load le 4 a b la lb ha.2 hb.2]
  unfold LeadingZeros32
  congr 1
  omega

theorem commonBits_v6 (le : Bool) (a b : List Nat) (ha : IsAddr 16 a) (hb : IsAddr 16 b) :
    commonBits le a b = some
      (if wordBE (a.take 8) ≠ wordBE (b.take 8)
        then 64 - Len 64 (wordBE (a.take 8) ^^^ wordBE (b.take 8))
        else 64 + (64 - Len 64 (wordBE (a.drop 8) ^^^ wordBE (b.drop 8)))) := by
  have la := ha.1
  have lb := hb.1
  unfold commonBits
  have ne : ¬ (16 = IPv4len) := by decide
  simp only [la, lb, ne, IPv6len, if_true, Nat.lt_irrefl, if_false, load, List.drop_zero]
  have ta : (a.drop 8).take 8 = a.drop 8 := List.take_of_length_le (by simp; omega)
  have tb : (b.drop 8).take 8 = b.drop 8 := List.take_of_length_le (by simp; omega)
  rw [ta, tb]
  have l1 : (a.take 8).length = 8 := by simp; omega
  have l2 : (b.take 8).length = 8 := by simp; omega
  have l3 : (a.drop 8).length = 8 := by simp; omega
  have l4 : (b.drop 8).length = 8 := by simp; omega
  unfold swapU64
  rw [swap_load le 8 _ _ l1 l2 (ha.take 8) (hb.take 8),
    swap_load le 8 _ _ l3 l4 (ha.drop 8) (hb.drop 8)]
  have hz := load_xor_eq_zero le (a.take 8) (b.take 8) (by omega) (ha.take 8) (hb.take 8)
  unfold LeadingZeros64
  by_cases e : wordBE (a.take 8) = wordBE (b.take 8)
  · have := hz.2 e
    rw [if_neg (not_not_intro this), if_neg (not_not_intro e)]
    congr 1
    omega
  · have : ¬ ((if le then wordLE (a.take 8) else wordBE (a.take 8)) ^^^
        (if le then wordLE (b.take 8) else wordBE (b.take 8))) = 0 := fun h => e (hz.1 h)
    rw [if_pos this, if_pos e]
    congr 1
    omega

theorem wordBE_split (a : List Nat) (n : Nat) :
    wordBE a = wordBE (a.take n) * 256 ^ (a.drop n).length + wordBE (a.drop n) := by
  conv_lhs => rw [← List.take_append_drop n a]
  rw [wordBE_append]

/-- The contract of `commonBits` on two addresses of one family. -/
theorem commonBits_spec (le : Bool) (w : Nat) (hw : w = 4 ∨ w = 16) (a b : List Nat)
    (ha : IsAddr w a) (hb : IsAddr w b) :
    ∃ n, commonBits le a b = some n ∧ n ≤ 8 * w ∧
      ∀ c, c ≤ 8 * w → (c ≤ n ↔ topBits a c = topBits b c) := by
  rcases hw with rfl | rfl
  · refine ⟨_, commonBits_v4 le a b ha hb, by omega, ?_⟩
    intro c hc
    have hx : wordBE a ^^^ wordBE b < 2 ^ 32 := Nat.xor_lt_two_pow ha.lt hb.lt
    have hl := Len_le 32 _ hx
    rw [topBits, topBits, ha.1, hb.1, ← xor_lt_two_pow_iff, ← Len_le_iff 32 _ _ hx]
    omega
  · refine ⟨_, commonBits_v6 le a b ha hb, ?_, ?_⟩
    · split <;> omega
    intro c hc
    have l3 : (a.drop 8).length = 8 := by simp [ha.1]
    have l4 : (b.drop 8).length = 8 := by simp [hb.1]
    have l1 : (a.take 8).length = 8 := by simp [ha.1]
    have l2 : (b.take 8).length = 8 := by simp [hb.1]
    have h1 : wordBE (a.take 8) < 2 ^ 64 := by
      have := wordBE_lt _ (ha.take 8); rw [l1] at this; norm_num at this ⊢; exact this
    have h2 : wordBE (b.take 8) < 2 ^ 64 := by
      have := wordBE_lt _ (hb.take 8); rw [l2] at this; norm_num at this ⊢; exact this
    have h3 : wordBE (a.drop 8) < 2 ^ 64 := by
      have := wordBE_lt _ (ha.drop 8); rw [l3] at this; norm_num at this ⊢; exact this
    have h4 : wordBE (b.drop 8) < 2 ^ 64 := by
      have := wordBE_lt _ (hb.drop 8); rw [l4] at this; norm_num at this ⊢; exact this
    have ea := wordBE_split a 8
    have eb := wordBE_split b 8
    rw [l3] at ea
    rw [l4] at eb
    have p : (256 : Nat) ^ 8 = 2 ^ 64 := by norm_num
    rw [p] at ea eb
    have hxh : wordBE (a.take 8) ^^^ wordBE (b.take 8) < 2 ^ 64 := Nat.xor_lt_two_pow h1 h2
    have hxl : wordBE (a.drop 8) ^^^ wordBE (b.drop 8) < 2 ^ 64 := Nat.xor_lt_two_pow h3 h4
    have X : wordBE a ^^^ wordBE b = 2 ^ 64 * (wordBE (a.take 8) ^^^ wordBE (b.take 8)) +
        (wordBE (a.drop 8) ^^^ wordBE (b.drop 8)) := by
      rw [ea, eb, Nat.mul_comm _ (2 ^ 64), Nat.mul_comm _ (2 ^ 64)]
      exact xor_add_mul 64 _ _ _ _ h3 h4
    rw [topBits, topBits, ha.1, hb.1, ← xor_lt_two_pow_iff, X]
    have hlh := Len_le 64 _ hxh
    have hll := Len_le 64 _ hxl
    by_cases e : wordBE (a.take 8) = wordBE (b.take 8)
    · simp only [e, ne_eq, not_true_eq_false, if_false, Nat.xor_self, Nat.mul_zero, Nat.zero_add]
      rw [e] at hlh
      by_cases hc64 : c ≤ 64
      · have : 2 ^ 64 ≤ 2 ^ (8 * 16 - c) := Nat.pow_le_pow_right (by norm_num) (by omega)
        constructor
        · intro _; omega
        · intro _; omega
      · have := Len_le_iff 64 _ (8 * 16 - c) hxl
        rw [← this]
        omega
    · simp only [ne_eq, e, not_false_eq_true, if_true]
      have hne : wordBE (a.take 8) ^^^ wordBE (b.take 8) ≠ 0 := by
        rw [ne_eq, Nat.xor_eq_zero]; exact e
      by_cases hc64 : c ≤ 64
      · have q : 2 ^ (8 * 16 - c) = 2 ^ 64 * 2 ^ (64 - c) := by
          rw [← pow_add]; congr 1; omega
        have := Len_le_iff 64 _ (64 - c) hxh
        rw [q]
        constructor
        · intro h
          have h' := this.1 (by omega)
          nlinarith
        · intro h
          have : wordBE (a.take 8) ^^^ wordBE (b.take 8) < 2 ^ (64 - c) := by
            by_contra hh
            push_neg at hh
            nlinarith
          have h' := (Len_le_iff 64 _ (64 - c) hxh).2 this
          omega
      · have hpos : 0 < Len 64 (wordBE (a.take 8) ^^^ wordBE (b.take 8)) := by
          by_contra hh
          have h0 : Len 64 (wordBE (a.take 8) ^^^ wordBE (b.take 8)) ≤ 0 := by omega
          have := (Len_le_iff 64 _ 0 hxh).1 h0
          omega
        have : 2 ^ (8 * 16 - c) < 2 ^ 64 := Nat.pow_lt_pow_right (by norm_num) (by omega)
        constructor
        · intro h; omega
        · intro h; omega


theorem byte_bit : ∀ (l : List Nat) (i : Nat), i < 8 * l.length → (∀ b ∈ l, b < 256) →
    ∃ byte, l.get? (i / 8) = some byte ∧
      (byte >>> (7 - i % 8)) &&& 1 = wordBE l / 2 ^ (8 * l.length - 1 - i) % 2
  | [], i, h, _ => by simp at h
  | b :: bs, i, h, hb => by
    have hr : wordBE bs < 2 ^ (8 * bs.length) := by
      have := wordBE_lt bs (fun x hx => hb x (List.mem_cons_of_mem _ hx))
      rwa [pow_mul]
    have p : (256 : Nat) ^ bs.length = 2 ^ (8 * bs.length) := by rw [pow_mul]; norm_num
    rw [wordBE_cons, p]
    by_cases hi : i < 8
    · refine ⟨b, ?_, ?_⟩
      · have : i / 8 = 0 := by omega
        rw [this]; rfl
      · have e : 8 * (b :: bs).length - 1 - i = 8 * bs.length + (7 - i) := by
          simp only [List.length_cons]; omega
        have e2 : i % 8 = i := by omega
        rw [e, e2, pow_add, ← Nat.div_div_eq_div_mul, Nat.and_one_is_mod,
          Nat.shiftRight_eq_div_pow]
        congr 2
        rw [Nat.mul_comm b, Nat.mul_add_div (Nat.two_pow_pos _), Nat.div_eq_of_lt hr]
        simp
    · obtain ⟨j, rfl⟩ : ∃ j, i = j + 8 := ⟨i - 8, by omega⟩
      have hj : j < 8 * bs.length := by simp only [List.length_cons] at h; omega
      obtain ⟨byte, h1, h2⟩ := byte_bit bs j hj (fun x hx => hb x (List.mem_cons_of_mem _ hx))
      refine ⟨byte, ?_, ?_⟩
      · have : (j + 8) / 8 = j / 8 + 1 := by omega
        rw [this]; simpa using h1
      · have e2 : (j + 8) % 8 = j % 8 := by omega
        rw [e2, h2]
        have e : 8 * (b :: bs).length - 1 - (j + 8) = 8 * bs.length - 1 - j := by
          simp only [List.length_cons]; omega
        rw [e]
        set k := 8 * bs.length - 1 - j with hk
        have q : 2 ^ (8 * bs.length) = 2 ^ k * (2 * 2 ^ (8 * bs.length - k - 1)) := by
          rw [← pow_succ', ← pow_add]; congr 1; omega
        rw [q, ← Nat.mul_assoc, Nat.mul_comm b, Nat.mul_assoc, Nat.mul_add_div (Nat.two_pow_pos _)]
        rw [Nat.mul_comm 2, ← Nat.mul_assoc, Nat.add_comm, Nat.add_mul_mod_self_right]

theorem choose_spec (node : trieEntry) (ip : List Nat) (c : Nat) (hb : node.bitAtByte = c / 8)
    (hs : node.bitAtShift = 7 - c % 8) (hc : c < 8 * ip.length) (bytes : ∀ b ∈ ip, b < 256) :
    choose node ip = some (bitAt ip c) := by
  obtain ⟨byte, h1, h2⟩ := byte_bit ip c hc bytes
  unfold choose bitAt
  rw [hb, hs, h1]
  simp only [h2]

theorem bitAt_lt (ip : List Nat) (c : Nat) : bitAt ip c < 2 := by
  unfold bitAt; omega

/-! ## Masking -/

set_option maxRecDepth 100000 in
theorem and_maskByte : ∀ n, n < 8 → ∀ b, b < 256 →
    b &&& ((0xff ^^^ (0xff >>> n)) % 256) = b / 2 ^ (8 - n) * 2 ^ (8 - n) := by
  decide

theorem maskLoop_spec : ∀ (l : List Nat) (n : Nat), n ≤ 8 * l.length → (∀ b ∈ l, b < 256) →
    (maskLoop l (maskBytes l.length n)).length = l.length ∧
    (∀ b ∈ maskLoop l (maskBytes l.length n), b < 256) ∧
    wordBE (maskLoop l (maskBytes l.length n)) =
      wordBE l / 2 ^ (8 * l.length - n) * 2 ^ (8 * l.length - n)
  | [], n, _, _ => by simp [maskBytes, maskLoop, wordBE_nil]
  | b :: bs, n, hn, hb => by
    have hb0 : b < 256 := hb b (List.mem_cons_self _ _)
    have hbs : ∀ x ∈ bs, x < 256 := fun x hx => hb x (List.mem_cons_of_mem _ hx)
    have hr : wordBE bs < 2 ^ (8 * bs.length) := by
      have := wordBE_lt bs hbs
      rwa [pow_mul]
    have p : (256 : Nat) ^ bs.length = 2 ^ (8 * bs.length) := by rw [pow_mul]; norm_num
    simp only [List.length_cons] at hn
    simp only [List.length_cons, maskBytes, maskLoop]
    by_cases h8 : n ≥ 8
    · obtain ⟨i1, i2, i3⟩ := maskLoop_spec bs (n - 8) (by omega) hbs
      have hm : b &&& maskByte n = b := by
        have : maskByte n = 2 ^ 8 - 1 := by simp [maskByte, h8]
        rw [this]
        exact Nat.and_pow_two_sub_one_of_lt_two_pow (by simpa using hb0)
      rw [hm]
      refine ⟨by simp [i1], ?_, ?_⟩
      · intro x hx
        rcases List.mem_cons.mp hx with rfl | hx
        · exact hb0
        · exact i2 x hx
      · rw [wordBE_cons, wordBE_cons, i1, i3, p]
        have e : 8 * bs.length - (n - 8) = 8 * (bs.length + 1) - n := by omega
        rw [e]
        set k := 8 * (bs.length + 1) - n with hk
        have q : 2 ^ (8 * bs.length) = 2 ^ k * 2 ^ (8 * bs.length - k) := by
          rw [← pow_add]; congr 1; omega
        rw [q, ← Nat.mul_assoc, Nat.mul_comm b, Nat.mul_assoc,
          Nat.mul_add_div (Nat.two_pow_pos _)]
        ring
    · obtain ⟨i1, i2, i3⟩ := maskLoop_spec bs (n - 8) (by omega) hbs
      have hm : b &&& maskByte n = b / 2 ^ (8 - n) * 2 ^ (8 - n) := by
        have : maskByte n = (0xff ^^^ (0xff >>> n)) % 256 := by simp [maskByte, h8]
        rw [this]
        exact and_maskByte n (by omega) b hb0
      rw [hm]
      have hle : b / 2 ^ (8 - n) * 2 ^ (8 - n) ≤ b := Nat.div_mul_le_self _ _
      refine ⟨by simp [i1], ?_, ?_⟩
      · intro x hx
        rcases List.mem_cons.mp hx with rfl | hx
        · omega
        · exact i2 x hx
      · rw [wordBE_cons, wordBE_cons, i1, i3, p]
        have e : n - 8 = 0 := by omega
        rw [e, Nat.sub_zero, Nat.div_eq_of_lt hr, Nat.zero_mul, Nat.add_zero]
        have e2 : 8 * (bs.length + 1) - n = 8 * bs.length + (8 - n) := by omega
        rw [e2, pow_add, ← Nat.div_div_eq_div_mul]
        rw [Nat.mul_comm b, Nat.mul_add_div (Nat.two_pow_pos _), Nat.div_eq_of_lt hr]
        simp only [Nat.add_zero]
        ring

theorem CIDRMask_eq (w c : Nat) (hw : w = 4 ∨ w = 16) (hc : c ≤ 8 * w) :
    CIDRMask c (w * 8) = maskBytes w c := by
  unfold CIDRMask
  rcases hw with rfl | rfl
  · simp [IPv4len, IPv6len]; omega
  · simp [IPv4len, IPv6len]; omega

theorem maskSelf_spec (w : Nat) (hw : w = 4 ∨ w = 16) (ip : List Nat) (c : Nat) (hc : c ≤ 8 * w)
    (h : IsAddr w ip) :
    IsAddr w (maskSelf ip c) ∧
      wordBE (maskSelf ip c) = wordBE ip / 2 ^ (8 * w - c) * 2 ^ (8 * w - c) := by
  unfold maskSelf
  rw [h.1, CIDRMask_eq w c hw hc]
  have := maskLoop_spec ip c (by rw [h.1]; exact hc) h.2
  rw [h.1] at this
  exact ⟨⟨this.1, this.2.1⟩, this.2.2⟩

/-! ## Prefixes -/

theorem Matches.refl (a : List Nat) (c : Nat) : Matches a c a := rfl

theorem Matches.symm {a b : List Nat} {c : Nat} (h : Matches a c b) : Matches b c a := Eq.symm h

theorem Matches.trans {a b d : List Nat} {c : Nat} (h : Matches a c b) (h2 : Matches b c d) :
    Matches a c d := Eq.trans h h2

theorem Matches.mono {a b : List Nat} {c c' : Nat} (hl : a.length = b.length)
    (h : Matches a c b) (hc : c' ≤ c) : Matches a c' b := by
  unfold Matches topBits at *
  rw [← hl] at h ⊢
  by_cases hW : 8 * a.length ≤ c
  · have e : 8 * a.length - c = 0 := by omega
    rw [e] at h
    simp only [pow_zero, Nat.div_one] at h
    rw [h]
  · have e : 8 * a.length - c' = (8 * a.length - c) + (c - c') := by omega
    rw [e, pow_add, ← Nat.div_div_eq_div_mul, ← Nat.div_div_eq_div_mul, h]

theorem topBits_succ (a : List Nat) (c : Nat) (hc : c < 8 * a.length) :
    topBits a (c + 1) = 2 * topBits a c + bitAt a c := by
  unfold topBits bitAt
  have e : 8 * a.length - c = (8 * a.length - 1 - c) + 1 := by omega
  have e2 : 8 * a.length - (c + 1) = 8 * a.length - 1 - c := by omega
  rw [e, e2, pow_succ, ← Nat.div_div_eq_div_mul]
  omega

theorem Matches.succ_iff {a b : List Nat} {c : Nat} (hl : a.length = b.length)
    (hc : c < 8 * a.length) :
    Matches a (c + 1) b ↔ Matches a c b ∧ bitAt a c = bitAt b c := by
  unfold Matches
  rw [topBits_succ a c hc, topBits_succ b c (hl ▸ hc)]
  have := bitAt_lt a c
  have := bitAt_lt b c
  constructor
  · intro h; constructor <;> omega
  · rintro ⟨h1, h2⟩; omega

theorem Matches.bitAt_eq {a b : List Nat} {c i : Nat} (hl : a.length = b.length)
    (h : Matches a c b) (hi : i < c) (hW : i < 8 * a.length) : bitAt a i = bitAt b i :=
  ((Matches.succ_iff hl hW).1 (h.mono hl hi)).2

theorem Masked.eq {w : Nat} {a b : List Nat} {c : Nat} (ha : IsAddr w a) (hb : IsAddr w b)
    (ma : Masked a c) (mb : Masked b c) (h : Matches a c b) : a = b := by
  apply wordBE_inj a b (by rw [ha.1, hb.1]) ha.2 hb.2
  unfold Masked at ma mb
  unfold Matches topBits at h
  rw [ha.1] at ma h
  rw [hb.1] at mb h
  rw [← Nat.div_add_mod (wordBE a) (2 ^ (8 * w - c)), ← Nat.div_add_mod (wordBE b) (2 ^ (8 * w - c)),
    ma, mb, h]

theorem maskSelf_isAddr {w : Nat} (hw : w = 4 ∨ w = 16) {ip : List Nat} {c : Nat} (hc : c ≤ 8 * w)
    (h : IsAddr w ip) : IsAddr w (maskSelf ip c) := (maskSelf_spec w hw ip c hc h).1

theorem maskSelf_masked {w : Nat} (hw : w = 4 ∨ w = 16) {ip : List Nat} {c : Nat} (hc : c ≤ 8 * w)
    (h : IsAddr w ip) : Masked (maskSelf ip c) c := by
  obtain ⟨h1, h2⟩ := maskSelf_spec w hw ip c hc h
  unfold Masked
  rw [h1.1, h2]
  exact Nat.mul_mod_left _ _

theorem maskSelf_matches {w : Nat} (hw : w = 4 ∨ w = 16) {ip : List Nat} {c : Nat} (hc : c ≤ 8 * w)
    (h : IsAddr w ip) : Matches (maskSelf ip c) c ip := by
  obtain ⟨h1, h2⟩ := maskSelf_spec w hw ip c hc h
  unfold Matches topBits
  rw [h1.1, h.1, h2, Nat.mul_div_cancel _ (Nat.two_pow_pos _)]

theorem Masked.weaken {a : List Nat} {c c' : Nat} (h : Masked a c) (hc : c ≤ c') : Masked a c' := by
  unfold Masked at *
  have d : 2 ^ (8 * a.length - c') ∣ 2 ^ (8 * a.length - c) := Nat.pow_dvd_pow 2 (by omega)
  exact Nat.mod_eq_zero_of_dvd (Nat.dvd_trans d (Nat.dvd_of_mod_eq_zero h))

/-- Two addresses match on their top `c` bits exactly when their first `c` bits are
equal one by one. -/
theorem matches_iff_bits {w : Nat} {a q : List Nat} (ha : IsAddr w a) (hq : IsAddr w q) :
    ∀ c, c ≤ 8 * w → (Matches a c q ↔ ∀ i, i < c → bitAt a i = bitAt q i) := by
  have hl : a.length = q.length := by rw [ha.1, hq.1]
  intro c
  induction c with
  | zero =>
    intro _
    have h1 := ha.lt
    have h2 := hq.lt
    simp only [Matches, topBits, ha.1, hq.1, Nat.sub_zero, Nat.div_eq_of_lt h1,
      Nat.div_eq_of_lt h2, true_iff]
    intro i hi
    omega
  | succ c ih =>
    intro hc
    rw [Matches.succ_iff hl (by rw [ha.1]; omega), ih (by omega)]
    constructor
    · rintro ⟨h1, h2⟩ i hi
      by_cases hic : i = c
      · rw [hic]; exact h2
      · exact h1 i (by omega)
    · intro h
      exact ⟨fun i hi => h i (by omega), h c (by omega)⟩

/-- Bit `i` of an address, read in its byte: the byte of index `i / 8`, shifted right by
`7 - i % 8`. -/
theorem bitAt_eq_byte {w : Nat} {a : List Nat} (ha : IsAddr w a) {i : Nat} (hi : i < 8 * w) :
    ∃ byte, a.get? (i / 8) = some byte ∧ bitAt a i = (byte >>> (7 - i % 8)) &&& 1 := by
  obtain ⟨byte, h1, h2⟩ := byte_bit a i (by rw [ha.1]; exact hi) ha.2
  exact ⟨byte, h1, h2.symm⟩


/-! ## Well-formed tries -/

theorem mem_own {p : Option Peer} {bs : List Nat} {c : Nat} {x : List Nat × Nat × Peer} :
    x ∈ own p bs c ↔ x.1 = bs ∧ x.2.1 = c ∧ p = some x.2.2 := by
  obtain ⟨a, d, q⟩ := x
  cases p with
  | none => simp [own]
  | some r =>
    simp only [own, List.mem_singleton, Prod.mk.injEq, Option.some.injEq]
    constructor
    · rintro ⟨rfl, rfl, rfl⟩; exact ⟨rfl, rfl, rfl⟩
    · rintro ⟨rfl, rfl, rfl⟩; exact ⟨rfl, rfl, rfl⟩

theorem mem_bindings_node {p : Option Peer} {c0 c1 : trieEntry} {c b s : Nat} {bs : List Nat}
    {e : Option Nat} {x : List Nat × Nat × Peer} :
    x ∈ bindings (.node p c0 c1 c b s bs e) ↔
      x ∈ own p bs c ∨ x ∈ bindings c0 ∨ x ∈ bindings c1 := by
  simp [bindings, List.mem_append]

theorem WF.nodeOK {w : Nat} {t : trieEntry} (h : WF w t) (hn : t ≠ .null) :
    NodeOK w t.cidr t.bitAtByte t.bitAtShift t.bits := by
  cases t with
  | null => exact absurd rfl hn
  | node p c0 c1 c b s bs e => exact h.1

theorem WF.child {w : Nat} {t : trieEntry} (h : WF w t) (bit : Nat) : WF w (t.child bit) := by
  cases t with
  | null => exact h
  | node p c0 c1 c b s bs e =>
    simp only [trieEntry.child]
    split
    · exact h.2.2.2.1
    · exact h.2.2.2.2

theorem WF.below {w : Nat} {t : trieEntry} (h : WF w t) (bit : Nat) (hb : bit < 2) :
    Below t.bits t.cidr bit (t.child bit) := by
  cases t with
  | null => exact Or.inl rfl
  | node p c0 c1 c b s bs e =>
    simp only [trieEntry.child, trieEntry.bits, trieEntry.cidr]
    split
    · next h0 => subst h0; exact h.2.1
    · next h0 =>
      have : bit = 1 := by omega
      subst this; exact h.2.2.1

/-- Every binding of a well-formed trie lies under the prefix of the root. -/
theorem WF.sub {w : Nat} {t : trieEntry} (h : WF w t) : ∀ x ∈ bindings t,
    t.cidr ≤ x.2.1 ∧ Matches x.1 t.cidr t.bits ∧ IsAddr w x.1 ∧ x.2.1 ≤ 8 * w ∧ Masked x.1 x.2.1 := by
  induction t with
  | null => intro x hx; simp [bindings] at hx
  | node p c0 c1 c b s bs e ih0 ih1 =>
    intro x hx
    obtain ⟨ok, b0, b1, w0, w1⟩ := h
    simp only [trieEntry.cidr, trieEntry.bits]
    have key : ∀ (ci : trieEntry) (bit : Nat), Below bs c bit ci → WF w ci → x ∈ bindings ci →
        (ci.cidr ≤ x.2.1 ∧ Matches x.1 ci.cidr ci.bits ∧ IsAddr w x.1 ∧ x.2.1 ≤ 8 * w ∧
          Masked x.1 x.2.1) →
        c ≤ x.2.1 ∧ Matches x.1 c bs ∧ IsAddr w x.1 ∧ x.2.1 ≤ 8 * w ∧ Masked x.1 x.2.1 := by
      intro ci bit bl wi hxi ih
      obtain ⟨i1, i2, i3, i4, i5⟩ := ih
      rcases bl with rfl | ⟨l1, l2, _⟩
      · simp [bindings] at hxi
      · have hci : ci ≠ .null := by rintro rfl; simp [bindings] at hxi
        have okc := wi.nodeOK hci
        refine ⟨by omega, ?_, i3, i4, i5⟩
        exact (i2.mono (by rw [i3.1, okc.1.1]) (le_of_lt l1)).trans l2
    rcases mem_bindings_node.mp hx with h1 | h1 | h1
    · obtain ⟨e1, e2, _⟩ := mem_own.mp h1
      rw [e1, e2]
      exact ⟨le_refl _, rfl, ok.1, ok.2.1, ok.2.2.2.2⟩
    · exact key c0 0 b0 w0 h1 (ih0 w0 x h1)
    · exact key c1 1 b1 w1 h1 (ih1 w1 x h1)

/-- A binding below a child slot is strictly deeper than the parent and carries the
bit of the slot. -/
theorem Below.sub_bit {w : Nat} {a : List Nat} {c bit : Nat} {t : trieEntry} (hb : Below a c bit t)
    (h : WF w t) (hc : c < 8 * w) (x : List Nat × Nat × Peer) (hx : x ∈ bindings t) :
    c < x.2.1 ∧ bitAt x.1 c = bit := by
  obtain ⟨i1, i2, i3, i4, i5⟩ := h.sub x hx
  rcases hb with rfl | ⟨l1, l2, l3⟩
  · simp [bindings] at hx
  · have hci : t ≠ .null := by rintro rfl; simp [bindings] at hx
    have okc := h.nodeOK hci
    refine ⟨by omega, ?_⟩
    rw [← l3]
    exact i2.bitAt_eq (by rw [i3.1, okc.1.1]) l1 (by rw [i3.1]; exact hc)

/-- A node at full depth has no child. -/
theorem Below.null_of_full {w : Nat} {a : List Nat} {bit : Nat} {t : trieEntry}
    (hb : Below a (8 * w) bit t) (h : WF w t) : t = .null := by
  rcases hb with rfl | ⟨l1, _, _⟩
  · rfl
  · by_contra hn
    have := (h.nodeOK hn).2.1
    omega

/-- The test of the loops of `lookup` and `nodePlacement`. -/
theorem commonBits_ge_iff (le : Bool) {w : Nat} (hw : w = 4 ∨ w = 16) {a q : List Nat}
    (ha : IsAddr w a) (hq : IsAddr w q) {c : Nat} (hc : c ≤ 8 * w) :
    ∃ n, commonBits le a q = some n ∧ n ≤ 8 * w ∧ (n ≥ c ↔ Matches a c q) := by
  obtain ⟨n, h1, h2, h3⟩ := commonBits_spec le w hw a q ha hq
  exact ⟨n, h1, h2, h3 c hc⟩

theorem lookupLoop_spec (le : Bool) {w : Nat} (hw : w = 4 ∨ w = 16) {q : List Nat}
    (hq : IsAddr w q) (t : trieEntry) : WF w t → ∀ found : Option Peer,
    ∃ r, lookupLoop le q w t found = some r ∧
      ((r = found ∧ ∀ x ∈ bindings t, ¬ Matches x.1 x.2.1 q) ∨
       (∃ p, r = some p ∧ IsLPM (bindings t) q (some p))) := by
  induction t with
  | null => exact fun _ found => ⟨found, rfl, Or.inl ⟨rfl, by simp [bindings]⟩⟩
  | node p c0 c1 c b s bs e ih0 ih1 =>
    intro h found
    obtain ⟨ok, b0, b1, w0, w1⟩ := h
    obtain ⟨okA, okc, okb, oks, okm⟩ := ok
    obtain ⟨n, hn, _, hiff⟩ := commonBits_ge_iff le hw okA hq okc
    unfold lookupLoop
    simp only [hn]
    have hwf : WF w (.node p c0 c1 c b s bs e) := ⟨⟨okA, okc, okb, oks, okm⟩, b0, b1, w0, w1⟩
    by_cases hm : n ≥ c
    · have hM : Matches bs c q := hiff.1 hm
      simp only [hm, if_true]
      -- the tentative answer after this node
      have ownCase : ∀ r : Option Peer, r = (if p ≠ none then p else found) →
          (∀ x ∈ bindings c0, ¬ Matches x.1 x.2.1 q) → (∀ x ∈ bindings c1, ¬ Matches x.1 x.2.1 q) →
          ((r = found ∧ ∀ x ∈ bindings (.node p c0 c1 c b s bs e), ¬ Matches x.1 x.2.1 q) ∨
            (∃ pp, r = some pp ∧ IsLPM (bindings (.node p c0 c1 c b s bs e)) q (some pp))) := by
        intro r hr n0 n1
        cases p with
        | none =>
          left
          refine ⟨by simpa using hr, ?_⟩
          intro x hx
          rcases mem_bindings_node.mp hx with h1 | h1 | h1
          · simp [own] at h1
          · exact n0 x h1
          · exact n1 x h1
        | some pp =>
          right
          refine ⟨pp, by simpa using hr, bs, c, ?_, hM, ?_⟩
          · exact mem_bindings_node.mpr (Or.inl (by simp [own]))
          · intro x hx hxm
            rcases mem_bindings_node.mp hx with h1 | h1 | h1
            · right; simpa [own] using h1
            · exact absurd hxm (n0 x h1)
            · exact absurd hxm (n1 x h1)
      by_cases hfull : b = w
      · simp only [hfull, if_true]
        have hc8 : c = 8 * w := by omega
        subst hc8
        have e0 := b0.null_of_full w0
        have e1 := b1.null_of_full w1
        subst e0; subst e1
        exact ⟨_, rfl, ownCase _ rfl (by simp [bindings]) (by simp [bindings])⟩
      · simp only [hfull, if_false]
        have hc8 : c < 8 * w := by omega
        have hch := choose_spec (.node p c0 c1 c b s bs e) q c okb oks (by rw [hq.1]; exact hc8) hq.2
        rw [hch]
        simp only
        -- descend into the child of the bit of `q`
        have descend : ∀ (ci cj : trieEntry) (i j : Nat), bitAt q c = i → i ≠ j →
            Below bs c i ci → Below bs c j cj → WF w ci → WF w cj →
            (∀ found' : Option Peer, ∃ r, lookupLoop le q w ci found' = some r ∧
              ((r = found' ∧ ∀ x ∈ bindings ci, ¬ Matches x.1 x.2.1 q) ∨
               (∃ p, r = some p ∧ IsLPM (bindings ci) q (some p)))) →
            (∀ x, x ∈ bindings (.node p c0 c1 c b s bs e) ↔
              x ∈ own p bs c ∨ x ∈ bindings ci ∨ x ∈ bindings cj) →
            ∃ r, lookupLoop le q w ci (if p ≠ none then p else found) = some r ∧
              ((r = found ∧ ∀ x ∈ bindings (.node p c0 c1 c b s bs e), ¬ Matches x.1 x.2.1 q) ∨
               (∃ pp, r = some pp ∧ IsLPM (bindings (.node p c0 c1 c b s bs e)) q (some pp))) := by
          intro ci cj i j hbit hij bi bj wi wj ih hmem
          have nj : ∀ x ∈ bindings cj, ¬ Matches x.1 x.2.1 q := by
            intro x hx hxm
            obtain ⟨l1, l2⟩ := bj.sub_bit wj hc8 x hx
            have ax := (wj.sub x hx).2.2.1
            have := hxm.bitAt_eq (by rw [ax.1, hq.1]) l1 (by rw [ax.1]; exact hc8)
            omega
          obtain ⟨r, hr, hcase⟩ := ih (if p ≠ none then p else found)
          refine ⟨r, hr, ?_⟩
          rcases hcase with ⟨hrf, ni⟩ | ⟨pp, hpp, a', c', hin, hmat, hmax⟩
          · have n0 : ∀ x ∈ bindings c0, ¬ Matches x.1 x.2.1 q := by
              intro x hx
              rcases (hmem x).1 (mem_bindings_node.mpr (Or.inr (Or.inl hx))) with h1 | h1 | h1
              · intro _
                have := (mem_own.mp h1).2.1
                have := (b0.sub_bit w0 hc8 x hx).1
                omega
              · exact ni x h1
              · exact nj x h1
            have n1 : ∀ x ∈ bindings c1, ¬ Matches x.1 x.2.1 q := by
              intro x hx
              rcases (hmem x).1 (mem_bindings_node.mpr (Or.inr (Or.inr hx))) with h1 | h1 | h1
              · intro _
                have := (mem_own.mp h1).2.1
                have := (b1.sub_bit w1 hc8 x hx).1
                omega
              · exact ni x h1
              · exact nj x h1
            exact ownCase r hrf n0 n1
          · right
            refine ⟨pp, hpp, a', c', (hmem _).2 (Or.inr (Or.inl hin)), hmat, ?_⟩
            intro x hx hxm
            rcases (hmem x).1 hx with h1 | h1 | h1
            · left
              have := (mem_own.mp h1).2.1
              have := (bi.sub_bit wi hc8 _ hin).1
              simp only at this
              omega
            · exact hmax x h1 hxm
            · exact absurd hxm (nj x h1)
        have hlt := bitAt_lt q c
        by_cases hb0 : bitAt q c = 0
        · simp only [hb0, if_true]
          exact descend c0 c1 0 1 hb0 (by omega) b0 b1 w0 w1 (ih0 w0) (fun x => mem_bindings_node)
        · simp only [hb0, if_false]
          have hb1 : bitAt q c = 1 := by omega
          refine descend c1 c0 1 0 hb1 (by omega) b1 b0 w1 w0 (ih1 w1) (fun x => ?_)
          rw [mem_bindings_node]
          constructor
          · rintro (h | h | h)
            · exact Or.inl h
            · exact Or.inr (Or.inr h)
            · exact Or.inr (Or.inl h)
          · rintro (h | h | h)
            · exact Or.inl h
            · exact Or.inr (Or.inr h)
            · exact Or.inr (Or.inl h)
    · simp only [hm, if_false]
      refine ⟨found, rfl, Or.inl ⟨rfl, ?_⟩⟩
      intro x hx hxm
      obtain ⟨i1, i2, i3, i4, i5⟩ := hwf.sub x hx
      simp only [trieEntry.cidr, trieEntry.bits] at i1 i2
      apply hm
      apply hiff.2
      exact i2.symm.trans (hxm.mono (by rw [i3.1, hq.1]) i1)

/-- On a well-formed trie `lookup` returns, and returns the longest-prefix match. -/
theorem lookup_spec (le : Bool) {w : Nat} (hw : w = 4 ∨ w = 16) {q : List Nat}
    (hq : IsAddr w q) (t : trieEntry) (h : WF w t) :
    ∃ r, lookup le t q = some r ∧ IsLPM (bindings t) q r := by
  have hsz : q.length % 256 = w := by
    rw [hq.1]; rcases hw with rfl | rfl <;> rfl
  obtain ⟨r, h1, h2⟩ := lookupLoop_spec le hw hq t h none
  refine ⟨r, by unfold lookup; rw [hsz]; exact h1, ?_⟩
  rcases h2 with ⟨rfl, hn⟩ | ⟨p, rfl, hp⟩
  · exact hn
  · exact hp


/-! ## Nodes, paths and slots -/

theorem mem_bindings_iff {t : trieEntry} {x : List Nat × Nat × Peer} :
    x ∈ bindings t ↔ ∃ e, (some x.2.2, e, x.1, x.2.1) ∈ entries t := by
  induction t with
  | null => simp [bindings, entries]
  | node p c0 c1 c b s bs e ih0 ih1 =>
    rw [mem_bindings_node, mem_own, ih0, ih1]
    simp only [entries, List.mem_cons, List.mem_append, Prod.mk.injEq]
    constructor
    · rintro (⟨h1, h2, h3⟩ | ⟨e', h⟩ | ⟨e', h⟩)
      · exact ⟨e, Or.inl ⟨h3.symm, rfl, h1, h2⟩⟩
      · exact ⟨e', Or.inr (Or.inl h)⟩
      · exact ⟨e', Or.inr (Or.inr h)⟩
    · rintro ⟨e', ⟨h1, h2, h3, h4⟩ | h | h⟩
      · exact Or.inl ⟨h3, h4, h1.symm⟩
      · exact Or.inr (Or.inl ⟨e', h⟩)
      · exact Or.inr (Or.inr ⟨e', h⟩)

theorem entries_null_iff {t : trieEntry} : entries t = [] ↔ t = .null := by
  cases t <;> simp [entries]

/-- Every node of a well-formed trie lies under the prefix of the root. -/
theorem WF.subE {w : Nat} {t : trieEntry} (h : WF w t) : ∀ y ∈ entries t,
    t.cidr ≤ y.2.2.2 ∧ Matches y.2.2.1 t.cidr t.bits ∧ IsAddr w y.2.2.1 ∧ y.2.2.2 ≤ 8 * w ∧
      Masked y.2.2.1 y.2.2.2 := by
  induction t with
  | null => intro y hy; simp [entries] at hy
  | node p c0 c1 c b s bs e ih0 ih1 =>
    intro y hy
    obtain ⟨ok, b0, b1, w0, w1⟩ := h
    simp only [trieEntry.cidr, trieEntry.bits]
    have key : ∀ (ci : trieEntry) (bit : Nat), Below bs c bit ci → WF w ci → y ∈ entries ci →
        (ci.cidr ≤ y.2.2.2 ∧ Matches y.2.2.1 ci.cidr ci.bits ∧ IsAddr w y.2.2.1 ∧ y.2.2.2 ≤ 8 * w ∧
          Masked y.2.2.1 y.2.2.2) →
        c ≤ y.2.2.2 ∧ Matches y.2.2.1 c bs ∧ IsAddr w y.2.2.1 ∧ y.2.2.2 ≤ 8 * w ∧
          Masked y.2.2.1 y.2.2.2 := by
      intro ci bit bl wi hxi ih
      obtain ⟨i1, i2, i3, i4, i5⟩ := ih
      rcases bl with rfl | ⟨l1, l2, _⟩
      · simp [entries] at hxi
      · have hci : ci ≠ .null := by rintro rfl; simp [entries] at hxi
        have okc := wi.nodeOK hci
        refine ⟨by omega, ?_, i3, i4, i5⟩
        exact (i2.mono (by rw [i3.1, okc.1.1]) (le_of_lt l1)).trans l2
    simp only [entries, List.mem_cons, List.mem_append] at hy
    rcases hy with rfl | h1 | h1
    · exact ⟨le_refl _, rfl, ok.1, ok.2.1, ok.2.2.2.2⟩
    · exact key c0 0 b0 w0 h1 (ih0 w0 y h1)
    · exact key c1 1 b1 w1 h1 (ih1 w1 y h1)

theorem Below.subE_bit {w : Nat} {a : List Nat} {c bit : Nat} {t : trieEntry} (hb : Below a c bit t)
    (h : WF w t) (hc : c < 8 * w) (y : Option Peer × Option Nat × List Nat × Nat)
    (hy : y ∈ entries t) : c < y.2.2.2 ∧ bitAt y.2.2.1 c = bit := by
  obtain ⟨i1, i2, i3, i4, i5⟩ := h.subE y hy
  rcases hb with rfl | ⟨l1, l2, l3⟩
  · simp [entries] at hy
  · have hci : t ≠ .null := by rintro rfl; simp [entries] at hy
    have okc := h.nodeOK hci
    refine ⟨by omega, ?_⟩
    rw [← l3]
    exact i2.bitAt_eq (by rw [i3.1, okc.1.1]) l1 (by rw [i3.1]; exact hc)

/-- A prefix names at most one node of a well-formed trie. -/
theorem WF.entries_unique {w : Nat} {t : trieEntry} (h : WF w t) :
    ∀ y ∈ entries t, ∀ z ∈ entries t, y.2.2 = z.2.2 → y = z := by
  induction t with
  | null => intro y hy; simp [entries] at hy
  | node p c0 c1 c b s bs e ih0 ih1 =>
    obtain ⟨ok, b0, b1, w0, w1⟩ := h
    by_cases hfull : c = 8 * w
    · subst hfull
      have e0 := b0.null_of_full w0
      have e1 := b1.null_of_full w1
      subst e0; subst e1
      intro y hy z hz _
      simp only [entries, List.append_nil, List.mem_singleton] at hy hz
      rw [hy, hz]
    · have hc : c < 8 * w := by have := ok.2.1; omega
      have cross : ∀ y ∈ entries c0, ∀ z ∈ entries c1, y.2.2 = z.2.2 → False := by
        intro y hy z hz hyz
        have h1 := (b0.subE_bit w0 hc y hy).2
        have h2 := (b1.subE_bit w1 hc z hz).2
        have : y.2.2.1 = z.2.2.1 := congrArg Prod.fst hyz
        rw [this] at h1
        omega
      have top : ∀ (ci : trieEntry) (bit : Nat), Below bs c bit ci → WF w ci →
          ∀ z ∈ entries ci, (bs, c) = z.2.2 → False := by
        intro ci bit bl wi z hz hyz
        have h1 := (bl.subE_bit wi hc z hz).1
        have : c = z.2.2.2 := congrArg Prod.snd hyz
        omega
      intro y hy z hz hyz
      simp only [entries, List.mem_cons, List.mem_append] at hy hz
      rcases hy with rfl | hy | hy <;> rcases hz with rfl | hz | hz
      · rfl
      · exact (top c0 0 b0 w0 z hz hyz).elim
      · exact (top c1 1 b1 w1 z hz hyz).elim
      · exact (top c0 0 b0 w0 y hy hyz.symm).elim
      · exact ih0 w0 y hy z hz hyz
      · exact (cross y hy z hz hyz).elim
      · exact (top c1 1 b1 w1 y hy hyz.symm).elim
      · exact (cross z hz y hy hyz.symm).elim
      · exact ih1 w1 y hy z hz hyz

namespace trieEntry

theorem cidr_node (p : Option Peer) (c0 c1 : trieEntry) (c b s : Nat) (bs : List Nat)
    (e : Option Nat) : (node p c0 c1 c b s bs e).cidr = c := rfl

theorem bits_node (p : Option Peer) (c0 c1 : trieEntry) (c b s : Nat) (bs : List Nat)
    (e : Option Nat) : (node p c0 c1 c b s bs e).bits = bs := rfl

theorem peer_node (p : Option Peer) (c0 c1 : trieEntry) (c b s : Nat) (bs : List Nat)
    (e : Option Nat) : (node p c0 c1 c b s bs e).peer = p := rfl

theorem set_append_singleton (t : trieEntry) (rel : List Nat) (bit : Nat) (x : trieEntry) :
    t.set (rel ++ [bit]) x = t.set rel ((t.get rel).setChild bit x) := by
  induction rel generalizing t with
  | nil => rfl
  | cons b r ih =>
    show t.setChild b ((t.child b).set (r ++ [bit]) x) = _
    rw [ih]; rfl

theorem get_append (t : trieEntry) (p q : List Nat) : t.get (p ++ q) = (t.get p).get q := by
  induction p generalizing t with
  | nil => rfl
  | cons b r ih => exact ih (t.child b)

theorem get_null (p : List Nat) : (null : trieEntry).get p = null := by
  induction p with
  | nil => rfl
  | cons b r ih => simp only [get, child]; exact ih

theorem child_ne_null {t : trieEntry} {bit : Nat} (h : t.child bit ≠ null) : t ≠ null := by
  rintro rfl; exact h rfl

theorem setChild_fields (t : trieEntry) (bit : Nat) (x : trieEntry) :
    (t.setChild bit x).cidr = t.cidr ∧ (t.setChild bit x).bits = t.bits ∧
    (t.setChild bit x).peer = t.peer ∧ (t.setChild bit x).bitAtByte = t.bitAtByte ∧
    (t.setChild bit x).bitAtShift = t.bitAtShift ∧ (t.setChild bit x).perPeerElem = t.perPeerElem ∧
    (t ≠ null → t.setChild bit x ≠ null) := by
  cases t with
  | null => simp [setChild]
  | node p c0 c1 c b s bs e =>
    simp only [setChild]
    split <;> simp [cidr, bits, peer, bitAtByte, bitAtShift, perPeerElem]

end trieEntry

/-- Writing a subtree with the same root prefix into an occupied slot keeps the trie
well formed. -/
theorem WF.at_set {w : Nat} {x : trieEntry} (hx : WF w x) (hxn : x ≠ .null) :
    ∀ (rel : List Nat) (t : trieEntry), WF w t → t.get rel ≠ .null →
      x.cidr = (t.get rel).cidr → x.bits = (t.get rel).bits →
      WF w (t.set rel x) ∧ (t.set rel x) ≠ .null ∧ (t.set rel x).cidr = t.cidr ∧
        (t.set rel x).bits = t.bits
  | [], t, _, _, hc, hb => ⟨hx, hxn, hc, hb⟩
  | bit :: r, t, h, hg, hc, hb => by
    cases t with
    | null => exact absurd (trieEntry.get_null _) hg
    | node p c0 c1 c b s bs e =>
      obtain ⟨ok, b0, b1, w0, w1⟩ := h
      simp only [trieEntry.get, trieEntry.child] at hg hc hb
      simp only [trieEntry.set, trieEntry.child, trieEntry.setChild]
      have keep : ∀ (ci : trieEntry) (i : Nat), Below bs c i ci → ci.get r ≠ .null →
          (ci.set r x) ≠ .null → (ci.set r x).cidr = ci.cidr → (ci.set r x).bits = ci.bits →
          Below bs c i (ci.set r x) := by
        intro ci i bl hgi hn e1 e2
        rcases bl with rfl | bl
        · exact absurd (trieEntry.get_null _) hgi
        · right; rw [e1, e2]; exact bl
      by_cases h0 : bit = 0
      · simp only [h0, if_true] at hg hc hb ⊢
        obtain ⟨i1, i2, i3, i4⟩ := WF.at_set hx hxn r c0 w0 hg hc hb
        exact ⟨⟨ok, keep c0 0 b0 hg i2 i3 i4, b1, i1, w1⟩, by simp, rfl, rfl⟩
      · simp only [h0, if_false] at hg hc hb ⊢
        obtain ⟨i1, i2, i3, i4⟩ := WF.at_set hx hxn r c1 w1 hg hc hb
        exact ⟨⟨ok, b0, keep c1 1 b1 hg i2 i3 i4, w0, i1⟩, by simp, rfl, rfl⟩

theorem Full.full_set {x : trieEntry} (hx : Full x) (hxn : x ≠ .null) :
    ∀ (rel : List Nat) (t : trieEntry), Full t → t.get rel ≠ .null →
      Full (t.set rel x) ∧ (t.set rel x) ≠ .null
  | [], t, _, _ => ⟨hx, hxn⟩
  | bit :: r, t, h, hg => by
    cases t with
    | null => exact absurd (trieEntry.get_null _) hg
    | node p c0 c1 c b s bs e =>
      obtain ⟨hp, f0, f1⟩ := h
      simp only [trieEntry.get, trieEntry.child] at hg
      simp only [trieEntry.set, trieEntry.child, trieEntry.setChild]
      by_cases h0 : bit = 0
      · simp only [h0, if_true] at hg ⊢
        obtain ⟨i1, i2⟩ := Full.full_set hx hxn r c0 f0 hg
        exact ⟨⟨fun hnone => ⟨i2, (hp hnone).2⟩, i1, f1⟩, by simp⟩
      · simp only [h0, if_false] at hg ⊢
        obtain ⟨i1, i2⟩ := Full.full_set hx hxn r c1 f1 hg
        exact ⟨⟨fun hnone => ⟨(hp hnone).1, i2⟩, f0, i1⟩, by simp⟩

/-- The nodes of a trie after a write into an occupied slot. -/
theorem entries_set (x : trieEntry) : ∀ (rel : List Nat) (t : trieEntry), t.get rel ≠ .null →
    List.Perm (entries (t.set rel x) ++ entries (t.get rel)) (entries t ++ entries x)
  | [], t, _ => List.perm_append_comm
  | bit :: r, t, hg => by
    cases t with
    | null => exact absurd (trieEntry.get_null _) hg
    | node p c0 c1 c b s bs e =>
      simp only [trieEntry.get, trieEntry.child] at hg ⊢
      simp only [trieEntry.set, trieEntry.child, trieEntry.setChild]
      by_cases h0 : bit = 0
      · simp only [h0, if_true] at hg ⊢
        have ih := entries_set x r c0 hg
        simp only [entries, List.cons_append, List.perm_cons, List.append_assoc]
        have e1 : List.Perm (entries (c0.set r x) ++ (entries c1 ++ entries (c0.get r)))
            ((entries (c0.set r x) ++ entries (c0.get r)) ++ entries c1) := by
          rw [List.append_assoc]
          exact List.Perm.append_left _ List.perm_append_comm
        have e2 : List.Perm ((entries c0 ++ entries x) ++ entries c1)
            (entries c0 ++ (entries c1 ++ entries x)) := by
          rw [List.append_assoc]
          exact List.Perm.append_left _ List.perm_append_comm
        exact e1.trans ((ih.append_right _).trans e2)
      · simp only [h0, if_false] at hg ⊢
        have ih := entries_set x r c1 hg
        simp only [entries, List.cons_append, List.perm_cons, List.append_assoc]
        exact List.Perm.append_left _ (by simpa using ih)

theorem get_set (x : trieEntry) : ∀ (rel : List Nat) (t : trieEntry), t.get rel ≠ .null →
    (t.set rel x).get rel = x
  | [], _, _ => rfl
  | bit :: r, t, hg => by
    cases t with
    | null => exact absurd (trieEntry.get_null _) hg
    | node p c0 c1 c b s bs e =>
      simp only [trieEntry.get, trieEntry.child] at hg ⊢
      simp only [trieEntry.set, trieEntry.child, trieEntry.setChild]
      by_cases h0 : bit = 0
      · simp only [h0, if_true] at hg ⊢
        exact get_set x r c0 hg
      · simp only [h0, if_false] at hg ⊢
        exact get_set x r c1 hg

theorem entries_get_subset : ∀ (rel : List Nat) (t : trieEntry),
    ∀ y ∈ entries (t.get rel), y ∈ entries t
  | [], _, y, hy => hy
  | bit :: r, t, y, hy => by
    cases t with
    | null => rw [trieEntry.get_null] at hy; exact hy
    | node p c0 c1 c b s bs e =>
      simp only [trieEntry.get, trieEntry.child] at hy
      simp only [entries, List.mem_cons, List.mem_append]
      by_cases h0 : bit = 0
      · simp only [h0, if_true] at hy
        exact Or.inr (Or.inl (entries_get_subset r c0 y hy))
      · simp only [h0, if_false] at hy
        exact Or.inr (Or.inr (entries_get_subset r c1 y hy))

theorem WF.at_get {w : Nat} : ∀ (rel : List Nat) (t : trieEntry), WF w t → WF w (t.get rel)
  | [], _, h => h
  | bit :: r, t, h => WF.at_get r (t.child bit) (h.child bit)


/-! ## Placement -/

theorem nodePlacementLoop_spec (le : Bool) {w : Nat} (hw : w = 4 ∨ w = 16) {ip : List Nat}
    (hip : IsAddr w ip) {cidr : Nat} (hc : cidr ≤ 8 * w) (t : trieEntry) (h : WF w t) :
    ∀ (here : List Nat) (parent : Option (List Nat)),
    (Stops ip cidr t ∧ nodePlacementLoop le ip cidr t here parent = some (parent, false)) ∨
    (∃ rel exact, nodePlacementLoop le ip cidr t here parent = some (some (here ++ rel), exact) ∧
      t.get rel ≠ .null ∧ (t.get rel).cidr ≤ cidr ∧
      Matches (t.get rel).bits (t.get rel).cidr ip ∧
      (exact = true ↔ (t.get rel).cidr = cidr) ∧
      (exact = false → Stops ip cidr ((t.get rel).child (bitAt ip (t.get rel).cidr)))) := by
  induction t with
  | null => exact fun here parent => Or.inl ⟨Or.inl rfl, rfl⟩
  | node p c0 c1 c b s bs e ih0 ih1 =>
    intro here parent
    obtain ⟨ok, b0, b1, w0, w1⟩ := h
    obtain ⟨okA, okc, okb, oks, okm⟩ := ok
    obtain ⟨n, hn, _, hiff⟩ := commonBits_ge_iff le hw okA hip okc
    unfold nodePlacementLoop
    by_cases h1 : c ≤ cidr
    · simp only [h1, if_true, hn]
      by_cases hm : n ≥ c
      · have hM : Matches bs c ip := hiff.1 hm
        simp only [hm, if_true]
        by_cases hex : c = cidr
        · right
          refine ⟨[], true, by simp [hex], by simp [trieEntry.get], ?_, ?_, ?_, ?_⟩
          · simp [trieEntry.get, trieEntry.cidr, hex]
          · simpa [trieEntry.get, trieEntry.cidr, trieEntry.bits] using hM
          · simp [trieEntry.get, trieEntry.cidr, hex]
          · simp
        · simp only [hex, if_false]
          have hc8 : c < 8 * w := by omega
          have hch := choose_spec (.node p c0 c1 c b s bs e) ip c okb oks
            (by rw [hip.1]; exact hc8) hip.2
          rw [hch]
          simp only
          right
          have step : ∀ (ci : trieEntry),
              ci = (trieEntry.node p c0 c1 c b s bs e).child (bitAt ip c) →
              ((Stops ip cidr ci ∧ nodePlacementLoop le ip cidr ci (here ++ [bitAt ip c])
                  (some here) = some (some here, false)) ∨
                (∃ rel exact, nodePlacementLoop le ip cidr ci (here ++ [bitAt ip c]) (some here) =
                    some (some ((here ++ [bitAt ip c]) ++ rel), exact) ∧
                  ci.get rel ≠ .null ∧ (ci.get rel).cidr ≤ cidr ∧
                  Matches (ci.get rel).bits (ci.get rel).cidr ip ∧
                  (exact = true ↔ (ci.get rel).cidr = cidr) ∧
                  (exact = false → Stops ip cidr ((ci.get rel).child (bitAt ip (ci.get rel).cidr))))) →
              ∃ rel exact, nodePlacementLoop le ip cidr ci (here ++ [bitAt ip c]) (some here) =
                  some (some (here ++ rel), exact) ∧
                (trieEntry.node p c0 c1 c b s bs e).get rel ≠ .null ∧
                ((trieEntry.node p c0 c1 c b s bs e).get rel).cidr ≤ cidr ∧
                Matches ((trieEntry.node p c0 c1 c b s bs e).get rel).bits
                  ((trieEntry.node p c0 c1 c b s bs e).get rel).cidr ip ∧
                (exact = true ↔ ((trieEntry.node p c0 c1 c b s bs e).get rel).cidr = cidr) ∧
                (exact = false → Stops ip cidr
                  (((trieEntry.node p c0 c1 c b s bs e).get rel).child
                    (bitAt ip ((trieEntry.node p c0 c1 c b s bs e).get rel).cidr))) := by
            intro ci hci hcase
            rcases hcase with ⟨hst, hres⟩ | ⟨rel, exact, hres, g1, g2, g3, g4, g5⟩
            · refine ⟨[], false, by simpa using hres, by simp [trieEntry.get], ?_, ?_, ?_, ?_⟩
              · simpa [trieEntry.get, trieEntry.cidr] using h1
              · simpa [trieEntry.get, trieEntry.cidr, trieEntry.bits] using hM
              · simp [trieEntry.get, trieEntry.cidr, hex]
              · intro _
                simp only [trieEntry.get, trieEntry.cidr]
                rw [← hci]; exact hst
            · refine ⟨bitAt ip c :: rel, exact, by simpa using hres, ?_, ?_, ?_, ?_, ?_⟩
              all_goals (simp only [trieEntry.get]; rw [← hci])
              · exact g1
              · exact g2
              · exact g3
              · exact g4
              · exact g5
          by_cases hb0 : bitAt ip c = 0
          · simp only [hb0, if_true]
            have := step c0 (by simp [trieEntry.child, hb0]) (by
              have := ih0 w0 (here ++ [bitAt ip c]) (some here)
              exact this)
            simpa [hb0] using this
          · simp only [hb0, if_false]
            have := step c1 (by simp [trieEntry.child, hb0]) (by
              have := ih1 w1 (here ++ [bitAt ip c]) (some here)
              exact this)
            exact this
      · left
        simp only [hm, if_false]
        exact ⟨Or.inr (Or.inr (fun hM => hm (hiff.2 hM))), trivial⟩
    · left
      simp only [h1, if_false]
      exact ⟨Or.inr (Or.inl (by simpa [trieEntry.cidr] using h1)), trivial⟩

theorem Full.full_get : ∀ (rel : List Nat) (t : trieEntry), Full t → Full (t.get rel)
  | [], _, h => h
  | bit :: r, t, h => by
    cases t with
    | null => rw [trieEntry.get_null]; trivial
    | node p c0 c1 c b s bs e =>
      simp only [trieEntry.get, trieEntry.child]
      split
      · exact Full.full_get r c0 h.2.1
      · exact Full.full_get r c1 h.2.2

theorem WF.at_setChild {w : Nat} {n x : trieEntry} (h : WF w n) (bit : Nat) (hb : bit < 2)
    (bl : Below n.bits n.cidr bit x) (hx : WF w x) : WF w (n.setChild bit x) := by
  cases n with
  | null => exact h
  | node p c0 c1 c b s bs e =>
    obtain ⟨ok, b0, b1, w0, w1⟩ := h
    simp only [trieEntry.setChild]
    simp only [trieEntry.bits, trieEntry.cidr] at bl
    by_cases h0 : bit = 0
    · subst h0
      simp only [if_true]
      exact ⟨ok, bl, b1, hx, w1⟩
    · have h1 : bit = 1 := by omega
      subst h1
      simp only [h0, if_false]
      exact ⟨ok, b0, bl, w0, hx⟩

theorem Full.full_setChild {n x : trieEntry} (h : Full n) (bit : Nat) (hx : Full x) (hxn : x ≠ .null) :
    Full (n.setChild bit x) := by
  cases n with
  | null => exact h
  | node p c0 c1 c b s bs e =>
    obtain ⟨hp, f0, f1⟩ := h
    simp only [trieEntry.setChild]
    by_cases h0 : bit = 0
    · simp only [h0, if_true]
      exact ⟨fun hn => ⟨hxn, (hp hn).2⟩, hx, f1⟩
    · simp only [h0, if_false]
      exact ⟨fun hn => ⟨(hp hn).1, hxn⟩, f0, hx⟩

theorem entries_setChild {n : trieEntry} (hn : n ≠ .null) (bit : Nat) (x : trieEntry) :
    List.Perm (entries (n.setChild bit x) ++ entries (n.child bit)) (entries n ++ entries x) := by
  cases n with
  | null => exact absurd rfl hn
  | node p c0 c1 c b s bs e =>
    simp only [trieEntry.setChild, trieEntry.child]
    by_cases h0 : bit = 0
    · simp only [h0, if_true, entries, List.cons_append, List.perm_cons, List.append_assoc]
      have e1 : List.Perm (entries x ++ (entries c1 ++ entries c0))
          (entries c0 ++ (entries x ++ entries c1)) := by
        rw [← List.append_assoc]
        exact List.perm_append_comm
      exact e1.trans (List.Perm.append_left _ List.perm_append_comm)
    · simp only [h0, if_false, entries, List.cons_append, List.perm_cons, List.append_assoc]
      exact List.Perm.append_left _ List.perm_append_comm

/-- The nodes of a trie after a write into a child slot of one of its nodes. -/
theorem entries_set_slot (x : trieEntry) (rel : List Nat) (bit : Nat) (t : trieEntry)
    (hg : t.get rel ≠ .null) :
    List.Perm (entries (t.set (rel ++ [bit]) x) ++ entries ((t.get rel).child bit))
      (entries t ++ entries x) := by
  rw [trieEntry.set_append_singleton]
  have h1 := entries_set ((t.get rel).setChild bit x) rel t hg
  have h2 := entries_setChild hg bit x
  -- cancel the nodes of the subtree at `rel`
  have h3 : List.Perm ((entries (t.set rel ((t.get rel).setChild bit x)) ++
        entries ((t.get rel).child bit)) ++ entries (t.get rel))
      ((entries t ++ entries x) ++ entries (t.get rel)) := by
    have a1 : List.Perm ((entries (t.set rel ((t.get rel).setChild bit x)) ++
        entries ((t.get rel).child bit)) ++ entries (t.get rel))
        ((entries (t.set rel ((t.get rel).setChild bit x)) ++ entries (t.get rel)) ++
          entries ((t.get rel).child bit)) := by
      rw [List.append_assoc, List.append_assoc]
      exact List.Perm.append_left _ List.perm_append_comm
    have a2 := h1.append_right (entries ((t.get rel).child bit))
    have a3 : List.Perm ((entries t ++ entries ((t.get rel).setChild bit x)) ++
        entries ((t.get rel).child bit)) (entries t ++ (entries (t.get rel) ++ entries x)) := by
      rw [List.append_assoc]
      exact List.Perm.append_left _ h2
    have a4 : List.Perm (entries t ++ (entries (t.get rel) ++ entries x))
        ((entries t ++ entries x) ++ entries (t.get rel)) := by
      rw [List.append_assoc]
      exact List.Perm.append_left _ List.perm_append_comm
    exact a1.trans (a2.trans (a3.trans a4))
  exact (List.perm_append_right_iff _).1 h3


/-! ## The split cases of `insert` -/

theorem newEntry_nodeOK {w : Nat} (hw : w = 4 ∨ w = 16) {ip : List Nat} (hip : IsAddr w ip)
    {cidr : Nat} (hc : cidr ≤ 8 * w) :
    NodeOK w cidr (cidr / 8) (7 - cidr % 8) (maskSelf ip cidr) :=
  ⟨maskSelf_isAddr hw hc hip, hc, rfl, rfl, maskSelf_masked hw hc hip⟩

theorem insertSplit_spec (le : Bool) {w : Nat} (hw : w = 4 ∨ w = 16) {ip : List Nat}
    (hip : IsAddr w ip) {cidr : Nat} (hc : cidr ≤ 8 * w) (p : Peer) (id : Nat)
    (down : trieEntry) (hd : WF w down) (hdn : down ≠ .null) (hs : Stops ip cidr down) :
    ∃ X, (∀ root parent, insertSplit le root parent down
            (.node (some p) .null .null cidr (cidr / 8) (7 - cidr % 8) (maskSelf ip cidr) (some id))
            (maskSelf ip cidr) cidr = attach root parent X) ∧
      WF w X ∧ X ≠ .null ∧ (Full down → Full X) ∧ IsAddr w X.bits ∧
      (∀ a c0 bit, a.length = w → Below a c0 bit down → c0 < cidr →
          Matches (maskSelf ip cidr) c0 a → bitAt (maskSelf ip cidr) c0 = bit → Below a c0 bit X) ∧
      (List.Perm (entries X) ((some p, some id, maskSelf ip cidr, cidr) :: entries down) ∨
        ∃ sb sc, List.Perm (entries X)
          ((none, none, sb, sc) :: (some p, some id, maskSelf ip cidr, cidr) :: entries down)) := by
  have mA : IsAddr w (maskSelf ip cidr) := maskSelf_isAddr hw hc hip
  have mM : Masked (maskSelf ip cidr) cidr := maskSelf_masked hw hc hip
  have mI : Matches (maskSelf ip cidr) cidr ip := maskSelf_matches hw hc hip
  generalize hm : maskSelf ip cidr = m at mA mM mI ⊢
  have okd := hd.nodeOK hdn
  obtain ⟨dA, dc, db, ds, dM⟩ := okd
  have ldm : down.bits.length = m.length := by rw [dA.1, mA.1]
  have lmi : m.length = ip.length := by rw [mA.1, hip.1]
  obtain ⟨common, hcb, hle, hiff⟩ := commonBits_spec le w hw down.bits m dA mA
  -- `down` is deeper than any depth at which it agrees with the new prefix
  have deeper : ∀ c, c ≤ cidr → Matches down.bits c m → c < down.cidr := by
    intro c hcc hM
    by_contra hnot
    have hle2 : down.cidr ≤ c := by omega
    rcases hs with h | h | h
    · exact hdn h
    · omega
    · apply h
      exact (hM.mono ldm hle2).trans (mI.mono lmi (by omega))
  unfold insertSplit
  simp only [hcb, trieEntry.cidr_node, trieEntry.bits_node]
  by_cases hlt : common < cidr
  · -- a split node at depth `common`
    simp only [hlt, if_true]
    have hne : ¬ cidr = common := by omega
    simp only [hne, if_false]
    have c8 : common < 8 * w := by omega
    have hMc : Matches down.bits common m := (hiff common (by omega)).1 (le_refl _)
    have hnM : ¬ Matches down.bits (common + 1) m := by
      intro hM
      have := (hiff (common + 1) (by omega)).2 hM
      omega
    have hb1 := bitAt_lt down.bits common
    have hb2 := bitAt_lt m common
    have hbne : bitAt down.bits common ≠ bitAt m common := by
      intro heq
      exact hnM ((Matches.succ_iff ldm (by rw [dA.1]; exact c8)).2 ⟨hMc, heq⟩)
    have hdeep : common < down.cidr := deeper common (by omega) hMc
    have sA : IsAddr w (maskSelf m common) := maskSelf_isAddr hw (by omega) mA
    have sM : Masked (maskSelf m common) common := maskSelf_masked hw (by omega) mA
    have sI : Matches (maskSelf m common) common m := maskSelf_matches hw (by omega) mA
    have lsm : (maskSelf m common).length = m.length := by rw [sA.1, mA.1]
    have ch1 : ∀ x, choose (newEntry none m common) down.bits = some (bitAt down.bits common) ∧
        choose ((newEntry none m common).setChild (bitAt down.bits common) x) m =
          some (bitAt m common) := by
      intro x
      refine ⟨choose_spec _ _ common rfl rfl (by rw [dA.1]; exact c8) dA.2, ?_⟩
      have f := trieEntry.setChild_fields (newEntry none m common) (bitAt down.bits common) x
      exact choose_spec _ _ common (by rw [f.2.2.2.1]; rfl) (by rw [f.2.2.2.2.1]; rfl)
        (by rw [mA.1]; exact c8) mA.2
    have belowD : ∀ bit, bitAt down.bits common = bit → Below (maskSelf m common) common bit down :=
      fun bit hb => Or.inr ⟨hdeep, hMc.trans sI.symm, hb⟩
    have belowN : ∀ bit e, bitAt m common = bit → Below (maskSelf m common) common bit
        (.node (some p) .null .null cidr (cidr / 8) (7 - cidr % 8) m e) :=
      fun bit e hb => Or.inr ⟨hlt, sI.symm, hb⟩
    have wfN : ∀ e, WF w (.node (some p) .null .null cidr (cidr / 8) (7 - cidr % 8) m e) :=
      fun e => ⟨⟨mA, hc, rfl, rfl, mM⟩, Or.inl rfl, Or.inl rfl, trivial, trivial⟩
    have okS : NodeOK w common (common / 8) (7 - common % 8) (maskSelf m common) :=
      ⟨sA, by omega, rfl, rfl, sM⟩
    have slot : ∀ a c0 bit, a.length = w → Below a c0 bit down → c0 < cidr →
        Matches m c0 a → bitAt m c0 = bit →
        c0 < common ∧ Matches (maskSelf m common) c0 a ∧ bitAt (maskSelf m common) c0 = bit := by
      intro a c0 bit la bl hc0 hMa hba
      rcases bl with h | ⟨l1, l2, l3⟩
      · exact absurd h hdn
      · have h1 : Matches down.bits (c0 + 1) m :=
          (Matches.succ_iff ldm (by rw [dA.1]; omega)).2 ⟨l2.trans hMa.symm, by rw [l3, hba]⟩
        have h2 := (hiff (c0 + 1) (by omega)).2 h1
        have h3 : c0 < common := by omega
        refine ⟨h3, (sI.mono lsm (le_of_lt h3)).trans hMa, ?_⟩
        rw [← hba]
        exact sI.bitAt_eq lsm h3 (by rw [sA.1]; omega)
    have h01 : (bitAt down.bits common = 0 ∧ bitAt m common = 1) ∨
        (bitAt down.bits common = 1 ∧ bitAt m common = 0) := by omega
    rcases h01 with ⟨e1, e2⟩ | ⟨e1, e2⟩
    · refine ⟨.node none down (.node (some p) .null .null cidr (cidr / 8) (7 - cidr % 8) m (some id))
        common (common / 8) (7 - common % 8) (maskSelf m common) none, ?_, ?_, by simp, ?_, sA, ?_, ?_⟩
      · intro root parent
        have := ch1 down
        simp only [this.1]
        simp only [this.2]
        simp [e1, e2, newEntry, trieEntry.setChild]
      · exact ⟨okS, belowD 0 e1, belowN 1 _ e2, hd, wfN _⟩
      · intro fd
        exact ⟨fun _ => ⟨hdn, by simp⟩, fd, ⟨by simp, trivial, trivial⟩⟩
      · intro a c0 bit la bl hc0 hMa hba
        exact Or.inr (slot a c0 bit la bl hc0 hMa hba)
      · right
        refine ⟨maskSelf m common, common, ?_⟩
        simp only [entries, List.append_nil, List.perm_cons]
        exact List.perm_append_comm
    · refine ⟨.node none (.node (some p) .null .null cidr (cidr / 8) (7 - cidr % 8) m (some id)) down
        common (common / 8) (7 - common % 8) (maskSelf m common) none, ?_, ?_, by simp, ?_, sA, ?_, ?_⟩
      · intro root parent
        have := ch1 down
        simp only [this.1]
        simp only [this.2]
        simp [e1, e2, newEntry, trieEntry.setChild]
      · exact ⟨okS, belowN 0 _ e2, belowD 1 e1, wfN _, hd⟩
      · intro fd
        exact ⟨fun _ => ⟨by simp, hdn⟩, ⟨by simp, trivial, trivial⟩, fd⟩
      · intro a c0 bit la bl hc0 hMa hba
        exact Or.inr (slot a c0 bit la bl hc0 hMa hba)
      · right
        refine ⟨maskSelf m common, common, ?_⟩
        simp only [entries, List.append_nil, List.nil_append, List.cons_append, List.perm_cons]
        exact List.Perm.refl _
  · -- the new node sits at the divergence point and adopts `down`
    simp only [hlt, if_false, if_true]
    have hMc : Matches down.bits cidr m := (hiff cidr hc).1 (by omega)
    have hdeep : cidr < down.cidr := deeper cidr (le_refl _) hMc
    have c8 : cidr < 8 * w := by omega
    have hb1 := bitAt_lt down.bits cidr
    have ch1 : choose (.node (some p) .null .null cidr (cidr / 8) (7 - cidr % 8) m (some id))
        down.bits = some (bitAt down.bits cidr) :=
      choose_spec _ _ cidr rfl rfl (by rw [dA.1]; exact c8) dA.2
    have belowD : ∀ bit, bitAt down.bits cidr = bit → Below m cidr bit down :=
      fun bit hb => Or.inr ⟨hdeep, hMc, hb⟩
    rw [ch1]
    have h01 : bitAt down.bits cidr = 0 ∨ bitAt down.bits cidr = 1 := by omega
    rcases h01 with e1 | e1
    · refine ⟨.node (some p) down .null cidr (cidr / 8) (7 - cidr % 8) m (some id),
        ?_, ?_, by simp, ?_, mA, ?_, ?_⟩
      · intro root parent
        simp [e1, trieEntry.setChild]
      · exact ⟨⟨mA, hc, rfl, rfl, mM⟩, belowD 0 e1, Or.inl rfl, hd, trivial⟩
      · intro fd
        exact ⟨by simp, fd, trivial⟩
      · intro a c0 bit la bl hc0 hMa hba
        exact Or.inr ⟨hc0, hMa, hba⟩
      · left
        simp [entries]
    · refine ⟨.node (some p) .null down cidr (cidr / 8) (7 - cidr % 8) m (some id),
        ?_, ?_, by simp, ?_, mA, ?_, ?_⟩
      · intro root parent
        simp [e1, trieEntry.setChild]
      · exact ⟨⟨mA, hc, rfl, rfl, mM⟩, Or.inl rfl, belowD 1 e1, trivial, hd⟩
      · intro fd
        exact ⟨by simp, trivial, fd⟩
      · intro a c0 bit la bl hc0 hMa hba
        exact Or.inr ⟨hc0, hMa, hba⟩
      · left
        simp [entries]


/-! ## The effect of `insert` on a well-formed trie -/

theorem insert_of_ne_null (le : Bool) {root : trieEntry} (h : root ≠ .null) (L : PeerLists)
    (ip : List Nat) (cidr : Nat) (peer : Option Peer) :
    insert le root L ip cidr peer =
      match nodePlacement le root ip cidr with
      | none => none
      | some (node, exact) =>
        if exact then
          match node with
          | none => none
          | some path =>
            match removeFromPeerEntries (root.get path) L with
            | none => none
            | some (n, L) =>
              match addToPeerEntries (setPeer n peer) L with
              | none => none
              | some (n, L) => some (root.set path n, L)
        else
          match addToPeerEntries (newEntry peer ip cidr) L with
          | none => none
          | some (newNode, L) =>
            match node with
            | none =>
              match insertSplit le root none root newNode newNode.bits cidr with
              | none => none
              | some r => some (r, L)
            | some path =>
              match choose (root.get path) newNode.bits with
              | none => none
              | some bit =>
                if (root.get path).child bit = .null then some (root.set (path ++ [bit]) newNode, L)
                else
                  match insertSplit le root (some path) ((root.get path).child bit) newNode
                      newNode.bits cidr with
                  | none => none
                  | some r => some (r, L) := by
  cases root with
  | null => exact absurd rfl h
  | node p c0 c1 c b s bs e => rfl

theorem addToPeerEntries_newEntry (p : Peer) (ip : List Nat) (cidr : Nat) (L : PeerLists) :
    addToPeerEntries (newEntry (some p) ip cidr) L =
      some (.node (some p) .null .null cidr (cidr / 8) (7 - cidr % 8) (maskSelf ip cidr)
        (some L.next), (PushBack L p (maskSelf ip cidr) cidr).2) := rfl

/-- The slot a new subtree is written into: the write keeps the trie well formed and
adds the nodes of the subtree that were not below the slot. -/
theorem slot_write {w : Nat} {t x : trieEntry} {rel : List Nat} {bit : Nat} (hwf : WF w t)
    (hg : t.get rel ≠ .null) (hb : bit < 2) (hx : WF w x) (hxn : x ≠ .null)
    (bl : Below (t.get rel).bits (t.get rel).cidr bit x) :
    WF w (t.set (rel ++ [bit]) x) ∧ (Full t → Full x → Full (t.set (rel ++ [bit]) x)) := by
  rw [trieEntry.set_append_singleton]
  have f := trieEntry.setChild_fields (t.get rel) bit x
  have h1 : WF w ((t.get rel).setChild bit x) := (WF.at_get rel t hwf).at_setChild bit hb bl hx
  refine ⟨(WF.at_set h1 (f.2.2.2.2.2.2 hg) rel t hwf hg f.1 f.2.1).1, ?_⟩
  intro ft fx
  exact (Full.full_set ((Full.full_get rel t ft).full_setChild bit fx hxn) (f.2.2.2.2.2.2 hg) rel t ft hg).1

theorem insert_spec (le : Bool) {w : Nat} (hw : w = 4 ∨ w = 16) (t : trieEntry) (L : PeerLists)
    {ip : List Nat} (hip : IsAddr w ip) {cidr : Nat} (hc : cidr ≤ 8 * w) (p : Peer)
    (hwf : WF w t) (hlink : ∀ y ∈ entries t, y.1 = none → y.2.1 = none) :
    ∃ t', WF w t' ∧ (Full t → Full t') ∧
      ((∃ rel po eo c0 c1 b s L1,
          t.get rel = .node po c0 c1 cidr b s (maskSelf ip cidr) eo ∧
          t' = t.set rel (.node (some p) c0 c1 cidr b s (maskSelf ip cidr) (some L.next)) ∧
          ((eo = none ∧ L1 = L) ∨ ∃ e q, eo = some e ∧ po = some q ∧ L1 = Remove L q e) ∧
          insert le t L ip cidr (some p) =
            some (t', (PushBack L1 p (maskSelf ip cidr) cidr).2)) ∨
       (insert le t L ip cidr (some p) = some (t', (PushBack L p (maskSelf ip cidr) cidr).2) ∧
         (List.Perm (entries t') ((some p, some L.next, maskSelf ip cidr, cidr) :: entries t) ∨
          ∃ sb sc, List.Perm (entries t')
            ((none, none, sb, sc) :: (some p, some L.next, maskSelf ip cidr, cidr) :: entries t)))) := by
  have mA : IsAddr w (maskSelf ip cidr) := maskSelf_isAddr hw hc hip
  have mM : Masked (maskSelf ip cidr) cidr := maskSelf_masked hw hc hip
  have mI : Matches (maskSelf ip cidr) cidr ip := maskSelf_matches hw hc hip
  have lmi : (maskSelf ip cidr).length = ip.length := by rw [mA.1, hip.1]
  have wfN : WF w (.node (some p) .null .null cidr (cidr / 8) (7 - cidr % 8) (maskSelf ip cidr)
      (some L.next)) :=
    ⟨⟨mA, hc, rfl, rfl, mM⟩, Or.inl rfl, Or.inl rfl, trivial, trivial⟩
  have fN : Full (.node (some p) .null .null cidr (cidr / 8) (7 - cidr % 8) (maskSelf ip cidr)
      (some L.next)) := ⟨by simp, trivial, trivial⟩
  by_cases ht : t = .null
  · subst ht
    refine ⟨_, wfN, fun _ => fN, Or.inr ⟨rfl, Or.inl ?_⟩⟩
    simp [entries]
  rw [insert_of_ne_null le ht]
  unfold nodePlacement
  rcases nodePlacementLoop_spec le hw hip hc t hwf [] none with
    ⟨hst, hres⟩ | ⟨rel, exact, hres, g1, g2, g3, g4, g5⟩
  · -- the root itself diverges from the new prefix
    obtain ⟨X, hX, wX, nX, fX, _, _, eX⟩ :=
      insertSplit_spec le hw hip hc p L.next t hwf ht hst
    refine ⟨X, wX, fX, Or.inr ⟨?_, eX⟩⟩
    simp only [hres, Bool.false_eq_true, if_false, addToPeerEntries_newEntry,
      trieEntry.bits_node, hX, attach]
  · simp only [List.nil_append] at hres
    have wn := WF.at_get rel t hwf
    obtain ⟨nA, nc, nb, ns, nM⟩ := wn.nodeOK g1
    cases exact with
    | true =>
      -- the prefix is already a node of the trie
      have hcid : (t.get rel).cidr = cidr := g4.1 rfl
      cases hn : t.get rel with
      | null => exact absurd hn g1
      | node po c0 c1 c b s bs eo =>
        rw [hn] at hcid nA nM g3 wn
        simp only [trieEntry.cidr_node, trieEntry.bits_node] at hcid nA nM g3
        subst hcid
        have hbs : bs = maskSelf ip c := Masked.eq nA mA nM mM (g3.trans mI.symm)
        subst hbs
        have wX : WF w (.node (some p) c0 c1 c b s (maskSelf ip c) (some L.next)) := wn
        have hset := WF.at_set wX (by simp) rel t hwf g1 (by rw [hn]; rfl) (by rw [hn]; rfl)
        have hfull : Full t → Full (t.set rel (.node (some p) c0 c1 c b s (maskSelf ip c)
            (some L.next))) := by
          intro ft
          have fn := Full.full_get rel t ft
          rw [hn] at fn
          exact (Full.full_set (x := .node (some p) c0 c1 c b s (maskSelf ip c) (some L.next))
            ⟨by simp, fn.2.1, fn.2.2⟩ (by simp) rel t ft g1).1
        refine ⟨_, hset.1, hfull, Or.inl ?_⟩
        cases eo with
        | none =>
          refine ⟨rel, po, none, c0, c1, b, s, L, hn, rfl, Or.inl ⟨rfl, rfl⟩, ?_⟩
          simp only [hres, if_true, hn, removeFromPeerEntries, setPeer, addToPeerEntries]
          rfl
        | some e =>
          cases po with
          | none =>
            have := hlink (none, some e, maskSelf ip c, c)
              (entries_get_subset rel t _ (by rw [hn]; simp [entries])) rfl
            simp at this
          | some q =>
            refine ⟨rel, some q, some e, c0, c1, b, s, Remove L q e, hn, rfl,
              Or.inr ⟨e, q, rfl, rfl, rfl⟩, ?_⟩
            simp only [hres, if_true, hn, removeFromPeerEntries, setPeer, addToPeerEntries]
            rfl
    | false =>
      have hlt : (t.get rel).cidr < cidr := by
        have : ¬ (t.get rel).cidr = cidr := fun h => by simpa using g4.2 h
        omega
      have hst := g5 rfl
      have c8 : (t.get rel).cidr < 8 * w := by omega
      have hbit : bitAt (maskSelf ip cidr) (t.get rel).cidr = bitAt ip (t.get rel).cidr :=
        mI.bitAt_eq lmi hlt (by rw [mA.1]; exact c8)
      have hch : choose (t.get rel) (maskSelf ip cidr) = some (bitAt ip (t.get rel).cidr) := by
        rw [← hbit]
        exact choose_spec _ _ _ nb ns (by rw [mA.1]; exact c8) mA.2
      have hMn : Matches (maskSelf ip cidr) (t.get rel).cidr (t.get rel).bits :=
        (mI.mono lmi (le_of_lt hlt)).trans g3.symm
      have b2 := bitAt_lt ip (t.get rel).cidr
      simp only [hres, Bool.false_eq_true, if_false, addToPeerEntries_newEntry,
        trieEntry.bits_node, hch]
      by_cases hdn : (t.get rel).child (bitAt ip (t.get rel).cidr) = .null
      · -- the slot is free
        simp only [hdn, if_true]
        have bl : Below (t.get rel).bits (t.get rel).cidr (bitAt ip (t.get rel).cidr)
            (.node (some p) .null .null cidr (cidr / 8) (7 - cidr % 8) (maskSelf ip cidr)
              (some L.next)) := Or.inr ⟨hlt, hMn, hbit⟩
        have sw := slot_write hwf g1 b2 wfN (by simp) bl
        refine ⟨_, sw.1, fun ft => sw.2 ft fN, Or.inr ⟨rfl, Or.inl ?_⟩⟩
        have := entries_set_slot (.node (some p) .null .null cidr (cidr / 8) (7 - cidr % 8)
          (maskSelf ip cidr) (some L.next)) rel (bitAt ip (t.get rel).cidr) t g1
        rw [hdn] at this
        simp only [entries, List.append_nil] at this
        exact this.trans List.perm_append_comm
      · -- the slot holds `down`
        simp only [hdn, if_false]
        have wd : WF w ((t.get rel).child (bitAt ip (t.get rel).cidr)) := wn.child _
        obtain ⟨X, hX, wX, nX, fX, aX, sX, eX⟩ :=
          insertSplit_spec le hw hip hc p L.next _ wd hdn hst
        have bl : Below (t.get rel).bits (t.get rel).cidr (bitAt ip (t.get rel).cidr) X :=
          sX _ _ _ nA.1 (wn.below _ b2) hlt hMn hbit
        have hbX : bitAt X.bits (t.get rel).cidr = bitAt ip (t.get rel).cidr := by
          rcases bl with h | h
          · exact absurd h nX
          · exact h.2.2
        have hchX : choose (t.get rel) X.bits = some (bitAt ip (t.get rel).cidr) := by
          rw [← hbX]
          exact choose_spec _ _ _ nb ns (by rw [aX.1]; exact c8) aX.2
        have sw := slot_write hwf g1 b2 wX nX bl
        have fd : Full t → Full ((t.get rel).child (bitAt ip (t.get rel).cidr)) := fun ft =>
          Full.full_get [bitAt ip (t.get rel).cidr] (t.get rel) (Full.full_get rel t ft)
        refine ⟨_, sw.1, fun ft => sw.2 ft (fX (fd ft)), Or.inr ⟨?_, ?_⟩⟩
        · simp only [hX, attach, hchX]
        · have h1 := entries_set_slot X rel (bitAt ip (t.get rel).cidr) t g1
          rcases eX with eX | ⟨sb, sc, eX⟩
          · left
            have h2 : List.Perm (entries t ++ entries X)
                (((some p, some L.next, maskSelf ip cidr, cidr) :: entries t) ++
                  entries ((t.get rel).child (bitAt ip (t.get rel).cidr))) := by
              refine (List.Perm.append_left _ eX).trans ?_
              simp only [List.cons_append]
              exact List.perm_middle
            exact (List.perm_append_right_iff _).1 (h1.trans h2)
          · right
            refine ⟨sb, sc, ?_⟩
            have h2 : List.Perm (entries t ++ entries X)
                (((none, none, sb, sc) :: (some p, some L.next, maskSelf ip cidr, cidr) ::
                  entries t) ++ entries ((t.get rel).child (bitAt ip (t.get rel).cidr))) := by
              refine (List.Perm.append_left _ eX).trans ?_
              simp only [List.cons_append]
              exact List.perm_middle.trans (List.Perm.cons _ List.perm_middle)
            exact (List.perm_append_right_iff _).1 (h1.trans h2)


/-! ## The nodes and the lists after `insert` -/

theorem insert_mem (le : Bool) {w : Nat} (hw : w = 4 ∨ w = 16) (t : trieEntry) (L : PeerLists)
    {ip : List Nat} (hip : IsAddr w ip) {cidr : Nat} (hc : cidr ≤ 8 * w) (p : Peer)
    (hwf : WF w t) (hlink : ∀ y ∈ entries t, y.1 = none → y.2.1 = none)
    (hfresh : ∀ y ∈ entries t, ∀ e, y.2.1 = some e → e < L.next) :
    ∃ t' L1, insert le t L ip cidr (some p) =
        some (t', (PushBack L1 p (maskSelf ip cidr) cidr).2) ∧
      WF w t' ∧ (Full t → Full t') ∧
      (some p, some L.next, maskSelf ip cidr, cidr) ∈ entries t' ∧
      (∀ y ∈ entries t', y = (some p, some L.next, maskSelf ip cidr, cidr) ∨
        (y ∈ entries t ∧ y.2.2 ≠ (maskSelf ip cidr, cidr)) ∨ (y.1 = none ∧ y.2.1 = none)) ∧
      (∀ y ∈ entries t, y.2.2 ≠ (maskSelf ip cidr, cidr) → y ∈ entries t') ∧
      ((L1 = L ∧ ∀ y ∈ entries t, y.2.2 = (maskSelf ip cidr, cidr) → y.2.1 = none) ∨
        (∃ q e, L1 = Remove L q e ∧ (some q, some e, maskSelf ip cidr, cidr) ∈ entries t)) := by
  obtain ⟨t', wf', full', hcase⟩ := insert_spec le hw t L hip hc p hwf hlink
  have uniq := wf'.entries_unique
  -- what follows from the new node being a node of the result
  have fromNew : (some p, some L.next, maskSelf ip cidr, cidr) ∈ entries t' →
      (∀ y ∈ entries t', y = (some p, some L.next, maskSelf ip cidr, cidr) ∨ y ∈ entries t ∨
        (y.1 = none ∧ y.2.1 = none)) →
      ∀ y ∈ entries t', y = (some p, some L.next, maskSelf ip cidr, cidr) ∨
        (y ∈ entries t ∧ y.2.2 ≠ (maskSelf ip cidr, cidr)) ∨ (y.1 = none ∧ y.2.1 = none) := by
    intro hnew hall y hy
    rcases hall y hy with h | h | h
    · exact Or.inl h
    · by_cases hp : y.2.2 = (maskSelf ip cidr, cidr)
      · exact Or.inl (uniq y hy _ hnew hp)
      · exact Or.inr (Or.inl ⟨h, hp⟩)
    · exact Or.inr (Or.inr h)
  rcases hcase with ⟨rel, po, eo, c0, c1, b, s, L1, hget, hset, hL1, hins⟩ | ⟨hins, hperm⟩
  · have hg : t.get rel ≠ .null := by rw [hget]; simp
    have hgs := get_set (.node (some p) c0 c1 cidr b s (maskSelf ip cidr) (some L.next)) rel t hg
    rw [← hset] at hgs
    have hnew : (some p, some L.next, maskSelf ip cidr, cidr) ∈ entries t' :=
      entries_get_subset rel t' _ (by rw [hgs]; simp [entries])
    have hold : (po, eo, maskSelf ip cidr, cidr) ∈ entries t :=
      entries_get_subset rel t _ (by rw [hget]; simp [entries])
    have hperm := entries_set (.node (some p) c0 c1 cidr b s (maskSelf ip cidr) (some L.next)) rel t hg
    rw [← hset, hget] at hperm
    have sub' : ∀ y ∈ entries c0 ++ entries c1, y ∈ entries t' := fun y hy =>
      entries_get_subset rel t' _ (by rw [hgs]; simp only [entries, List.mem_cons]; exact Or.inr hy)
    have sub : ∀ y ∈ entries c0 ++ entries c1, y ∈ entries t := fun y hy =>
      entries_get_subset rel t _ (by rw [hget]; simp only [entries, List.mem_cons]; exact Or.inr hy)
    refine ⟨t', L1, hins, wf', full', hnew, ?_, ?_, ?_⟩
    · apply fromNew hnew
      intro y hy
      have : y ∈ entries t ++ entries (.node (some p) c0 c1 cidr b s (maskSelf ip cidr)
          (some L.next)) := hperm.subset (List.mem_append_left _ hy)
      simp only [entries, List.mem_append, List.mem_cons] at this
      rcases this with h | h | h | h
      · exact Or.inr (Or.inl h)
      · exact Or.inl h
      · exact Or.inr (Or.inl (sub y (List.mem_append_left _ h)))
      · exact Or.inr (Or.inl (sub y (List.mem_append_right _ h)))
    · intro y hy hp
      have : y ∈ entries t' ++ entries (.node po c0 c1 cidr b s (maskSelf ip cidr) eo) :=
        hperm.symm.subset (List.mem_append_left _ hy)
      simp only [entries, List.mem_append, List.mem_cons] at this
      rcases this with h | h | h | h
      · exact h
      · rw [h] at hp; exact absurd rfl hp
      · exact sub' y (List.mem_append_left _ h)
      · exact sub' y (List.mem_append_right _ h)
    · rcases hL1 with ⟨he, hL⟩ | ⟨e, q, he, hq, hL⟩
      · left
        refine ⟨hL, ?_⟩
        intro y hy hp
        have := hwf.entries_unique y hy _ hold hp
        rw [this, he]
      · right
        refine ⟨q, e, hL, ?_⟩
        rw [← he, ← hq]; exact hold
  · have hnew : (some p, some L.next, maskSelf ip cidr, cidr) ∈ entries t' := by
      rcases hperm with h | ⟨sb, sc, h⟩
      · exact h.symm.subset (List.mem_cons_self _ _)
      · exact h.symm.subset (List.mem_cons_of_mem _ (List.mem_cons_self _ _))
    refine ⟨t', L, hins, wf', full', hnew, ?_, ?_, Or.inl ⟨rfl, ?_⟩⟩
    · apply fromNew hnew
      intro y hy
      rcases hperm with h | ⟨sb, sc, h⟩
      · have := h.subset hy
        simp only [List.mem_cons] at this
        rcases this with h | h
        · exact Or.inl h
        · exact Or.inr (Or.inl h)
      · have := h.subset hy
        simp only [List.mem_cons] at this
        rcases this with h | h | h
        · exact Or.inr (Or.inr (by rw [h]; exact ⟨rfl, rfl⟩))
        · exact Or.inl h
        · exact Or.inr (Or.inl h)
    · intro y hy _
      rcases hperm with h | ⟨sb, sc, h⟩
      · exact h.symm.subset (List.mem_cons_of_mem _ hy)
      · exact h.symm.subset (List.mem_cons_of_mem _ (List.mem_cons_of_mem _ hy))
    · intro y hy hp
      have hy' : y ∈ entries t' := by
        rcases hperm with h | ⟨sb, sc, h⟩
        · exact h.symm.subset (List.mem_cons_of_mem _ hy)
        · exact h.symm.subset (List.mem_cons_of_mem _ (List.mem_cons_of_mem _ hy))
      have := uniq y hy' _ hnew hp
      have hlt := hfresh y hy L.next (by rw [this])
      omega


/-! ## The reverse index after `insert` -/

theorem mem_PushBack {L : PeerLists} {p q : Peer} {m : List Nat} {cidr : Nat} {x : Element} :
    x ∈ (PushBack L p m cidr).2.trieEntries q ↔
      x ∈ L.trieEntries q ∨ (q = p ∧ x = ⟨L.next, m, cidr⟩) := by
  simp only [PushBack]
  by_cases h : q = p
  · simp [h]
  · simp [h]

theorem mem_Remove {L : PeerLists} {q r : Peer} {e : Nat} {x : Element} :
    x ∈ (Remove L q e).trieEntries r ↔ x ∈ L.trieEntries r ∧ (r = q → x.id ≠ e) := by
  simp only [Remove]
  by_cases h : r = q
  · simp [h, List.mem_filter]
  · simp [h]

theorem Remove_sublist (L : PeerLists) (q r : Peer) (e : Nat) :
    List.Sublist ((Remove L q e).trieEntries r) (L.trieEntries r) := by
  simp only [Remove]
  by_cases h : r = q
  · simp only [h, if_true]; exact List.filter_sublist _
  · simp only [h, if_false]; exact List.Sublist.refl _

theorem Idx.id_inj {L : PeerLists} {E : List (Option Peer × Option Nat × List Nat × Nat)}
    (h : Idx L E) {p : Peer} {x y : Element} (hx : x ∈ L.trieEntries p)
    (hy : y ∈ L.trieEntries p) (hid : x.id = y.id) : x = y :=
  List.inj_on_of_nodup_map (h.2.1 p) hx hy hid

theorem Idx.step {L : PeerLists} {E E' : List (Option Peer × Option Nat × List Nat × Nat)}
    (h : Idx L E) (p : Peer) (m : List Nat) (cidr : Nat) (L1 : PeerLists)
    (hnew : (some p, some L.next, m, cidr) ∈ E')
    (hall : ∀ y ∈ E', y = (some p, some L.next, m, cidr) ∨ (y ∈ E ∧ y.2.2 ≠ (m, cidr)) ∨
      (y.1 = none ∧ y.2.1 = none))
    (hkeep : ∀ y ∈ E, y.2.2 ≠ (m, cidr) → y ∈ E')
    (hL1 : (L1 = L ∧ ∀ y ∈ E, y.2.2 = (m, cidr) → y.2.1 = none) ∨
      (∃ q e, L1 = Remove L q e ∧ (some q, some e, m, cidr) ∈ E))
    (huniq : ∀ y ∈ E, ∀ z ∈ E, y.2.2 = z.2.2 → y = z) :
    Idx (PushBack L1 p m cidr).2 E' := by
  obtain ⟨i1, i2, i3, i4⟩ := h
  have hnext : L1.next = L.next := by
    rcases hL1 with ⟨e, _⟩ | ⟨q, e, e1, _⟩
    · rw [e]
    · rw [e1]; rfl
  have hsub : ∀ r, List.Sublist (L1.trieEntries r) (L.trieEntries r) := by
    intro r
    rcases hL1 with ⟨e, _⟩ | ⟨q, e, e1, _⟩
    · rw [e]
    · rw [e1]; exact Remove_sublist L q r e
  have hA : ∀ q id a c, (⟨id, a, c⟩ : Element) ∈ L1.trieEntries q ↔
      ((some q, some id, a, c) ∈ E ∧ (a, c) ≠ (m, cidr)) := by
    intro q id a c
    rcases hL1 with ⟨e, hnone⟩ | ⟨qo, e, e1, hold⟩
    · rw [e, i1]
      constructor
      · intro hin
        refine ⟨hin, fun hp => ?_⟩
        have := hnone _ hin hp
        simp at this
      · exact fun hh => hh.1
    · rw [e1, mem_Remove, i1]
      constructor
      · rintro ⟨hin, hne⟩
        refine ⟨hin, fun hp => ?_⟩
        have := huniq _ hin _ hold hp
        simp only [Prod.mk.injEq, Option.some.injEq] at this
        exact hne this.1 this.2.1
      · rintro ⟨hin, hp⟩
        refine ⟨hin, fun hq hid => ?_⟩
        simp only at hid
        subst hq; subst hid
        have h1 := (i1 q id a c).2 hin
        have h2 := (i1 q id m cidr).2 hold
        have := List.inj_on_of_nodup_map (i2 q) h1 h2 rfl
        simp only [Element.mk.injEq, true_and] at this
        exact hp (by rw [this.1, this.2])
  refine ⟨?_, ?_, ?_, ?_⟩
  · intro q id a c
    rw [mem_PushBack, hA, hnext]
    constructor
    · rintro (⟨hin, hp⟩ | ⟨hq, hx⟩)
      · exact hkeep _ hin hp
      · simp only [Element.mk.injEq] at hx
        obtain ⟨rfl, rfl, rfl⟩ := hx
        rw [hq]; exact hnew
    · intro hin
      rcases hall _ hin with hh | hh | hh
      · simp only [Prod.mk.injEq, Option.some.injEq] at hh
        obtain ⟨rfl, rfl, rfl, rfl⟩ := hh
        exact Or.inr ⟨rfl, rfl⟩
      · exact Or.inl hh
      · simp at hh
  · intro q
    have nd : ((L1.trieEntries q).map (fun x => x.id)).Nodup :=
      (i2 q).sublist ((hsub q).map _)
    simp only [PushBack]
    by_cases hq : q = p
    · simp only [hq, if_true, List.map_append, List.map_cons, List.map_nil]
      rw [hq] at nd
      refine List.Nodup.append nd (List.nodup_singleton _) ?_
      intro a ha hb
      simp only [List.mem_singleton] at hb
      obtain ⟨x, hx, rfl⟩ := List.mem_map.1 ha
      have := i3 p x ((hsub p).subset hx)
      omega
    · simp only [hq, if_false]; exact nd
  · intro q x hx
    rw [mem_PushBack] at hx
    simp only [PushBack]
    rcases hx with hx | ⟨_, rfl⟩
    · have := i3 q x ((hsub q).subset hx)
      omega
    · simp only; omega
  · intro y hy
    rcases hall y hy with hh | hh | hh
    · rw [hh]; simp
    · exact i4 y hh.1
    · simp [hh.1, hh.2]

theorem Idx.congr {L : PeerLists} {E E' : List (Option Peer × Option Nat × List Nat × Nat)}
    (h : Idx L E) (hm : ∀ y, y ∈ E' ↔ y ∈ E) : Idx L E' :=
  ⟨fun p id a c => by rw [h.1 p id a c, hm], h.2.1, h.2.2.1, fun y hy => h.2.2.2 y ((hm y).1 hy)⟩

theorem Idx.fresh {L : PeerLists} {E : List (Option Peer × Option Nat × List Nat × Nat)}
    (h : Idx L E) : ∀ y ∈ E, ∀ e, y.2.1 = some e → e < L.next := by
  intro y hy e he
  obtain ⟨po, eo, a, c⟩ := y
  simp only at he
  subst he
  cases po with
  | none => have := (h.2.2.2 _ hy).1 rfl; simp at this
  | some q => exact h.2.2.1 q _ ((h.1 q e a c).2 hy)

/-- The step of the invariant for one family: `t` is the trie of the family of `w`
bytes the insert goes to, `t2` the trie of the other family. -/
theorem insert_family (le : Bool) {w w2 : Nat} (hw : w = 4 ∨ w = 16) (hne : w ≠ w2)
    (t t2 : trieEntry) (L : PeerLists) {ip : List Nat} (hip : IsAddr w ip) {cidr : Nat}
    (hc : cidr ≤ 8 * w) (p : Peer) (hwf : WF w t) (hwf2 : WF w2 t2)
    (hidx : Idx L (entries t ++ entries t2)) :
    ∃ t' L1, insert le t L ip cidr (some p) =
        some (t', (PushBack L1 p (maskSelf ip cidr) cidr).2) ∧
      WF w t' ∧ (Full t → Full t') ∧
      Idx (PushBack L1 p (maskSelf ip cidr) cidr).2 (entries t' ++ entries t2) ∧
      (some p, some L.next, maskSelf ip cidr, cidr) ∈ entries t' ∧
      (∀ y ∈ entries t', y = (some p, some L.next, maskSelf ip cidr, cidr) ∨
        (y ∈ entries t ∧ y.2.2 ≠ (maskSelf ip cidr, cidr)) ∨ (y.1 = none ∧ y.2.1 = none)) ∧
      (∀ y ∈ entries t, y.2.2 ≠ (maskSelf ip cidr, cidr) → y ∈ entries t') ∧
      ((L1 = L ∧ ∀ y ∈ entries t, y.2.2 = (maskSelf ip cidr, cidr) → y.2.1 = none) ∨
        (∃ q e, L1 = Remove L q e ∧ (some q, some e, maskSelf ip cidr, cidr) ∈ entries t)) := by
  have hlink : ∀ y ∈ entries t, y.1 = none → y.2.1 = none := fun y hy hn =>
    (hidx.2.2.2 y (List.mem_append_left _ hy)).1 hn
  have hfresh : ∀ y ∈ entries t, ∀ e, y.2.1 = some e → e < L.next := fun y hy =>
    hidx.fresh y (List.mem_append_left _ hy)
  obtain ⟨t', L1, hins, wf', full', m1, m2, m3, m4⟩ :=
    insert_mem le hw t L hip hc p hwf hlink hfresh
  have mA : IsAddr w (maskSelf ip cidr) := maskSelf_isAddr hw hc hip
  -- the nodes of the other family carry addresses of another length
  have other : ∀ y ∈ entries t2, y.2.2 ≠ (maskSelf ip cidr, cidr) := by
    intro y hy hp
    have h1 := (hwf2.subE y hy).2.2.1.1
    have : y.2.2.1 = maskSelf ip cidr := congrArg Prod.fst hp
    rw [this, mA.1] at h1
    exact hne h1
  have otherw : ∀ y ∈ entries t, ∀ z ∈ entries t2, y.2.2 ≠ z.2.2 := by
    intro y hy z hz hp
    have h1 := (hwf.subE y hy).2.2.1.1
    have h2 := (hwf2.subE z hz).2.2.1.1
    have : y.2.2.1 = z.2.2.1 := congrArg Prod.fst hp
    rw [this, h2] at h1
    exact hne h1.symm
  refine ⟨t', L1, hins, wf', full', ?_, m1, m2, m3, m4⟩
  apply hidx.step p (maskSelf ip cidr) cidr L1 (List.mem_append_left _ m1)
  · intro y hy
    rcases List.mem_append.1 hy with h | h
    · rcases m2 y h with hh | hh | hh
      · exact Or.inl hh
      · exact Or.inr (Or.inl ⟨List.mem_append_left _ hh.1, hh.2⟩)
      · exact Or.inr (Or.inr hh)
    · exact Or.inr (Or.inl ⟨List.mem_append_right _ h, other y h⟩)
  · intro y hy hp
    rcases List.mem_append.1 hy with h | h
    · exact List.mem_append_left _ (m3 y h hp)
    · exact List.mem_append_right _ h
  · rcases m4 with ⟨e, hnone⟩ | ⟨q, e, e1, hold⟩
    · left
      refine ⟨e, ?_⟩
      intro y hy hp
      rcases List.mem_append.1 hy with h | h
      · exact hnone y h hp
      · exact absurd hp (other y h)
    · exact Or.inr ⟨q, e, e1, List.mem_append_left _ hold⟩
  · intro y hy z hz hp
    rcases List.mem_append.1 hy with h | h <;> rcases List.mem_append.1 hz with h' | h'
    · exact hwf.entries_unique y h z h' hp
    · exact absurd hp (otherw y h z h')
    · exact absurd hp.symm (otherw z h' y h)
    · exact hwf2.entries_unique y h z h' hp

theorem Inv.empty_inv : Inv AllowedIPs.empty := by
  refine ⟨trivial, trivial, trivial, trivial, ?_, ?_, ?_, ?_⟩
  · intro p id a c; simp [AllowedIPs.empty, entries]
  · intro p; simp [AllowedIPs.empty]
  · intro p x hx; simp [AllowedIPs.empty] at hx
  · intro y hy; simp [AllowedIPs.empty, entries] at hy

theorem ValidInsert.cases {ip : List Nat} {cidr : Nat} (h : ValidInsert ip cidr) :
    (IsAddr 4 ip ∧ cidr ≤ 8 * 4) ∨ (IsAddr 16 ip ∧ cidr ≤ 8 * 16) := by
  obtain ⟨h1, h2⟩ := h
  rcases h1 with h1 | h1
  · left; refine ⟨h1, ?_⟩; rw [h1.1] at h2; exact h2
  · right; refine ⟨h1, ?_⟩; rw [h1.1] at h2; exact h2

/-- A valid insert returns and keeps the invariant. -/
theorem Inv.insert_inv (le : Bool) {T : AllowedIPs} (h : Inv T) {ip : List Nat} {cidr : Nat}
    (hv : ValidInsert ip cidr) (p : Peer) :
    ∃ T', Insert le T ip cidr (some p) = some T' ∧ Inv T' := by
  obtain ⟨w4, w6, f4, f6, idx⟩ := h
  rcases hv.cases with ⟨hip, hc⟩ | ⟨hip, hc⟩
  · obtain ⟨t', L1, hins, wf', full', idx', _⟩ :=
      insert_family le (Or.inl rfl) (by decide : (4 : Nat) ≠ 16) T.IPv4 T.IPv6 T.lists hip hc p
        w4 w6 idx
    refine ⟨{ IPv4 := t', IPv6 := T.IPv6, lists := (PushBack L1 p (maskSelf ip cidr) cidr).2 },
      ?_, ⟨wf', w6, full' f4, f6, idx'⟩⟩
    unfold Insert
    simp [hip.1, IPv4len, IPv6len, hins]
  · have idx2 : Idx T.lists (entries T.IPv6 ++ entries T.IPv4) :=
      idx.congr (fun y => by simp only [List.mem_append]; exact Or.comm)
    obtain ⟨t', L1, hins, wf', full', idx', _⟩ :=
      insert_family le (Or.inr rfl) (by decide : (16 : Nat) ≠ 4) T.IPv6 T.IPv4 T.lists hip hc p
        w6 w4 idx2
    refine ⟨{ IPv4 := T.IPv4, IPv6 := t', lists := (PushBack L1 p (maskSelf ip cidr) cidr).2 },
      ?_, ⟨w4, wf', f4, full' f6, ?_⟩⟩
    · unfold Insert
      simp [hip.1, IPv6len, hins]
    · exact idx'.congr (fun y => by simp only [List.mem_append]; exact Or.comm)

theorem Reachable.inv {le : Bool} {T : AllowedIPs} (h : Reachable le T) : Inv T := by
  induction h with
  | empty => exact Inv.empty_inv
  | insert _ hv hins ih =>
    obtain ⟨T', h1, h2⟩ := ih.insert_inv le hv _
    rw [hins] at h1
    cases h1
    exact h2


/-! ## The bindings after `Insert` -/

theorem bindings_of_mem {t t' : trieEntry} {L : PeerLists} {p : Peer}
    {m : List Nat} {cidr : Nat}
    (m1 : (some p, some L.next, m, cidr) ∈ entries t')
    (m2 : ∀ y ∈ entries t', y = (some p, some L.next, m, cidr) ∨
      (y ∈ entries t ∧ y.2.2 ≠ (m, cidr)) ∨ (y.1 = none ∧ y.2.1 = none))
    (m3 : ∀ y ∈ entries t, y.2.2 ≠ (m, cidr) → y ∈ entries t') (x : List Nat × Nat × Peer) :
    x ∈ bindings t' ↔ x = (m, cidr, p) ∨ (x ∈ bindings t ∧ (x.1, x.2.1) ≠ (m, cidr)) := by
  obtain ⟨a, c, q⟩ := x
  rw [mem_bindings_iff, mem_bindings_iff]
  constructor
  · rintro ⟨e, he⟩
    rcases m2 _ he with hh | hh | hh
    · simp only [Prod.mk.injEq, Option.some.injEq] at hh
      obtain ⟨rfl, _, rfl, rfl⟩ := hh
      exact Or.inl rfl
    · exact Or.inr ⟨⟨e, hh.1⟩, hh.2⟩
    · simp at hh
  · rintro (hh | ⟨⟨e, he⟩, hp⟩)
    · simp only [Prod.mk.injEq] at hh
      obtain ⟨rfl, rfl, rfl⟩ := hh
      exact ⟨_, m1⟩
    · exact ⟨e, m3 _ he hp⟩

/-- A valid insert on a table that satisfies the invariant: it returns, keeps the
invariant, leaves the trie of the other family alone and rebinds one prefix. -/
theorem Inv.insert_bindings (le : Bool) {T : AllowedIPs} (h : Inv T) {ip : List Nat} {cidr : Nat}
    (hv : ValidInsert ip cidr) (p : Peer) :
    ∃ T', Insert le T ip cidr (some p) = some T' ∧ Inv T' ∧
      (∀ x, x ∈ bindings T'.IPv4 ↔ (x = (maskSelf ip cidr, cidr, p) ∧ ip.length = 4) ∨
        (x ∈ bindings T.IPv4 ∧ (x.1, x.2.1) ≠ (maskSelf ip cidr, cidr))) ∧
      (∀ x, x ∈ bindings T'.IPv6 ↔ (x = (maskSelf ip cidr, cidr, p) ∧ ip.length = 16) ∨
        (x ∈ bindings T.IPv6 ∧ (x.1, x.2.1) ≠ (maskSelf ip cidr, cidr))) := by
  obtain ⟨w4, w6, f4, f6, idx⟩ := h
  rcases hv.cases with ⟨hip, hc⟩ | ⟨hip, hc⟩
  · obtain ⟨t', L1, hins, wf', full', idx', m1, m2, m3, _⟩ :=
      insert_family le (Or.inl rfl) (by decide : (4 : Nat) ≠ 16) T.IPv4 T.IPv6 T.lists hip hc p
        w4 w6 idx
    have mA : IsAddr 4 (maskSelf ip cidr) := maskSelf_isAddr (Or.inl rfl) hc hip
    refine ⟨{ IPv4 := t', IPv6 := T.IPv6, lists := (PushBack L1 p (maskSelf ip cidr) cidr).2 },
      ?_, ⟨wf', w6, full' f4, f6, idx'⟩, ?_, ?_⟩
    · unfold Insert
      simp [hip.1, IPv4len, IPv6len, hins]
    · intro x
      simp only
      rw [bindings_of_mem m1 m2 m3 x]
      simp [hip.1]
    · intro x
      simp only [hip.1]
      constructor
      · intro hx
        refine Or.inr ⟨hx, fun hp => ?_⟩
        have h1 := (w6.sub x hx).2.2.1.1
        have : x.1 = maskSelf ip cidr := congrArg Prod.fst hp
        rw [this, mA.1] at h1
        omega
      · rintro (⟨_, h⟩ | h)
        · omega
        · exact h.1
  · have idx2 : Idx T.lists (entries T.IPv6 ++ entries T.IPv4) :=
      idx.congr (fun y => by simp only [List.mem_append]; exact Or.comm)
    obtain ⟨t', L1, hins, wf', full', idx', m1, m2, m3, _⟩ :=
      insert_family le (Or.inr rfl) (by decide : (16 : Nat) ≠ 4) T.IPv6 T.IPv4 T.lists hip hc p
        w6 w4 idx2
    have mA : IsAddr 16 (maskSelf ip cidr) := maskSelf_isAddr (Or.inr rfl) hc hip
    refine ⟨{ IPv4 := T.IPv4, IPv6 := t', lists := (PushBack L1 p (maskSelf ip cidr) cidr).2 },
      ?_, ⟨w4, wf', f4, full' f6, ?_⟩, ?_, ?_⟩
    · unfold Insert
      simp [hip.1, IPv6len, hins]
    · exact idx'.congr (fun y => by simp only [List.mem_append]; exact Or.comm)
    · intro x
      simp only [hip.1]
      constructor
      · intro hx
        refine Or.inr ⟨hx, fun hp => ?_⟩
        have h1 := (w4.sub x hx).2.2.1.1
        have : x.1 = maskSelf ip cidr := congrArg Prod.fst hp
        rw [this, mA.1] at h1
        omega
      · rintro (⟨_, h⟩ | h)
        · omega
        · exact h.1
    · intro x
      simp only
      rw [bindings_of_mem m1 m2 m3 x]
      simp [hip.1]


/-! ## The shape of a trie is determined by its bindings -/

theorem exists_binding {t : trieEntry} (h : Full t) (hn : t ≠ .null) : ∃ x, x ∈ bindings t := by
  induction t with
  | null => exact absurd rfl hn
  | node p c0 c1 c b s bs e ih0 _ =>
    obtain ⟨hp, f0, _⟩ := h
    cases p with
    | some q => exact ⟨(bs, c, q), mem_bindings_node.2 (Or.inl (by simp [own]))⟩
    | none =>
      obtain ⟨x, hx⟩ := ih0 f0 (hp rfl).1
      exact ⟨x, mem_bindings_node.2 (Or.inr (Or.inl hx))⟩

theorem bindings_null_iff {t : trieEntry} (h : Full t) : (∀ x, x ∉ bindings t) ↔ t = .null := by
  constructor
  · intro hx
    by_contra hn
    obtain ⟨x, hx'⟩ := exists_binding h hn
    exact hx x hx'
  · rintro rfl x hx
    simp [bindings] at hx

/-- The bindings below the child slots of a well-formed node. -/
theorem mem_child_iff {w : Nat} {p : Option Peer} {c0 c1 : trieEntry} {c b s : Nat}
    {bs : List Nat} {e : Option Nat} (h : WF w (.node p c0 c1 c b s bs e))
    (x : List Nat × Nat × Peer) :
    (x ∈ bindings c0 ↔ x ∈ bindings (.node p c0 c1 c b s bs e) ∧ c < x.2.1 ∧ bitAt x.1 c = 0) ∧
    (x ∈ bindings c1 ↔ x ∈ bindings (.node p c0 c1 c b s bs e) ∧ c < x.2.1 ∧ bitAt x.1 c = 1) ∧
    (x ∈ own p bs c ↔ x ∈ bindings (.node p c0 c1 c b s bs e) ∧ x.2.1 = c) := by
  have hsub := h.sub
  obtain ⟨ok, b0, b1, w0, w1⟩ := h
  by_cases hfull : c = 8 * w
  · subst hfull
    have e0 := b0.null_of_full w0
    have e1 := b1.null_of_full w1
    subst e0; subst e1
    refine ⟨?_, ?_, ?_⟩
    · constructor
      · intro hx; simp [bindings] at hx
      · rintro ⟨hx, hlt, _⟩
        have := (hsub x hx).2.2.2.1
        omega
    · constructor
      · intro hx; simp [bindings] at hx
      · rintro ⟨hx, hlt, _⟩
        have := (hsub x hx).2.2.2.1
        omega
    · constructor
      · intro hx
        exact ⟨mem_bindings_node.2 (Or.inl hx), (mem_own.1 hx).2.1⟩
      · rintro ⟨hx, _⟩
        rcases mem_bindings_node.1 hx with h | h | h
        · exact h
        · simp [bindings] at h
        · simp [bindings] at h
  · have hc : c < 8 * w := by have := ok.2.1; omega
    refine ⟨?_, ?_, ?_⟩
    · constructor
      · intro hx
        exact ⟨mem_bindings_node.2 (Or.inr (Or.inl hx)), b0.sub_bit w0 hc x hx⟩
      · rintro ⟨hx, hlt, hbit⟩
        rcases mem_bindings_node.1 hx with h | h | h
        · have := (mem_own.1 h).2.1; omega
        · exact h
        · have := (b1.sub_bit w1 hc x h).2; omega
    · constructor
      · intro hx
        exact ⟨mem_bindings_node.2 (Or.inr (Or.inr hx)), b1.sub_bit w1 hc x hx⟩
      · rintro ⟨hx, hlt, hbit⟩
        rcases mem_bindings_node.1 hx with h | h | h
        · have := (mem_own.1 h).2.1; omega
        · have := (b0.sub_bit w0 hc x h).2; omega
        · exact h
    · constructor
      · intro hx
        exact ⟨mem_bindings_node.2 (Or.inl hx), (mem_own.1 hx).2.1⟩
      · rintro ⟨hx, heq⟩
        rcases mem_bindings_node.1 hx with h | h | h
        · exact h
        · have := (b0.sub_bit w0 hc x h).1; omega
        · have := (b1.sub_bit w1 hc x h).1; omega

/-- The root of a trie is at most as deep as the root of a trie with fewer bindings. -/
theorem root_cidr_le {w : Nat} {t1 t2 : trieEntry} (h1 : WF w t1) (h2 : WF w t2) (f2 : Full t2)
    (n2 : t2 ≠ .null) (hsub : ∀ x ∈ bindings t2, x ∈ bindings t1) : t1.cidr ≤ t2.cidr := by
  cases t2 with
  | null => exact absurd rfl n2
  | node p c0 c1 c b s bs e =>
    simp only [trieEntry.cidr_node]
    cases p with
    | some q =>
      have hx : (bs, c, q) ∈ bindings (.node (some q) c0 c1 c b s bs e) :=
        mem_bindings_node.2 (Or.inl (by simp [own]))
      exact (h1.sub _ (hsub _ hx)).1
    | none =>
      obtain ⟨hp, f0, f1⟩ := f2
      obtain ⟨n0, n1⟩ := hp rfl
      obtain ⟨x0, hx0⟩ := exists_binding f0 n0
      obtain ⟨x1, hx1⟩ := exists_binding f1 n1
      have m := mem_child_iff h2
      have k0 := ((m x0).1.1 hx0)
      have k1 := ((m x1).2.1.1 hx1)
      obtain ⟨_, a0, A0, l0, _⟩ := h1.sub _ (hsub _ k0.1)
      obtain ⟨_, a1, A1, l1, _⟩ := h1.sub _ (hsub _ k1.1)
      by_contra hlt
      have hM : Matches x0.1 t1.cidr x1.1 := a0.trans a1.symm
      have := hM.bitAt_eq (by rw [A0.1, A1.1]) (by omega : c < t1.cidr) (by rw [A0.1]; omega)
      omega

theorem strip_node (p : Option Peer) (c0 c1 : trieEntry) (c b s : Nat) (bs : List Nat)
    (e : Option Nat) :
    strip (.node p c0 c1 c b s bs e) = .node p (strip c0) (strip c1) c b s bs none := rfl

/-- Two well-formed tries in which every node without a peer has two children, and
which have the same bindings, have the same nodes, peers and child links. -/
theorem strip_eq_of_bindings {w : Nat} (t1 : trieEntry) : ∀ t2 : trieEntry, WF w t1 → WF w t2 →
    Full t1 → Full t2 → (∀ x, x ∈ bindings t1 ↔ x ∈ bindings t2) → strip t1 = strip t2 := by
  induction t1 with
  | null =>
    intro t2 _ _ _ f2 hb
    have : t2 = .null := (bindings_null_iff f2).1 (fun x hx => by
      have := (hb x).2 hx
      simp [bindings] at this)
    rw [this]
  | node p c0 c1 c b s bs e ih0 ih1 =>
    intro t2 h1 h2 f1 f2 hb
    have n1 : (trieEntry.node p c0 c1 c b s bs e) ≠ .null := by simp
    obtain ⟨x, hx⟩ := exists_binding f1 n1
    cases t2 with
    | null => have := (hb x).1 hx; simp [bindings] at this
    | node p' d0 d1 c' b' s' bs' e' =>
      have n2 : (trieEntry.node p' d0 d1 c' b' s' bs' e') ≠ .null := by simp
      have le1 := root_cidr_le h1 h2 f2 n2 (fun y hy => (hb y).2 hy)
      have le2 := root_cidr_le h2 h1 f1 n1 (fun y hy => (hb y).1 hy)
      simp only [trieEntry.cidr_node] at le1 le2
      have hc : c = c' := by omega
      subst hc
      obtain ⟨_, a1, A1, _, _⟩ := h1.sub x hx
      obtain ⟨_, a2, A2, _, _⟩ := h2.sub x ((hb x).1 hx)
      simp only [trieEntry.cidr_node, trieEntry.bits_node] at a1 a2
      have ok1 := h1.1
      have ok2 := h2.1
      have hbs : bs = bs' := Masked.eq ok1.1 ok2.1 ok1.2.2.2.2 ok2.2.2.2.2 (a1.symm.trans a2)
      subst hbs
      have hb' : b = b' := by rw [ok1.2.2.1, ok2.2.2.1]
      have hs' : s = s' := by rw [ok1.2.2.2.1, ok2.2.2.2.1]
      subst hb'; subst hs'
      have m1 := mem_child_iff h1
      have m2 := mem_child_iff h2
      have hp : p = p' := by
        have key : ∀ q, p = some q ↔ p' = some q := by
          intro q
          have k1 := (m1 (bs, c, q)).2.2
          have k2 := (m2 (bs, c, q)).2.2
          rw [mem_own] at k1 k2
          simp only [true_and] at k1 k2
          rw [k1, k2, hb]
        cases p with
        | none =>
          cases p' with
          | none => rfl
          | some q => exact absurd ((key q).2 rfl) (by simp)
        | some q => exact ((key q).1 rfl).symm
      subst hp
      have e0 : strip c0 = strip d0 := by
        apply ih0 d0 h1.2.2.2.1 h2.2.2.2.1 f1.2.1 f2.2.1
        intro y
        rw [(m1 y).1, (m2 y).1, hb]
      have e1 : strip c1 = strip d1 := by
        apply ih1 d1 h1.2.2.2.2 h2.2.2.2.2 f1.2.2 f2.2.2
        intro y
        rw [(m1 y).2.1, (m2 y).2.1, hb]
      rw [strip_node, strip_node, e0, e1]

theorem lookupLoop_strip (le : Bool) (q : List Nat) (size : Nat) (t : trieEntry) :
    ∀ found : Option Peer, lookupLoop le q size (strip t) found = lookupLoop le q size t found := by
  induction t with
  | null => intro found; rfl
  | node p c0 c1 c b s bs e ih0 ih1 =>
    intro found
    rw [strip_node]
    unfold lookupLoop
    have hch : choose (.node p (strip c0) (strip c1) c b s bs none) q =
        choose (.node p c0 c1 c b s bs e) q := rfl
    rw [hch]
    cases commonBits le bs q with
    | none => rfl
    | some n =>
      simp only
      split
      · split
        · rfl
        · cases choose (.node p c0 c1 c b s bs e) q with
          | none => rfl
          | some bit =>
            simp only
            split
            · exact ih0 _
            · exact ih1 _
      · rfl

theorem lookup_strip (le : Bool) (t : trieEntry) (q : List Nat) :
    lookup le (strip t) q = lookup le t q := lookupLoop_strip le q _ t none


/-! ## Rebinding a prefix -/

theorem WF.prefix_nodup {w : Nat} {t : trieEntry} (h : WF w t) :
    ((entries t).map (fun y => y.2.2)).Nodup := by
  induction t with
  | null => simp [entries]
  | node p c0 c1 c b s bs e ih0 ih1 =>
    obtain ⟨ok, b0, b1, w0, w1⟩ := h
    simp only [entries, List.map_cons, List.map_append]
    by_cases hfull : c = 8 * w
    · subst hfull
      have e0 := b0.null_of_full w0
      have e1 := b1.null_of_full w1
      subst e0; subst e1
      simp [entries]
    · have hc : c < 8 * w := by have := ok.2.1; omega
      rw [List.nodup_cons]
      constructor
      · intro hmem
        rcases List.mem_append.1 hmem with hm | hm
        · obtain ⟨y, hy, hp⟩ := List.mem_map.1 hm
          have := (b0.subE_bit w0 hc y hy).1
          have : y.2.2.2 = c := congrArg Prod.snd hp
          omega
        · obtain ⟨y, hy, hp⟩ := List.mem_map.1 hm
          have := (b1.subE_bit w1 hc y hy).1
          have : y.2.2.2 = c := congrArg Prod.snd hp
          omega
      · refine List.Nodup.append (ih0 w0) (ih1 w1) ?_
        intro a ha hb
        obtain ⟨y, hy, hp⟩ := List.mem_map.1 ha
        obtain ⟨z, hz, hq⟩ := List.mem_map.1 hb
        have k0 := (b0.subE_bit w0 hc y hy).2
        have k1 := (b1.subE_bit w1 hc z hz).2
        have : y.2.2.1 = z.2.2.1 := by rw [congrArg Prod.fst hp, congrArg Prod.fst hq]
        rw [this] at k0
        omega

/-- The insert of a prefix that is a node of the trie rewrites that node in place. -/
theorem insert_rebind (le : Bool) {w : Nat} (hw : w = 4 ∨ w = 16) (t : trieEntry) (L : PeerLists)
    {ip : List Nat} (hip : IsAddr w ip) {cidr : Nat} (hc : cidr ≤ 8 * w) (p : Peer)
    (hwf : WF w t) (hlink : ∀ y ∈ entries t, y.1 = none → y.2.1 = none)
    (hfresh : ∀ y ∈ entries t, ∀ e, y.2.1 = some e → e < L.next)
    (po : Option Peer) (eo : Option Nat) (hold : (po, eo, maskSelf ip cidr, cidr) ∈ entries t) :
    ∃ rel c0 c1 b s L1,
      t.get rel = .node po c0 c1 cidr b s (maskSelf ip cidr) eo ∧
      insert le t L ip cidr (some p) =
        some (t.set rel (.node (some p) c0 c1 cidr b s (maskSelf ip cidr) (some L.next)),
          (PushBack L1 p (maskSelf ip cidr) cidr).2) ∧
      ((eo = none ∧ L1 = L) ∨ ∃ e q, eo = some e ∧ po = some q ∧ L1 = Remove L q e) := by
  obtain ⟨t', wf', _, hcase⟩ := insert_spec le hw t L hip hc p hwf hlink
  rcases hcase with ⟨rel, po', eo', c0, c1, b, s, L1, hget, hset, hL1, hins⟩ | ⟨_, hperm⟩
  · have hin : (po', eo', maskSelf ip cidr, cidr) ∈ entries t :=
      entries_get_subset rel t _ (by rw [hget]; simp [entries])
    have := hwf.entries_unique _ hin _ hold rfl
    simp only [Prod.mk.injEq, and_true] at this
    obtain ⟨rfl, rfl⟩ := this
    exact ⟨rel, c0, c1, b, s, L1, hget, by rw [hins, hset], hL1⟩
  · exfalso
    have hnew : (some p, some L.next, maskSelf ip cidr, cidr) ∈ entries t' := by
      rcases hperm with h | ⟨sb, sc, h⟩
      · exact h.symm.subset (List.mem_cons_self _ _)
      · exact h.symm.subset (List.mem_cons_of_mem _ (List.mem_cons_self _ _))
    have hold' : (po, eo, maskSelf ip cidr, cidr) ∈ entries t' := by
      rcases hperm with h | ⟨sb, sc, h⟩
      · exact h.symm.subset (List.mem_cons_of_mem _ hold)
      · exact h.symm.subset (List.mem_cons_of_mem _ (List.mem_cons_of_mem _ hold))
    have := wf'.entries_unique _ hold' _ hnew rfl
    simp only [Prod.mk.injEq, and_true] at this
    have hlt := hfresh _ hold L.next this.2
    omega

theorem strip_set_same {p p' : Option Peer} {c0 c1 : trieEntry} {c b s : Nat} {bs : List Nat}
    {e e' : Option Nat} : ∀ (rel : List Nat) (t : trieEntry),
    t.get rel = .node p c0 c1 c b s bs e →
    strip (t.set rel (.node p' c0 c1 c b s bs e')) = (strip t).set rel (.node p' (strip c0) (strip c1) c b s bs none) ∧
    (strip t).get rel = .node p (strip c0) (strip c1) c b s bs none
  | [], t, h => by
    simp only [trieEntry.get] at h
    subst h
    exact ⟨rfl, rfl⟩
  | bit :: r, t, h => by
    cases t with
    | null => rw [trieEntry.get_null] at h; simp at h
    | node q d0 d1 c' b' s' bs' e'' =>
      simp only [trieEntry.get, trieEntry.child] at h
      simp only [trieEntry.set, trieEntry.get, trieEntry.child, trieEntry.setChild, strip_node]
      by_cases h0 : bit = 0
      · simp only [h0, if_true] at h ⊢
        obtain ⟨i1, i2⟩ := strip_set_same r d0 h
        rw [strip_node, i1]
        exact ⟨rfl, i2⟩
      · simp only [h0, if_false] at h ⊢
        obtain ⟨i1, i2⟩ := strip_set_same r d1 h
        rw [strip_node, i1]
        exact ⟨rfl, i2⟩

theorem set_get_self : ∀ (rel : List Nat) (t : trieEntry), t.get rel ≠ .null →
    t.set rel (t.get rel) = t
  | [], _, _ => rfl
  | bit :: r, t, h => by
    cases t with
    | null => exact absurd (trieEntry.get_null _) h
    | node q d0 d1 c' b' s' bs' e'' =>
      simp only [trieEntry.get, trieEntry.child] at h
      simp only [trieEntry.set, trieEntry.get, trieEntry.child, trieEntry.setChild]
      by_cases h0 : bit = 0
      · simp only [h0, if_true] at h ⊢
        rw [set_get_self r d0 h]
      · simp only [h0, if_false] at h ⊢
        rw [set_get_self r d1 h]

/-- Rewriting the peer and the list element of a node keeps the shape of the trie when
the peer is the same. -/
theorem strip_rebind_same {p : Option Peer} {c0 c1 : trieEntry} {c b s : Nat} {bs : List Nat}
    {e e' : Option Nat} (rel : List Nat) (t : trieEntry)
    (h : t.get rel = .node p c0 c1 c b s bs e) :
    strip (t.set rel (.node p c0 c1 c b s bs e')) = strip t := by
  obtain ⟨i1, i2⟩ := @strip_set_same p p c0 c1 c b s bs e e' rel t h
  rw [i1, ← i2]
  exact set_get_self rel (strip t) (by rw [i2]; simp)


/-! ## Two inserts of one binding -/

theorem PushBack_entries (L : PeerLists) (p q : Peer) (m : List Nat) (cidr : Nat) :
    (PushBack L p m cidr).2.trieEntries q =
      if q = p then L.trieEntries q ++ [⟨L.next, m, cidr⟩] else L.trieEntries q := rfl

theorem Remove_entries (L : PeerLists) (p q : Peer) (e : Nat) :
    (Remove L p e).trieEntries q =
      if q = p then (L.trieEntries q).filter (fun x => x.id ≠ e) else L.trieEntries q := rfl

theorem insert_twice_family (le : Bool) {w w2 : Nat} (hw : w = 4 ∨ w = 16) (hne : w ≠ w2)
    (t t2 : trieEntry) (L : PeerLists) {ip : List Nat} (hip : IsAddr w ip) {cidr : Nat}
    (hc : cidr ≤ 8 * w) (p : Peer) (hwf : WF w t) (hwf2 : WF w2 t2)
    (hidx : Idx L (entries t ++ entries t2)) :
    ∃ t1 L1 t3 L3, insert le t L ip cidr (some p) = some (t1, L1) ∧
      insert le t1 L1 ip cidr (some p) = some (t3, L3) ∧ strip t3 = strip t1 ∧
      ∀ q, (L3.trieEntries q).map (fun x => (x.bits, x.cidr)) =
        (L1.trieEntries q).map (fun x => (x.bits, x.cidr)) := by
  obtain ⟨t1, K, hins, wf1, _, idx1, m1, _, _, m4⟩ :=
    insert_family le hw hne t t2 L hip hc p hwf hwf2 hidx
  have hKnext : K.next = L.next := by
    rcases m4 with ⟨e, _⟩ | ⟨q, e, e1, _⟩
    · rw [e]
    · rw [e1]; rfl
  have hKlt : ∀ x ∈ K.trieEntries p, x.id < L.next := by
    intro x hx
    rcases m4 with ⟨e, _⟩ | ⟨q, e, e1, _⟩
    · rw [e] at hx; exact hidx.2.2.1 p x hx
    · rw [e1] at hx; exact hidx.2.2.1 p x ((mem_Remove.1 hx).1)
  have hlink : ∀ y ∈ entries t1, y.1 = none → y.2.1 = none := fun y hy hn =>
    (idx1.2.2.2 y (List.mem_append_left _ hy)).1 hn
  have hfresh : ∀ y ∈ entries t1, ∀ e, y.2.1 = some e →
      e < (PushBack K p (maskSelf ip cidr) cidr).2.next := fun y hy =>
    idx1.fresh y (List.mem_append_left _ hy)
  obtain ⟨rel, c0, c1, b, s, K2, hget, hins2, hK2⟩ :=
    insert_rebind le hw t1 (PushBack K p (maskSelf ip cidr) cidr).2 hip hc p wf1 hlink hfresh
      (some p) (some L.next) m1
  have hK2' : K2 = Remove (PushBack K p (maskSelf ip cidr) cidr).2 p L.next := by
    rcases hK2 with ⟨h, _⟩ | ⟨e, q, h1, h2, h3⟩
    · simp at h
    · simp only [Option.some.injEq] at h1 h2
      rw [h3, ← h1, ← h2]
  refine ⟨t1, _, _, _, hins, hins2, strip_rebind_same rel t1 hget, ?_⟩
  intro q
  rw [PushBack_entries, hK2', Remove_entries, PushBack_entries]
  by_cases hq : q = p
  · subst hq
    simp only [if_true, List.filter_append, List.map_append]
    have h1 : (K.trieEntries q).filter (fun x => decide (x.id ≠ L.next)) = K.trieEntries q := by
      rw [List.filter_eq_self]
      intro x hx
      have := hKlt x hx
      simp only [ne_eq, decide_not, Bool.not_eq_true', decide_eq_false_iff_not]
      omega
    have h2 : ([⟨K.next, maskSelf ip cidr, cidr⟩] : List Element).filter
        (fun x => decide (x.id ≠ L.next)) = [] := by
      simp [hKnext]
    rw [h1, h2]
    simp
  · simp only [hq, if_false]

/-- Two inserts in a row of one binding on a table that satisfies the invariant. -/
theorem Inv.insert_twice (le : Bool) {T : AllowedIPs} (h : Inv T) {ip : List Nat} {cidr : Nat}
    (hv : ValidInsert ip cidr) (p : Peer) :
    ∃ T1 T2, Insert le T ip cidr (some p) = some T1 ∧ Insert le T1 ip cidr (some p) = some T2 ∧
      strip T2.IPv4 = strip T1.IPv4 ∧ strip T2.IPv6 = strip T1.IPv6 ∧
      ∀ q, (T2.lists.trieEntries q).map (fun x => (x.bits, x.cidr)) =
        (T1.lists.trieEntries q).map (fun x => (x.bits, x.cidr)) := by
  obtain ⟨w4, w6, f4, f6, idx⟩ := h
  rcases hv.cases with ⟨hip, hc⟩ | ⟨hip, hc⟩
  · obtain ⟨t1, L1, t3, L3, h1, h2, h3, h4⟩ :=
      insert_twice_family le (Or.inl rfl) (by decide : (4 : Nat) ≠ 16) T.IPv4 T.IPv6 T.lists
        hip hc p w4 w6 idx
    refine ⟨{ IPv4 := t1, IPv6 := T.IPv6, lists := L1 },
      { IPv4 := t3, IPv6 := T.IPv6, lists := L3 }, ?_, ?_, h3, rfl, h4⟩
    · unfold Insert
      simp [hip.1, IPv4len, IPv6len, h1]
    · unfold Insert
      simp [hip.1, IPv4len, IPv6len, h2]
  · have idx2 : Idx T.lists (entries T.IPv6 ++ entries T.IPv4) :=
      idx.congr (fun y => by simp only [List.mem_append]; exact Or.comm)
    obtain ⟨t1, L1, t3, L3, h1, h2, h3, h4⟩ :=
      insert_twice_family le (Or.inr rfl) (by decide : (16 : Nat) ≠ 4) T.IPv6 T.IPv4 T.lists
        hip hc p w6 w4 idx2
    refine ⟨{ IPv4 := T.IPv4, IPv6 := t1, lists := L1 },
      { IPv4 := T.IPv4, IPv6 := t3, lists := L3 }, ?_, ?_, rfl, h3, h4⟩
    · unfold Insert
      simp [hip.1, IPv6len, h1]
    · unfold Insert
      simp [hip.1, IPv6len, h2]


theorem occurrences_eq_one {α : Type} [DecidableEq α] {x : α} {l : List α} (hnd : l.Nodup)
    (hx : x ∈ l) : occurrences x l = 1 := by
  induction l with
  | nil => simp at hx
  | cons a l ih =>
    rw [List.nodup_cons] at hnd
    unfold occurrences at ih ⊢
    by_cases ha : a = x
    · subst ha
      have : l.filter (fun y => decide (y = a)) = [] := by
        rw [List.filter_eq_nil_iff]
        intro y hy
        simp only [decide_eq_true_eq]
        rintro rfl
        exact hnd.1 hy
      simp [List.filter_cons, this]
    · have hx' : x ∈ l := by
        rcases List.mem_cons.1 hx with h | h
        · exact absurd h.symm ha
        · exact h
      simp only [List.filter_cons, ha, decide_False, Bool.false_eq_true, if_false]
      exact ih hnd.2 hx'

theorem prefix_nodup_table {t4 t6 : trieEntry} (w4 : WF 4 t4) (w6 : WF 16 t6) :
    ((entries t4 ++ entries t6).map (fun y => y.2.2)).Nodup := by
  rw [List.map_append]
  refine List.Nodup.append w4.prefix_nodup w6.prefix_nodup ?_
  intro a ha hb
  obtain ⟨y, hy, hp⟩ := List.mem_map.1 ha
  obtain ⟨z, hz, hq⟩ := List.mem_map.1 hb
  have k0 := (w4.subE y hy).2.2.1.1
  have k1 := (w6.subE z hz).2.2.1.1
  have : y.2.2.1 = z.2.2.1 := by rw [congrArg Prod.fst hp, congrArg Prod.fst hq]
  rw [this] at k0
  omega

/-- In an index that agrees with nodes of distinct prefixes, the prefix of a node
assigned to `P'` is once in the list of `P'` and in no other list. -/
theorem Idx.count_prefix {L : PeerLists} {E : List (Option Peer × Option Nat × List Nat × Nat)}
    (h : Idx L E) (hnd : (E.map (fun y => y.2.2)).Nodup) {P' : Peer} {id : Nat} {m : List Nat}
    {cidr : Nat} (hin : (some P', some id, m, cidr) ∈ E) :
    occurrences (m, cidr) ((L.trieEntries P').map (fun x => (x.bits, x.cidr))) = 1 ∧
    ∀ P, P ≠ P' → (m, cidr) ∉ (L.trieEntries P).map (fun x => (x.bits, x.cidr)) := by
  have uniq : ∀ y ∈ E, ∀ z ∈ E, y.2.2 = z.2.2 → y = z := fun y hy z hz hp =>
    List.inj_on_of_nodup_map hnd hy hz hp
  constructor
  · apply occurrences_eq_one
    · apply List.Nodup.map_on _ (List.Nodup.of_map _ (h.2.1 P'))
      intro x hx y hy hxy
      obtain ⟨i, a, c⟩ := x
      obtain ⟨j, a', c'⟩ := y
      simp only [Prod.mk.injEq] at hxy
      obtain ⟨rfl, rfl⟩ := hxy
      have := uniq _ ((h.1 P' i a c).1 hx) _ ((h.1 P' j a c).1 hy) rfl
      simp only [Prod.mk.injEq, Option.some.injEq, and_true, true_and] at this
      rw [this]
    · exact List.mem_map.2 ⟨⟨id, m, cidr⟩, (h.1 P' id m cidr).2 hin, rfl⟩
  · intro P hP hmem
    obtain ⟨x, hx, hp⟩ := List.mem_map.1 hmem
    obtain ⟨i, a, c⟩ := x
    simp only [Prod.mk.injEq] at hp
    obtain ⟨rfl, rfl⟩ := hp
    have := uniq _ ((h.1 P i a c).1 hx) _ hin rfl
    simp only [Prod.mk.injEq, Option.some.injEq, and_true] at this
    exact hP this.1

/-- The insert of a prefix bound to `P`, for one family. -/
theorem rebind_family (le : Bool) {w w2 : Nat} (hw : w = 4 ∨ w = 16) (hne : w ≠ w2)
    (t t2 : trieEntry) (L : PeerLists) {ip : List Nat} (hip : IsAddr w ip) {cidr : Nat}
    (hc : cidr ≤ 8 * w) (P P' : Peer) (hwf : WF w t) (hwf2 : WF w2 t2)
    (hidx : Idx L (entries t ++ entries t2))
    (hb : (maskSelf ip cidr, cidr, P) ∈ bindings t) :
    ∃ t' L', insert le t L ip cidr (some P') = some (t', L') ∧ WF w t' ∧
      Idx L' (entries t' ++ entries t2) ∧
      (some P', some L.next, maskSelf ip cidr, cidr) ∈ entries t' ∧
      ∃ rel c0 c1 b s e e',
        t.get rel = .node (some P) c0 c1 cidr b s (maskSelf ip cidr) e ∧
        t' = t.set rel (.node (some P') c0 c1 cidr b s (maskSelf ip cidr) e') := by
  obtain ⟨eo, hold⟩ := mem_bindings_iff.1 hb
  simp only at hold
  obtain ⟨t', K, hins, wf', _, idx', m1, _⟩ :=
    insert_family le hw hne t t2 L hip hc P' hwf hwf2 hidx
  have hlink : ∀ y ∈ entries t, y.1 = none → y.2.1 = none := fun y hy hn =>
    (hidx.2.2.2 y (List.mem_append_left _ hy)).1 hn
  have hfresh : ∀ y ∈ entries t, ∀ e, y.2.1 = some e → e < L.next := fun y hy =>
    hidx.fresh y (List.mem_append_left _ hy)
  obtain ⟨rel, c0, c1, b, s, K2, hget, hins2, _⟩ :=
    insert_rebind le hw t L hip hc P' hwf hlink hfresh (some P) eo hold
  rw [hins] at hins2
  simp only [Option.some.injEq, Prod.mk.injEq] at hins2
  exact ⟨t', _, hins, wf', idx', m1, rel, c0, c1, b, s, eo, some L.next, hget, hins2.1⟩

theorem bindings_family {t4 t6 : trieEntry} (w4 : WF 4 t4) (w6 : WF 16 t6) {w : Nat}
    {x : List Nat × Nat × Peer} (hx : x ∈ bindings t4 ++ bindings t6) (hl : x.1.length = w) :
    (w = 4 → x ∈ bindings t4) ∧ (w = 16 → x ∈ bindings t6) := by
  rcases List.mem_append.1 hx with h | h
  · have := (w4.sub x h).2.2.1.1
    exact ⟨fun _ => h, fun h16 => by omega⟩
  · have := (w6.sub x h).2.2.1.1
    exact ⟨fun h4 => by omega, fun _ => h⟩

/-- The insert of a prefix bound to `P` on a table that satisfies the invariant. -/
theorem Inv.insert_rebinds (le : Bool) {T : AllowedIPs} (h : Inv T) {ip : List Nat} {cidr : Nat}
    (hv : ValidInsert ip cidr) (P P' : Peer)
    (hb : (maskSelf ip cidr, cidr, P) ∈ bindings T.IPv4 ++ bindings T.IPv6) :
    ∃ T', Insert le T ip cidr (some P') = some T' ∧
      occurrences (maskSelf ip cidr, cidr)
        ((entries T'.IPv4 ++ entries T'.IPv6).map (fun y => y.2.2)) = 1 ∧
      (∀ y ∈ entries T'.IPv4 ++ entries T'.IPv6, y.2.2 = (maskSelf ip cidr, cidr) →
        y.1 = some P') ∧
      occurrences (maskSelf ip cidr, cidr)
        ((T'.lists.trieEntries P').map (fun x => (x.bits, x.cidr))) = 1 ∧
      (P ≠ P' →
        (maskSelf ip cidr, cidr) ∉ (T'.lists.trieEntries P).map (fun x => (x.bits, x.cidr))) ∧
      ∃ rel c0 c1 b s e e',
        (T.root ip.length).get rel = .node (some P) c0 c1 cidr b s (maskSelf ip cidr) e ∧
        T'.root ip.length =
          (T.root ip.length).set rel (.node (some P') c0 c1 cidr b s (maskSelf ip cidr) e') := by
  obtain ⟨w4, w6, f4, f6, idx⟩ := h
  -- the facts that follow from the new node and the invariant of the result
  have final : ∀ (T' : AllowedIPs) (id : Nat), WF 4 T'.IPv4 → WF 16 T'.IPv6 →
      Idx T'.lists (entries T'.IPv4 ++ entries T'.IPv6) →
      (some P', some id, maskSelf ip cidr, cidr) ∈ entries T'.IPv4 ++ entries T'.IPv6 →
      occurrences (maskSelf ip cidr, cidr)
        ((entries T'.IPv4 ++ entries T'.IPv6).map (fun y => y.2.2)) = 1 ∧
      (∀ y ∈ entries T'.IPv4 ++ entries T'.IPv6, y.2.2 = (maskSelf ip cidr, cidr) →
        y.1 = some P') ∧
      occurrences (maskSelf ip cidr, cidr)
        ((T'.lists.trieEntries P').map (fun x => (x.bits, x.cidr))) = 1 ∧
      (P ≠ P' →
        (maskSelf ip cidr, cidr) ∉ (T'.lists.trieEntries P).map (fun x => (x.bits, x.cidr))) := by
    intro T' id v4 v6 idx' hnew
    have nd := prefix_nodup_table v4 v6
    have cp := idx'.count_prefix nd hnew
    refine ⟨occurrences_eq_one nd (List.mem_map.2 ⟨_, hnew, rfl⟩), ?_, cp.1,
      fun hne => cp.2 P hne⟩
    intro y hy hp
    have := List.inj_on_of_nodup_map nd hy hnew hp
    rw [this]
  rcases hv.cases with ⟨hip, hc⟩ | ⟨hip, hc⟩
  · have mA : IsAddr 4 (maskSelf ip cidr) := maskSelf_isAddr (Or.inl rfl) hc hip
    have hb4 := (bindings_family w4 w6 hb mA.1).1 rfl
    obtain ⟨t', L', hins, wf', idx', hnew, hstruct⟩ :=
      rebind_family le (Or.inl rfl) (by decide : (4 : Nat) ≠ 16) T.IPv4 T.IPv6 T.lists hip hc
        P P' w4 w6 idx hb4
    have hfin := final { IPv4 := t', IPv6 := T.IPv6, lists := L' } T.lists.next wf' w6 idx'
      (List.mem_append_left _ hnew)
    refine ⟨{ IPv4 := t', IPv6 := T.IPv6, lists := L' }, ?_, hfin.1, hfin.2.1, hfin.2.2.1,
      hfin.2.2.2, ?_⟩
    · unfold Insert
      simp [hip.1, IPv4len, IPv6len, hins]
    · simpa [AllowedIPs.root, hip.1, IPv6len] using hstruct
  · have mA : IsAddr 16 (maskSelf ip cidr) := maskSelf_isAddr (Or.inr rfl) hc hip
    have hb6 := (bindings_family w4 w6 hb mA.1).2 rfl
    have idx2 : Idx T.lists (entries T.IPv6 ++ entries T.IPv4) :=
      idx.congr (fun y => by simp only [List.mem_append]; exact Or.comm)
    obtain ⟨t', L', hins, wf', idx', hnew, hstruct⟩ :=
      rebind_family le (Or.inr rfl) (by decide : (16 : Nat) ≠ 4) T.IPv6 T.IPv4 T.lists hip hc
        P P' w6 w4 idx2 hb6
    have idx3 : Idx L' (entries T.IPv4 ++ entries t') :=
      idx'.congr (fun y => by simp only [List.mem_append]; exact Or.comm)
    have hfin := final { IPv4 := T.IPv4, IPv6 := t', lists := L' } T.lists.next w4 wf' idx3
      (List.mem_append_right _ hnew)
    refine ⟨{ IPv4 := T.IPv4, IPv6 := t', lists := L' }, ?_, hfin.1, hfin.2.1, hfin.2.2.1,
      hfin.2.2.2, ?_⟩
    · unfold Insert
      simp [hip.1, IPv6len, hins]
    · simpa [AllowedIPs.root, hip.1, IPv6len] using hstruct

/-- Two inserts of distinct prefixes on a table that satisfies the invariant, in the
two orders. -/
theorem Inv.insert_commute (le : Bool) {T : AllowedIPs} (h : Inv T) {ipx ipy : List Nat}
    {cx cy : Nat} (hx : ValidInsert ipx cx) (hy : ValidInsert ipy cy) (px py : Peer)
    (hne : (maskSelf ipx cx, cx) ≠ (maskSelf ipy cy, cy)) :
    ∃ Txy Tyx,
      (Insert le T ipx cx (some px)).bind (fun T1 => Insert le T1 ipy cy (some py)) = some Txy ∧
      (Insert le T ipy cy (some py)).bind (fun T1 => Insert le T1 ipx cx (some px)) = some Tyx ∧
      strip Txy.IPv4 = strip Tyx.IPv4 ∧ strip Txy.IPv6 = strip Tyx.IPv6 := by
  obtain ⟨Tx, hTx, ix, x4, x6⟩ := h.insert_bindings le hx px
  obtain ⟨Txy, hTxy, ixy, xy4, xy6⟩ := ix.insert_bindings le hy py
  obtain ⟨Ty, hTy, iy, y4, y6⟩ := h.insert_bindings le hy py
  obtain ⟨Tyx, hTyx, iyx, yx4, yx6⟩ := iy.insert_bindings le hx px
  refine ⟨Txy, Tyx, by rw [hTx]; exact hTxy, by rw [hTy]; exact hTyx, ?_, ?_⟩
  · apply strip_eq_of_bindings _ _ ixy.1 iyx.1 ixy.2.2.1 iyx.2.2.1
    intro z
    rw [xy4, x4, yx4, y4]
    constructor
    · rintro (⟨rfl, hl⟩ | ⟨(⟨rfl, hl⟩ | ⟨hz, hp⟩), hq⟩)
      · exact Or.inr ⟨Or.inl ⟨rfl, hl⟩, fun e => hne e.symm⟩
      · exact Or.inl ⟨rfl, hl⟩
      · exact Or.inr ⟨Or.inr ⟨hz, hq⟩, hp⟩
    · rintro (⟨rfl, hl⟩ | ⟨(⟨rfl, hl⟩ | ⟨hz, hp⟩), hq⟩)
      · exact Or.inr ⟨Or.inl ⟨rfl, hl⟩, hne⟩
      · exact Or.inl ⟨rfl, hl⟩
      · exact Or.inr ⟨Or.inr ⟨hz, hq⟩, hp⟩
  · apply strip_eq_of_bindings _ _ ixy.2.1 iyx.2.1 ixy.2.2.2.1 iyx.2.2.2.1
    intro z
    rw [xy6, x6, yx6, y6]
    constructor
    · rintro (⟨rfl, hl⟩ | ⟨(⟨rfl, hl⟩ | ⟨hz, hp⟩), hq⟩)
      · exact Or.inr ⟨Or.inl ⟨rfl, hl⟩, fun e => hne e.symm⟩
      · exact Or.inl ⟨rfl, hl⟩
      · exact Or.inr ⟨Or.inr ⟨hz, hq⟩, hp⟩
    · rintro (⟨rfl, hl⟩ | ⟨(⟨rfl, hl⟩ | ⟨hz, hp⟩), hq⟩)
      · exact Or.inr ⟨Or.inl ⟨rfl, hl⟩, hne⟩
      · exact Or.inl ⟨rfl, hl⟩
      · exact Or.inr ⟨Or.inr ⟨hz, hq⟩, hp⟩


/-! ## Longest-prefix match -/

theorem reachable_tableA : Reachable true tableA :=
  @Reachable.insert true _ _ [10, 0, 0, 0] 8 1 Reachable.empty (by decide) rfl

theorem reachable_tableAB : Reachable true tableAB :=
  @Reachable.insert true _ _ [10, 1, 0, 0] 16 2 reachable_tableA (by decide) rfl

/-- C1: on every table obtained from the empty table by valid inserts, the lookup of a
family returns for every address of the family, and its answer is the longest-prefix
match among the bindings of the trie of the family: the peer bound to the matching
prefix of largest cidr, and no peer when no stored prefix matches. -/
theorem lookup_longest_prefix_match (le : Bool) (T : AllowedIPs) (h : Reachable le T)
    (q : List Nat) :
    (IsAddr 4 q → ∃ r, LookupIPv4 le T q = some r ∧ IsLPM (bindings T.IPv4) q r) ∧
    (IsAddr 16 q → ∃ r, LookupIPv6 le T q = some r ∧ IsLPM (bindings T.IPv6) q r) :=
  ⟨fun hq => lookup_spec le (Or.inl rfl) hq T.IPv4 h.inv.1,
   fun hq => lookup_spec le (Or.inr rfl) hq T.IPv6 h.inv.2.1⟩

/-- The example of C1: `/8` bound to peer 1 and `/16` to peer 2; `10.1.2.3` resolves to
peer 2, `10.2.0.1` to peer 1 and `11.0.0.1` to no peer. -/
theorem lookup_longest_prefix_match_witness :
    (Reachable true tableAB ∧ IsAddr 4 [10, 1, 2, 3]) ∧
    (∃ r, LookupIPv4 true tableAB [10, 1, 2, 3] = some r ∧
      IsLPM (bindings tableAB.IPv4) [10, 1, 2, 3] r) ∧
    LookupIPv4 true tableAB [10, 1, 2, 3] = some (some 2) ∧
    LookupIPv4 true tableAB [10, 2, 0, 1] = some (some 1) ∧
    LookupIPv4 true tableAB [11, 0, 0, 1] = some none :=
  ⟨⟨reachable_tableAB, by decide⟩,
   (lookup_longest_prefix_match true tableAB reachable_tableAB [10, 1, 2, 3]).1 (by decide),
   by decide, by decide, by decide⟩


/-! ## The postcondition of `Insert` -/

/-- C2: on every table obtained from the empty table by valid inserts, a valid insert
with a non-nil peer returns, and the bindings of the assigned nodes afterwards are the
previous bindings with the prefix `(ip masked to cidr bits, cidr)` bound to the peer:
that prefix is bound to the peer, every other prefix is bound exactly as before, and
no other prefix becomes bound.  The masked address has the top `cidr` bits of `ip` and
zeros beyond. -/
theorem insert_postcondition_frame (le : Bool) (T : AllowedIPs) (h : Reachable le T)
    (ip : List Nat) (cidr : Nat) (hv : ValidInsert ip cidr) (p : Peer) :
    ∃ T', Insert le T ip cidr (some p) = some T' ∧
      (IsAddr ip.length (maskSelf ip cidr) ∧ Masked (maskSelf ip cidr) cidr ∧
        Matches (maskSelf ip cidr) cidr ip) ∧
      ∀ a c q, (a, c, q) ∈ bindings T'.IPv4 ++ bindings T'.IPv6 ↔
        ((a, c) = (maskSelf ip cidr, cidr) ∧ q = p) ∨
        ((a, c) ≠ (maskSelf ip cidr, cidr) ∧ (a, c, q) ∈ bindings T.IPv4 ++ bindings T.IPv6) := by
  obtain ⟨T', hins, _, h4, h6⟩ := h.inv.insert_bindings le hv p
  have hmask : IsAddr ip.length (maskSelf ip cidr) ∧ Masked (maskSelf ip cidr) cidr ∧
      Matches (maskSelf ip cidr) cidr ip := by
    rcases hv.cases with ⟨hip, hc⟩ | ⟨hip, hc⟩
    · rw [hip.1]
      exact ⟨maskSelf_isAddr (Or.inl rfl) hc hip, maskSelf_masked (Or.inl rfl) hc hip,
        maskSelf_matches (Or.inl rfl) hc hip⟩
    · rw [hip.1]
      exact ⟨maskSelf_isAddr (Or.inr rfl) hc hip, maskSelf_masked (Or.inr rfl) hc hip,
        maskSelf_matches (Or.inr rfl) hc hip⟩
  refine ⟨T', hins, hmask, ?_⟩
  intro a c q
  have hlen : ip.length = 4 ∨ ip.length = 16 := by
    rcases hv.1 with h | h
    · exact Or.inl h.1
    · exact Or.inr h.1
  rw [List.mem_append, h4, h6, List.mem_append]
  simp only [Prod.mk.injEq, ne_eq]
  constructor
  · rintro ((⟨⟨rfl, rfl, rfl⟩, _⟩ | ⟨hx, hp⟩) | (⟨⟨rfl, rfl, rfl⟩, _⟩ | ⟨hx, hp⟩))
    · exact Or.inl ⟨⟨rfl, rfl⟩, rfl⟩
    · exact Or.inr ⟨hp, Or.inl hx⟩
    · exact Or.inl ⟨⟨rfl, rfl⟩, rfl⟩
    · exact Or.inr ⟨hp, Or.inr hx⟩
  · rintro (⟨⟨rfl, rfl⟩, rfl⟩ | ⟨hp, hx | hx⟩)
    · rcases hlen with hl | hl
      · exact Or.inl (Or.inl ⟨⟨rfl, rfl, rfl⟩, hl⟩)
      · exact Or.inr (Or.inl ⟨⟨rfl, rfl, rfl⟩, hl⟩)
    · exact Or.inl (Or.inr ⟨hx, hp⟩)
    · exact Or.inr (Or.inr ⟨hx, hp⟩)

/-- The example of C2: `10.1.2.3/16` is bound to peer 3 in the table that binds
`10.0.0.0/8` to peer 1 and `10.1.0.0/16` to peer 2. -/
theorem insert_postcondition_frame_witness :
    (Reachable true tableAB ∧ ValidInsert [10, 1, 2, 3] 16) ∧
    ∃ T', Insert true tableAB [10, 1, 2, 3] 16 (some 3) = some T' ∧
      (IsAddr [10, 1, 2, 3].length (maskSelf [10, 1, 2, 3] 16) ∧
        Masked (maskSelf [10, 1, 2, 3] 16) 16 ∧
        Matches (maskSelf [10, 1, 2, 3] 16) 16 [10, 1, 2, 3]) ∧
      ∀ a c q, (a, c, q) ∈ bindings T'.IPv4 ++ bindings T'.IPv6 ↔
        ((a, c) = (maskSelf [10, 1, 2, 3] 16, 16) ∧ q = 3) ∨
        ((a, c) ≠ (maskSelf [10, 1, 2, 3] 16, 16) ∧
          (a, c, q) ∈ bindings tableAB.IPv4 ++ bindings tableAB.IPv6) :=
  ⟨⟨reachable_tableAB, by decide⟩,
   insert_postcondition_frame true tableAB reachable_tableAB [10, 1, 2, 3] 16 (by decide) 3⟩

/-! ## `RemoveByPeer` -/

theorem removeByPeer_spec (P : Peer) (t : trieEntry) : ∀ L : PeerLists,
    ∃ t' L', removeByPeer t (some P) L = some (t', L') ∧
      ∀ y ∈ entries t', y ∈ entries t ∧ y.1 ≠ some P := by
  induction t with
  | null => exact fun L => ⟨.null, L, rfl, by simp [entries]⟩
  | node p c0 c1 c b s bs e ih0 ih1 =>
    intro L
    obtain ⟨c0', L1, h0, k0⟩ := ih0 L
    obtain ⟨c1', L2, h1, k1⟩ := ih1 L1
    unfold removeByPeer
    simp only [h0, h1]
    by_cases hp : p = some P
    · subst hp
      simp only [ne_eq, not_true_eq_false, if_false]
      have hrm : ∃ n L3, removeFromPeerEntries (.node (some P) c0' c1' c b s bs e) L2 =
          some (n, L3) := by
        cases e with
        | none => exact ⟨_, _, rfl⟩
        | some e => exact ⟨_, _, rfl⟩
      obtain ⟨n, L3, hrm⟩ := hrm
      simp only [hrm]
      by_cases hn : c0' = .null
      · simp only [hn, if_true]
        refine ⟨c1', L3, rfl, fun y hy => ?_⟩
        have := k1 y hy
        exact ⟨by simp only [entries, List.mem_cons, List.mem_append]; exact Or.inr (Or.inr this.1),
          this.2⟩
      · simp only [hn, if_false]
        refine ⟨c0', L3, rfl, fun y hy => ?_⟩
        have := k0 y hy
        exact ⟨by simp only [entries, List.mem_cons, List.mem_append]; exact Or.inr (Or.inl this.1),
          this.2⟩
    · simp only [ne_eq, hp, not_false_eq_true, if_true]
      refine ⟨_, L2, rfl, fun y hy => ?_⟩
      simp only [entries, List.mem_cons, List.mem_append] at hy ⊢
      rcases hy with rfl | hy | hy
      · exact ⟨Or.inl rfl, hp⟩
      · exact ⟨Or.inr (Or.inl (k0 y hy).1), (k0 y hy).2⟩
      · exact ⟨Or.inr (Or.inr (k1 y hy).1), (k1 y hy).2⟩

/-- The answer of the loop of `lookup` is the initial one or the peer of a node. -/
theorem lookupLoop_peer (le : Bool) (q : List Nat) (size : Nat) (t : trieEntry) :
    ∀ (found r : Option Peer), lookupLoop le q size t found = some r →
      r = found ∨ ∃ y ∈ entries t, y.1 = r := by
  induction t with
  | null =>
    intro found r h
    simp only [lookupLoop, Option.some.injEq] at h
    exact Or.inl h.symm
  | node p c0 c1 c b s bs e ih0 ih1 =>
    intro found r h
    unfold lookupLoop at h
    cases hcb : commonBits le bs q with
    | none => simp [hcb] at h
    | some n =>
      simp only [hcb] at h
      have hfound : (if p ≠ none then p else found) = found ∨
          (if p ≠ none then p else found) = p := by
        by_cases hp : p = none
        · left; simp [hp]
        · right; simp [hp]
      have lift : ∀ r', (r' = (if p ≠ none then p else found) ∨
          (∃ y ∈ entries c0, y.1 = r') ∨ (∃ y ∈ entries c1, y.1 = r')) →
          r' = found ∨ ∃ y ∈ entries (.node p c0 c1 c b s bs e), y.1 = r' := by
        intro r' hr
        rcases hr with hr | ⟨y, hy, hr⟩ | ⟨y, hy, hr⟩
        · rcases hfound with hf | hf
          · left; rw [hr, hf]
          · right
            exact ⟨(p, e, bs, c), by simp [entries], by rw [hr, hf]⟩
        · right
          exact ⟨y, by simp only [entries, List.mem_cons, List.mem_append]; exact Or.inr (Or.inl hy), hr⟩
        · right
          exact ⟨y, by simp only [entries, List.mem_cons, List.mem_append]; exact Or.inr (Or.inr hy), hr⟩
      by_cases hm : n ≥ c
      · simp only [hm, if_true] at h
        by_cases hfull : b = size
        · simp only [hfull, if_true, Option.some.injEq] at h
          exact lift r (Or.inl h.symm)
        · simp only [hfull, if_false] at h
          cases hch : choose (.node p c0 c1 c b s bs e) q with
          | none => simp [hch] at h
          | some bit =>
            simp only [hch] at h
            by_cases hb : bit = 0
            · simp only [hb, if_true] at h
              rcases ih0 _ _ h with h' | h'
              · exact lift r (Or.inl h')
              · exact lift r (Or.inr (Or.inl h'))
            · simp only [hb, if_false] at h
              rcases ih1 _ _ h with h' | h'
              · exact lift r (Or.inl h')
              · exact lift r (Or.inr (Or.inr h'))
      · simp only [hm, if_false, Option.some.injEq] at h
        exact Or.inl h.symm

/-- C4: on any table, `RemoveByPeer` of a non-nil peer `P` returns, no node reachable
from the IPv4 or the IPv6 root carries `P` afterwards, and no lookup answers `P`. -/
theorem removeByPeer_clears_peer (le : Bool) (T : AllowedIPs) (P : Peer) :
    ∃ T', RemoveByPeer T (some P) = some T' ∧
      (∀ y ∈ entries T'.IPv4 ++ entries T'.IPv6, y.1 ≠ some P) ∧
      ∀ q, LookupIPv4 le T' q ≠ some (some P) ∧ LookupIPv6 le T' q ≠ some (some P) := by
  obtain ⟨r4, L1, h4, k4⟩ := removeByPeer_spec P T.IPv4 T.lists
  obtain ⟨r6, L2, h6, k6⟩ := removeByPeer_spec P T.IPv6 L1
  refine ⟨{ IPv4 := r4, IPv6 := r6, lists := L2 }, ?_, ?_, ?_⟩
  · unfold RemoveByPeer
    simp only [h4, h6]
  · intro y hy
    rcases List.mem_append.1 hy with h | h
    · exact (k4 y h).2
    · exact (k6 y h).2
  · intro q
    constructor
    · intro h
      rcases lookupLoop_peer le q _ r4 none _ h with h' | ⟨y, hy, h'⟩
      · simp at h'
      · exact (k4 y hy).2 h'
    · intro h
      rcases lookupLoop_peer le q _ r6 none _ h with h' | ⟨y, hy, h'⟩
      · simp at h'
      · exact (k6 y hy).2 h'

/-! ## Nodes lost and nodes left by `removeByPeer` -/

/-- C3 at the failing input: `0.0.0.0/0` for peer 1, `0.0.0.0/1` for peer 2 and
`128.0.0.0/1` for peer 3; `128.0.0.1` resolves to peer 3, and to no peer after
`RemoveByPeer` of peer 1, although the binding of peer 3 was not owned by peer 1. -/
theorem removeByPeer_drops_other_peer :
    (run true opsTwoChildren).map (fun T => bindings T.IPv4) =
      some [([0, 0, 0, 0], 0, 1), ([0, 0, 0, 0], 1, 2), ([128, 0, 0, 0], 1, 3)] ∧
    (run true opsTwoChildren).bind (fun T => LookupIPv4 true T [128, 0, 0, 1]) = some (some 3) ∧
    (run true (opsTwoChildren ++ [.remove 1])).bind (fun T => LookupIPv4 true T [128, 0, 0, 1]) =
      some none ∧
    (run true (opsTwoChildren ++ [.remove 1])).map (fun T => bindings T.IPv4) =
      some [([0, 0, 0, 0], 1, 2)] := by
  decide

/-- C5 at the failing input: after the three inserts of the example, `RemoveByPeer` of
peer 1 and then of peer 3, `EntriesForPeer` of peer 3 still calls back once. -/
theorem removeByPeer_leaves_reverse_index :
    (run true (opsTwoChildren ++ [.remove 1, .remove 3])).bind
      (fun T => EntriesForPeer T (some 3) (fun _ _ => true)) = some [([128, 0, 0, 0], 1)] := by
  decide

/-- C6 at the failing input: after the three inserts of the example and `RemoveByPeer`
of peer 1, the list of peer 3 holds `128.0.0.0/1` and no node of the tries carries
peer 3. -/
theorem reverse_index_disagrees :
    (run true (opsTwoChildren ++ [.remove 1])).map
      (fun T => (T.lists.trieEntries 3).map (fun x => (x.bits, x.cidr))) =
      some [([128, 0, 0, 0], 1)] ∧
    (run true (opsTwoChildren ++ [.remove 1])).map
      (fun T => (entries T.IPv4 ++ entries T.IPv6).map (fun y => (y.1, y.2.2))) =
      some [(some 2, [0, 0, 0, 0], 1)] := by
  decide

/-- The example of the removal of one of two siblings: `192.168.4.0/24` for peer 1 and
`192.168.8.0/24` for peer 2 hang below a split node of depth 20; after `RemoveByPeer`
of peer 1, `192.168.4.77` resolves to no peer and `192.168.8.77` still to peer 2. -/
theorem removeByPeer_sibling_example :
    (run true opsSiblings).map (fun T => (T.IPv4.cidr, T.IPv4.peer)) = some (20, none) ∧
    (run true opsSiblings).bind (fun T => LookupIPv4 true T [192, 168, 4, 77]) = some (some 1) ∧
    (run true opsSiblings).bind (fun T => LookupIPv4 true T [192, 168, 8, 77]) = some (some 2) ∧
    (run true (opsSiblings ++ [.remove 1])).bind
      (fun T => LookupIPv4 true T [192, 168, 4, 77]) = some none ∧
    (run true (opsSiblings ++ [.remove 1])).bind
      (fun T => LookupIPv4 true T [192, 168, 8, 77]) = some (some 2) := by
  decide

/-- C7 at the failing input: `192.168.4.0/24` and `192.168.8.0/24` inserted for peer 1,
then `RemoveByPeer` of peer 1: the IPv4 root is the split node `192.168.0.0/20`, not
nil. -/
theorem removeByPeer_leaves_split_node :
    (run true (opsSplit ++ [.remove 1])).map (fun T => T.IPv4) =
      some (.node none .null .null 20 2 3 [192, 168, 0, 0] none) := by
  decide


/-! ## Rebinding, idempotence and commutation of `Insert` -/

/-- C8: on a table obtained from the empty table by valid inserts in which the prefix
`(ip, cidr)` is bound to `P`, the insert of `(ip, cidr, P')` returns; afterwards one
node carries the prefix and its peer is `P'`, the prefix is once in the list of `P'`
and, when `P` differs from `P'`, no longer in the list of `P`; the node is rewritten in
place, with its children and its bits. -/
theorem insert_rebinds_prefix (le : Bool) (T : AllowedIPs) (h : Reachable le T) (ip : List Nat)
    (cidr : Nat) (hv : ValidInsert ip cidr) (P P' : Peer)
    (hb : (maskSelf ip cidr, cidr, P) ∈ bindings T.IPv4 ++ bindings T.IPv6) :
    ∃ T', Insert le T ip cidr (some P') = some T' ∧
      occurrences (maskSelf ip cidr, cidr)
        ((entries T'.IPv4 ++ entries T'.IPv6).map (fun y => y.2.2)) = 1 ∧
      (∀ y ∈ entries T'.IPv4 ++ entries T'.IPv6, y.2.2 = (maskSelf ip cidr, cidr) →
        y.1 = some P') ∧
      occurrences (maskSelf ip cidr, cidr)
        ((T'.lists.trieEntries P').map (fun x => (x.bits, x.cidr))) = 1 ∧
      (P ≠ P' →
        (maskSelf ip cidr, cidr) ∉ (T'.lists.trieEntries P).map (fun x => (x.bits, x.cidr))) ∧
      ∃ rel c0 c1 b s e e',
        (T.root ip.length).get rel = .node (some P) c0 c1 cidr b s (maskSelf ip cidr) e ∧
        T'.root ip.length =
          (T.root ip.length).set rel (.node (some P') c0 c1 cidr b s (maskSelf ip cidr) e') :=
  h.inv.insert_rebinds le hv P P' hb

/-- The example of C8: `/8` for peer 1, `/16` for peer 2, the same `/16` for peer 3;
`10.1.2.3` resolves to peer 3, the list of peer 2 is empty and the list of peer 3 is
`10.1.0.0/16`. -/
theorem insert_rebinds_prefix_witness :
    (Reachable true tableAB ∧ ValidInsert [10, 1, 0, 0] 16 ∧
      (maskSelf [10, 1, 0, 0] 16, 16, 2) ∈ bindings tableAB.IPv4 ++ bindings tableAB.IPv6) ∧
    (∃ T', Insert true tableAB [10, 1, 0, 0] 16 (some 3) = some T' ∧
      occurrences (maskSelf [10, 1, 0, 0] 16, 16)
        ((entries T'.IPv4 ++ entries T'.IPv6).map (fun y => y.2.2)) = 1 ∧
      (∀ y ∈ entries T'.IPv4 ++ entries T'.IPv6, y.2.2 = (maskSelf [10, 1, 0, 0] 16, 16) →
        y.1 = some 3) ∧
      occurrences (maskSelf [10, 1, 0, 0] 16, 16)
        ((T'.lists.trieEntries 3).map (fun x => (x.bits, x.cidr))) = 1 ∧
      ((2 : Peer) ≠ 3 → (maskSelf [10, 1, 0, 0] 16, 16) ∉
        (T'.lists.trieEntries 2).map (fun x => (x.bits, x.cidr))) ∧
      ∃ rel c0 c1 b s e e',
        (tableAB.root [10, 1, 0, 0].length).get rel =
          .node (some 2) c0 c1 16 b s (maskSelf [10, 1, 0, 0] 16) e ∧
        T'.root [10, 1, 0, 0].length = (tableAB.root [10, 1, 0, 0].length).set rel
          (.node (some 3) c0 c1 16 b s (maskSelf [10, 1, 0, 0] 16) e')) ∧
    (run true (opsAB ++ [.insert [10, 1, 0, 0] 16 3])).bind
      (fun T => LookupIPv4 true T [10, 1, 2, 3]) = some (some 3) ∧
    (run true (opsAB ++ [.insert [10, 1, 0, 0] 16 3])).bind
      (fun T => EntriesForPeer T (some 2) (fun _ _ => true)) = some [] ∧
    (run true (opsAB ++ [.insert [10, 1, 0, 0] 16 3])).bind
      (fun T => EntriesForPeer T (some 3) (fun _ _ => true)) = some [([10, 1, 0, 0], 16)] :=
  ⟨⟨reachable_tableAB, by decide, by decide⟩,
   insert_rebinds_prefix true tableAB reachable_tableAB [10, 1, 0, 0] 16 (by decide) 2 3
     (by decide),
   by decide, by decide, by decide⟩

/-- C9: on a table obtained from the empty table by valid inserts, two inserts in a
row of one valid `(ip, cidr, P)` both return, and the second leaves the table of the
first: the same tries (nodes, bits, cidr, peers, child links) and, for every peer, the
same list of prefixes in the same order. -/
theorem insert_idempotent (le : Bool) (T : AllowedIPs) (h : Reachable le T) (ip : List Nat)
    (cidr : Nat) (hv : ValidInsert ip cidr) (P : Peer) :
    ∃ T1 T2, Insert le T ip cidr (some P) = some T1 ∧ Insert le T1 ip cidr (some P) = some T2 ∧
      strip T2.IPv4 = strip T1.IPv4 ∧ strip T2.IPv6 = strip T1.IPv6 ∧
      ∀ q, (T2.lists.trieEntries q).map (fun x => (x.bits, x.cidr)) =
        (T1.lists.trieEntries q).map (fun x => (x.bits, x.cidr)) :=
  h.inv.insert_twice le hv P

/-- The example of C9: `10.1.2.3/16` inserted twice for peer 3 in the table of the
example. -/
theorem insert_idempotent_witness :
    (Reachable true tableAB ∧ ValidInsert [10, 1, 2, 3] 16) ∧
    ∃ T1 T2, Insert true tableAB [10, 1, 2, 3] 16 (some 3) = some T1 ∧
      Insert true T1 [10, 1, 2, 3] 16 (some 3) = some T2 ∧
      strip T2.IPv4 = strip T1.IPv4 ∧ strip T2.IPv6 = strip T1.IPv6 ∧
      ∀ q, (T2.lists.trieEntries q).map (fun x => (x.bits, x.cidr)) =
        (T1.lists.trieEntries q).map (fun x => (x.bits, x.cidr)) :=
  ⟨⟨reachable_tableAB, by decide⟩,
   insert_idempotent true tableAB reachable_tableAB [10, 1, 2, 3] 16 (by decide) 3⟩

/-- C10: on a table obtained from the empty table by valid inserts, the inserts of two
valid bindings whose prefixes (address masked to cidr bits, cidr) differ return in both
orders and yield the same tries: the same nodes, with the same bits, cidr, peer and
child links, hence the same answer to every lookup. -/
theorem insert_commutes (le : Bool) (T : AllowedIPs) (h : Reachable le T) (ipx ipy : List Nat)
    (cx cy : Nat) (hx : ValidInsert ipx cx) (hy : ValidInsert ipy cy) (px py : Peer)
    (hne : (maskSelf ipx cx, cx) ≠ (maskSelf ipy cy, cy)) :
    ∃ Txy Tyx,
      (Insert le T ipx cx (some px)).bind (fun T1 => Insert le T1 ipy cy (some py)) = some Txy ∧
      (Insert le T ipy cy (some py)).bind (fun T1 => Insert le T1 ipx cx (some px)) = some Tyx ∧
      strip Txy.IPv4 = strip Tyx.IPv4 ∧ strip Txy.IPv6 = strip Tyx.IPv6 ∧
      ∀ q, LookupIPv4 le Txy q = LookupIPv4 le Tyx q ∧
        LookupIPv6 le Txy q = LookupIPv6 le Tyx q := by
  obtain ⟨Txy, Tyx, h1, h2, h3, h4⟩ := h.inv.insert_commute le hx hy px py hne
  refine ⟨Txy, Tyx, h1, h2, h3, h4, fun q => ⟨?_, ?_⟩⟩
  · unfold LookupIPv4
    rw [← lookup_strip le Txy.IPv4, ← lookup_strip le Tyx.IPv4, h3]
  · unfold LookupIPv6
    rw [← lookup_strip le Txy.IPv6, ← lookup_strip le Tyx.IPv6, h4]

/-- The example of C10: `10.1.0.0/16` for peer 2 and `10.2.0.0/16` for peer 3, in the
table that binds `10.0.0.0/8` to peer 1. -/
theorem insert_commutes_witness :
    (Reachable true tableA ∧ ValidInsert [10, 1, 0, 0] 16 ∧ ValidInsert [10, 2, 0, 0] 16 ∧
      (maskSelf [10, 1, 0, 0] 16, 16) ≠ (maskSelf [10, 2, 0, 0] 16, 16)) ∧
    ∃ Txy Tyx,
      (Insert true tableA [10, 1, 0, 0] 16 (some 2)).bind
        (fun T1 => Insert true T1 [10, 2, 0, 0] 16 (some 3)) = some Txy ∧
      (Insert true tableA [10, 2, 0, 0] 16 (some 3)).bind
        (fun T1 => Insert true T1 [10, 1, 0, 0] 16 (some 2)) = some Tyx ∧
      strip Txy.IPv4 = strip Tyx.IPv4 ∧ strip Txy.IPv6 = strip Tyx.IPv6 ∧
      ∀ q, LookupIPv4 true Txy q = LookupIPv4 true Tyx q ∧
        LookupIPv6 true Txy q = LookupIPv6 true Tyx q :=
  ⟨⟨reachable_tableA, by decide, by decide, by decide⟩,
   insert_commutes true tableA reachable_tableA [10, 1, 0, 0] [10, 2, 0, 0] 16 16 (by decide)
     (by decide) 2 3 (by decide)⟩


/-! ## `commonBits` and its reference definition -/

theorem agreeFrom_spec (ip1 ip2 : List Nat) : ∀ n i,
    agreeFrom ip1 ip2 n i ≤ n ∧
    (∀ j, j < agreeFrom ip1 ip2 n i → bitOf ip1 (i + j) = bitOf ip2 (i + j)) ∧
    (agreeFrom ip1 ip2 n i < n →
      bitOf ip1 (i + agreeFrom ip1 ip2 n i) ≠ bitOf ip2 (i + agreeFrom ip1 ip2 n i)) := by
  intro n
  induction n with
  | zero => intro i; simp [agreeFrom]
  | succ n ih =>
    intro i
    unfold agreeFrom
    by_cases h : bitOf ip1 i = bitOf ip2 i
    · simp only [h, if_true]
      obtain ⟨h1, h2, h3⟩ := ih (i + 1)
      refine ⟨by omega, ?_, ?_⟩
      · intro j hj
        cases j with
        | zero => simpa using h
        | succ j =>
          have := h2 j (by omega)
          rw [show i + (j + 1) = i + 1 + j by omega]
          exact this
      · intro hlt
        have := h3 (by omega)
        rw [show i + (1 + agreeFrom ip1 ip2 n (i + 1)) = i + 1 + agreeFrom ip1 ip2 n (i + 1) by omega]
        exact this
    · simp only [h, if_false]
      refine ⟨by omega, ?_, ?_⟩
      · intro j hj; omega
      · intro _; simpa using h

theorem bitOf_eq_bitAt {w : Nat} {a : List Nat} (ha : IsAddr w a) {i : Nat} (hi : i < 8 * w) :
    bitOf a i = bitAt a i := by
  obtain ⟨byte, h1, h2⟩ := bitAt_eq_byte ha hi
  unfold bitOf
  rw [h2]
  have : a.getD (i / 8) 0 = byte := by
    rw [List.getD_eq_getElem?_getD, ← List.get?_eq_getElem?, h1]
    rfl
  rw [this]

/-- The result of `commonBits` on two addresses of one family is the reference count. -/
theorem commonBits_ref (le : Bool) (w : Nat) (hw : w = 4 ∨ w = 16) (ip1 ip2 : List Nat)
    (h1 : IsAddr w ip1) (h2 : IsAddr w ip2) :
    commonBits le ip1 ip2 = some (commonBitsRef ip1 ip2) := by
  obtain ⟨n, hn, hle, hiff⟩ := commonBits_spec le w hw ip1 ip2 h1 h2
  rw [hn]
  congr 1
  obtain ⟨k1, k2, k3⟩ := agreeFrom_spec ip1 ip2 (8 * ip1.length) 0
  rw [h1.1] at k1 k2 k3
  unfold commonBitsRef
  rw [h1.1]
  have bits : ∀ c, c ≤ 8 * w → (c ≤ n ↔ ∀ i, i < c → bitOf ip1 i = bitOf ip2 i) := by
    intro c hc
    have hm : topBits ip1 c = topBits ip2 c ↔ Matches ip1 c ip2 := Iff.rfl
    rw [hiff c hc, hm, matches_iff_bits h1 h2 c hc]
    constructor
    · intro h i hi
      rw [bitOf_eq_bitAt h1 (by omega), bitOf_eq_bitAt h2 (by omega)]
      exact h i hi
    · intro h i hi
      rw [← bitOf_eq_bitAt h1 (by omega), ← bitOf_eq_bitAt h2 (by omega)]
      exact h i hi
  apply le_antisymm
  · by_contra hlt
    have hk : agreeFrom ip1 ip2 (8 * w) 0 < 8 * w := by omega
    have hd := k3 hk
    have := (bits (agreeFrom ip1 ip2 (8 * w) 0 + 1) (by omega)).1 (by omega)
      (agreeFrom ip1 ip2 (8 * w) 0) (by omega)
    simp only [Nat.zero_add] at hd
    exact hd this
  · apply (bits _ k1).2
    intro i hi
    have := k2 i hi
    simpa using this

/-- C11: for two byte strings that are both 4 or both 16 bytes long, `commonBits`
returns the reference count `commonBitsRef`, which is the largest `n` in `[0, 8 * len]`
such that the first `n` bits of the two strings, most significant bit of byte 0 first,
are equal; it is `8 * len` when the strings are equal, and it is below 256, so the
conversions to `uint8` of the code lose nothing. -/
theorem commonBits_eq_reference (le : Bool) (w : Nat) (hw : w = 4 ∨ w = 16) (ip1 ip2 : List Nat)
    (h1 : IsAddr w ip1) (h2 : IsAddr w ip2) :
    commonBits le ip1 ip2 = some (commonBitsRef ip1 ip2) ∧
    commonBitsRef ip1 ip2 ≤ 8 * w ∧ commonBitsRef ip1 ip2 < 256 ∧
    (∀ i, i < commonBitsRef ip1 ip2 → bitOf ip1 i = bitOf ip2 i) ∧
    (commonBitsRef ip1 ip2 < 8 * w →
      bitOf ip1 (commonBitsRef ip1 ip2) ≠ bitOf ip2 (commonBitsRef ip1 ip2)) ∧
    (∀ n, n ≤ 8 * w → (∀ i, i < n → bitOf ip1 i = bitOf ip2 i) → n ≤ commonBitsRef ip1 ip2) ∧
    (ip1 = ip2 → commonBits le ip1 ip2 = some (8 * w)) := by
  have href := commonBits_ref le w hw ip1 ip2 h1 h2
  obtain ⟨k1, k2, k3⟩ := agreeFrom_spec ip1 ip2 (8 * ip1.length) 0
  rw [h1.1] at k1 k2 k3
  have hk : commonBitsRef ip1 ip2 = agreeFrom ip1 ip2 (8 * w) 0 := by
    unfold commonBitsRef; rw [h1.1]
  have hlarge : ∀ n, n ≤ 8 * w → (∀ i, i < n → bitOf ip1 i = bitOf ip2 i) →
      n ≤ commonBitsRef ip1 ip2 := by
    intro n hn hall
    rw [hk]
    by_contra hlt
    have hd := k3 (by omega)
    simp only [Nat.zero_add] at hd
    exact hd (hall _ (by omega))
  refine ⟨href, by rw [hk]; exact k1, ?_, ?_, ?_, hlarge, ?_⟩
  · rw [hk]
    rcases hw with rfl | rfl <;> omega
  · intro i hi
    rw [hk] at hi
    simpa using k2 i hi
  · intro hlt
    rw [hk] at hlt ⊢
    simpa using k3 hlt
  · intro heq
    rw [href]
    congr 1
    apply le_antisymm
    · rw [hk]; exact k1
    · apply hlarge _ (le_refl _)
      intro i _
      rw [heq]

/-- The example of C11: `10.1.2.3` and `10.1.9.9` agree on their first 20 bits. -/
theorem commonBits_eq_reference_witness :
    (IsAddr 4 [10, 1, 2, 3] ∧ IsAddr 4 [10, 1, 9, 9]) ∧
    (commonBits true [10, 1, 2, 3] [10, 1, 9, 9] = some (commonBitsRef [10, 1, 2, 3] [10, 1, 9, 9]) ∧
      commonBitsRef [10, 1, 2, 3] [10, 1, 9, 9] ≤ 8 * 4 ∧
      commonBitsRef [10, 1, 2, 3] [10, 1, 9, 9] < 256 ∧
      (∀ i, i < commonBitsRef [10, 1, 2, 3] [10, 1, 9, 9] →
        bitOf [10, 1, 2, 3] i = bitOf [10, 1, 9, 9] i) ∧
      (commonBitsRef [10, 1, 2, 3] [10, 1, 9, 9] < 8 * 4 →
        bitOf [10, 1, 2, 3] (commonBitsRef [10, 1, 2, 3] [10, 1, 9, 9]) ≠
          bitOf [10, 1, 9, 9] (commonBitsRef [10, 1, 2, 3] [10, 1, 9, 9])) ∧
      (∀ n, n ≤ 8 * 4 → (∀ i, i < n → bitOf [10, 1, 2, 3] i = bitOf [10, 1, 9, 9] i) →
        n ≤ commonBitsRef [10, 1, 2, 3] [10, 1, 9, 9]) ∧
      (([10, 1, 2, 3] : List Nat) = [10, 1, 9, 9] →
        commonBits true [10, 1, 2, 3] [10, 1, 9, 9] = some (8 * 4))) ∧
    commonBits true [10, 1, 2, 3] [10, 1, 9, 9] = some 20 ∧
    commonBits false [10, 1, 2, 3] [10, 1, 2, 3] = some 32 ∧
    commonBits true [1, 2, 3, 4, 5, 6, 7, 8, 9, 10, 11, 12, 13, 14, 15, 16]
      [1, 2, 3, 4, 5, 6, 7, 8, 9, 10, 11, 12, 13, 14, 15, 16] = some 128 :=
  ⟨⟨by decide, by decide⟩,
   commonBits_eq_reference true 4 (Or.inl rfl) [10, 1, 2, 3] [10, 1, 9, 9] (by decide) (by decide),
   by decide, by decide, by decide⟩

/-! ## The node `removeByPeer` returns -/

/-- The result of `removeByPeer` on a node assigned to the removed peer: the first
child left by the recursive calls when it is not nil, the second one otherwise; the
node itself is never returned. -/
theorem removeByPeer_assigned (P : Peer) (c0 c1 c0' c1' : trieEntry) (c b s : Nat)
    (bs : List Nat) (e : Option Nat) (L L1 L2 : PeerLists)
    (h0 : removeByPeer c0 (some P) L = some (c0', L1))
    (h1 : removeByPeer c1 (some P) L1 = some (c1', L2)) :
    (removeByPeer (.node (some P) c0 c1 c b s bs e) (some P) L).map (fun r => r.1) =
      some (if c0' = .null then c1' else c0') := by
  unfold removeByPeer
  simp only [h0, h1, ne_eq, not_true_eq_false, if_false]
  cases e with
  | none =>
    simp only [removeFromPeerEntries]
    by_cases hn : c0' = .null <;> simp [hn]
  | some id =>
    simp only [removeFromPeerEntries]
    by_cases hn : c0' = .null <;> simp [hn]

/-- C14 at the failing input: after `0.0.0.0/0` for peer 1, `0.0.0.0/1` for peer 2 and
`128.0.0.0/1` for peer 3, the IPv4 root is the node of peer 1 with two children, none of
them assigned to peer 1; `removeByPeer` of peer 1 on this root returns its first child,
the node of peer 2, and not the root with its peer cleared and both children. -/
theorem removeByPeer_returns_first_child :
    (run true opsTwoChildren).map (fun T => T.IPv4) =
      some (.node (some 1)
        (.node (some 2) .null .null 1 0 6 [0, 0, 0, 0] (some 1))
        (.node (some 3) .null .null 1 0 6 [128, 0, 0, 0] (some 2))
        0 0 7 [0, 0, 0, 0] (some 0)) ∧
    (run true opsTwoChildren).bind
      (fun T => (removeByPeer T.IPv4 (some 1) T.lists).map (fun r => r.1)) =
      some (.node (some 2) .null .null 1 0 6 [0, 0, 0, 0] (some 1)) ∧
    (run true opsTwoChildren).bind
      (fun T => (removeByPeer T.IPv4 (some 1) T.lists).map (fun r => r.1)) ≠
      some (.node none
        (.node (some 2) .null .null 1 0 6 [0, 0, 0, 0] (some 1))
        (.node (some 3) .null .null 1 0 6 [128, 0, 0, 0] (some 2))
        0 0 7 [0, 0, 0, 0] none) := by
  decide

/-- C15 at the failing input: `192.168.4.0/24` for peer 1 and `192.168.8.0/24` for
peer 2 hang below the split node `192.168.0.0/20`; after `RemoveByPeer` of peer 1 the
IPv4 root is this split node, without a peer and with its first child nil. -/
theorem split_node_with_one_child :
    (run true (opsSiblings ++ [.remove 1])).map (fun T => T.IPv4) =
      some (.node none .null
        (.node (some 2) .null .null 24 3 7 [192, 168, 8, 0] (some 1))
        20 2 3 [192, 168, 0, 0] none) := by
  decide

/-! ## `removeByPeer` keeps the tries well formed -/

/-- A trie that hangs below a node hangs below the slot that node hangs in. -/
theorem Below.of_under {w : Nat} {a bs : List Nat} {k c bit bit' : Nat} {t : trieEntry}
    (hbs : IsAddr w bs) (hc : c ≤ 8 * w) (hk : k < c) (hm : Matches bs k a)
    (hbit : bitAt bs k = bit) (hb : Below bs c bit' t) (h : WF w t) : Below a k bit t := by
  rcases hb with hn | ⟨h1, h2, _⟩
  · exact Or.inl hn
  · right
    have hne : t ≠ .null := by
      intro e; rw [e] at h1; simp [trieEntry.cidr] at h1
    have hl : t.bits.length = bs.length := by
      rw [(h.nodeOK hne).1.1, hbs.1]
    have h3 : Matches t.bits k bs := Matches.mono hl h2 (by omega)
    refine ⟨by omega, h3.trans hm, ?_⟩
    rw [← hbit]
    exact Matches.bitAt_eq hl h2 hk (by rw [(h.nodeOK hne).1.1]; omega)

theorem removeByPeer_wf (P : Peer) {w : Nat} (t : trieEntry) (hwf : WF w t) :
    ∀ (L : PeerLists) (t' : trieEntry) (L' : PeerLists),
      removeByPeer t (some P) L = some (t', L') →
      WF w t' ∧ ∀ a k bit, Below a k bit t → Below a k bit t' := by
  induction t with
  | null =>
    intro L t' L' h
    simp only [removeByPeer, Option.some.injEq, Prod.mk.injEq] at h
    rw [← h.1]
    exact ⟨trivial, fun _ _ _ hb => hb⟩
  | node p c0 c1 c b s bs e ih0 ih1 =>
    intro L t' L' h
    obtain ⟨hok, hb0, hb1, hw0, hw1⟩ := hwf
    unfold removeByPeer at h
    cases h0 : removeByPeer c0 (some P) L with
    | none => simp [h0] at h
    | some r0 =>
      obtain ⟨c0', L1⟩ := r0
      simp only [h0] at h
      cases h1 : removeByPeer c1 (some P) L1 with
      | none => simp [h1] at h
      | some r1 =>
        obtain ⟨c1', L2⟩ := r1
        simp only [h1] at h
        obtain ⟨w0, k0⟩ := ih0 hw0 L c0' L1 h0
        obtain ⟨w1, k1⟩ := ih1 hw1 L1 c1' L2 h1
        by_cases hp : p = some P
        · simp only [hp, ne_eq, not_true_eq_false, if_false] at h
          cases hr : removeFromPeerEntries (.node (some P) c0' c1' c b s bs e) L2 with
          | none => simp [hr] at h
          | some r =>
            simp only [hr] at h
            have under : ∀ a k bit, Below a k bit (.node p c0 c1 c b s bs e) →
                ∀ bit' x, Below bs c bit' x → WF w x → Below a k bit x := by
              intro a k bit hb bit' x hx hwx
              rcases hb with hn | ⟨q1, q2, q3⟩
              · exact absurd hn (by simp)
              · simp only [trieEntry.cidr_node, trieEntry.bits_node] at q1 q2 q3
                exact Below.of_under hok.1 hok.2.1 q1 q2 q3 hx hwx
            by_cases hn : c0' = .null
            · simp only [hn, if_true, Option.some.injEq, Prod.mk.injEq] at h
              rw [← h.1]
              exact ⟨w1, fun a k bit hb => under a k bit hb 1 c1' (k1 _ _ _ hb1) w1⟩
            · simp only [hn, if_false, Option.some.injEq, Prod.mk.injEq] at h
              rw [← h.1]
              exact ⟨w0, fun a k bit hb => under a k bit hb 0 c0' (k0 _ _ _ hb0) w0⟩
        · simp only [ne_eq, hp, not_false_eq_true, if_true, Option.some.injEq,
            Prod.mk.injEq] at h
          rw [← h.1]
          refine ⟨⟨hok, k0 _ _ _ hb0, k1 _ _ _ hb1, w0, w1⟩, ?_⟩
          intro a k bit hb
          rcases hb with hn | hb
          · exact absurd hn (by simp)
          · right
            simpa only [trieEntry.cidr_node, trieEntry.bits_node] using hb

/-- The lists after `removeByPeer`: the allocation counter is the same, every list is
a sublist of what it was, and only the list of the removed peer changes. -/
theorem removeByPeer_lists (P : Peer) (t : trieEntry) :
    ∀ (L : PeerLists) (t' : trieEntry) (L' : PeerLists),
      removeByPeer t (some P) L = some (t', L') →
      L'.next = L.next ∧ (∀ q, List.Sublist (L'.trieEntries q) (L.trieEntries q)) ∧
      ∀ q, q ≠ P → L'.trieEntries q = L.trieEntries q := by
  induction t with
  | null =>
    intro L t' L' h
    simp only [removeByPeer, Option.some.injEq, Prod.mk.injEq] at h
    rw [← h.2]
    exact ⟨rfl, fun _ => List.Sublist.refl _, fun _ _ => rfl⟩
  | node p c0 c1 c b s bs e ih0 ih1 =>
    intro L t' L' h
    unfold removeByPeer at h
    cases h0 : removeByPeer c0 (some P) L with
    | none => simp [h0] at h
    | some r0 =>
      obtain ⟨c0', L1⟩ := r0
      simp only [h0] at h
      cases h1 : removeByPeer c1 (some P) L1 with
      | none => simp [h1] at h
      | some r1 =>
        obtain ⟨c1', L2⟩ := r1
        simp only [h1] at h
        obtain ⟨n0, s0, e0⟩ := ih0 L c0' L1 h0
        obtain ⟨n1, s1, e1⟩ := ih1 L1 c1' L2 h1
        have base : L2.next = L.next ∧ (∀ q, List.Sublist (L2.trieEntries q) (L.trieEntries q)) ∧
            ∀ q, q ≠ P → L2.trieEntries q = L.trieEntries q :=
          ⟨n1.trans n0, fun q => (s1 q).trans (s0 q), fun q hq => (e1 q hq).trans (e0 q hq)⟩
        by_cases hp : p = some P
        · simp only [hp, ne_eq, not_true_eq_false, if_false] at h
          have step : ∀ L3, L3 = L2 ∨ (∃ id, L3 = Remove L2 P id) →
              L3.next = L.next ∧ (∀ q, List.Sublist (L3.trieEntries q) (L.trieEntries q)) ∧
              ∀ q, q ≠ P → L3.trieEntries q = L.trieEntries q := by
            intro L3 h3
            rcases h3 with rfl | ⟨id, rfl⟩
            · exact base
            · refine ⟨base.1, fun q => (Remove_sublist L2 P q id).trans (base.2.1 q), ?_⟩
              intro q hq
              rw [Remove_entries, if_neg hq]
              exact base.2.2 q hq
          cases e with
          | none =>
            simp only [removeFromPeerEntries] at h
            by_cases hn : c0' = .null
            · simp only [hn, if_true, Option.some.injEq, Prod.mk.injEq] at h
              exact step L' (Or.inl h.2.symm)
            · simp only [hn, if_false, Option.some.injEq, Prod.mk.injEq] at h
              exact step L' (Or.inl h.2.symm)
          | some id =>
            simp only [removeFromPeerEntries] at h
            by_cases hn : c0' = .null
            · simp only [hn, if_true, Option.some.injEq, Prod.mk.injEq] at h
              exact step L' (Or.inr ⟨id, h.2.symm⟩)
            · simp only [hn, if_false, Option.some.injEq, Prod.mk.injEq] at h
              exact step L' (Or.inr ⟨id, h.2.symm⟩)
        · simp only [ne_eq, hp, not_false_eq_true, if_true, Option.some.injEq,
            Prod.mk.injEq] at h
          rw [← h.2]
          exact base

/-! ## The invariant of inserts and removals -/

theorem OpsInv.empty_ops : OpsInv AllowedIPs.empty := by
  refine ⟨trivial, trivial, ?_⟩
  intro y hy
  simp [AllowedIPs.empty, entries] at hy

/-- The links of the nodes after an insert into one trie, `E2` being the nodes of the
other trie. -/
theorem insert_links {t t' : trieEntry} {E2 : List (Option Peer × Option Nat × List Nat × Nat)}
    {L L1 : PeerLists} {p : Peer} {m : List Nat} {cidr : Nat}
    (hl : ∀ y, y ∈ entries t ∨ y ∈ E2 →
      (y.1 = none → y.2.1 = none) ∧ ∀ e, y.2.1 = some e → e < L.next)
    (m2 : ∀ y ∈ entries t', y = (some p, some L.next, m, cidr) ∨
      (y ∈ entries t ∧ y.2.2 ≠ (m, cidr)) ∨ (y.1 = none ∧ y.2.1 = none))
    (hnext : L1.next = L.next) :
    ∀ y, y ∈ entries t' ∨ y ∈ E2 →
      (y.1 = none → y.2.1 = none) ∧
      ∀ e, y.2.1 = some e → e < (PushBack L1 p m cidr).2.next := by
  have hn : (PushBack L1 p m cidr).2.next = L.next + 1 := by
    show L1.next + 1 = L.next + 1
    rw [hnext]
  intro y hy
  rw [hn]
  have old : ∀ y, y ∈ entries t ∨ y ∈ E2 →
      (y.1 = none → y.2.1 = none) ∧ ∀ e, y.2.1 = some e → e < L.next + 1 := by
    intro y hy
    exact ⟨(hl y hy).1, fun e he => Nat.lt_succ_of_lt ((hl y hy).2 e he)⟩
  rcases hy with hy | hy
  · rcases m2 y hy with rfl | ⟨h1, _⟩ | ⟨h1, h2⟩
    · refine ⟨fun h => by simp at h, fun e he => ?_⟩
      simp only [Option.some.injEq] at he
      omega
    · exact old y (Or.inl h1)
    · exact ⟨fun _ => h2, fun e he => by rw [h2] at he; simp at he⟩
  · exact old y (Or.inr hy)

theorem OpsInv.insert_ops (le : Bool) {T : AllowedIPs} (h : OpsInv T) {ip : List Nat}
    {cidr : Nat} (hv : ValidInsert ip cidr) (p : Peer) :
    ∃ T', Insert le T ip cidr (some p) = some T' ∧ OpsInv T' := by
  obtain ⟨w4, w6, hl⟩ := h
  rcases hv.cases with ⟨hip, hc⟩ | ⟨hip, hc⟩
  · obtain ⟨t', L1, hins, wf', _, _, m2, _, m4⟩ :=
      insert_mem le (Or.inl rfl) T.IPv4 T.lists hip hc p w4
        (fun y hy => (hl y (List.mem_append_left _ hy)).1)
        (fun y hy => (hl y (List.mem_append_left _ hy)).2)
    have hnext : L1.next = T.lists.next := by
      rcases m4 with ⟨rfl, _⟩ | ⟨q, e, rfl, _⟩ <;> rfl
    refine ⟨{ IPv4 := t', IPv6 := T.IPv6, lists := (PushBack L1 p (maskSelf ip cidr) cidr).2 },
      ?_, ⟨wf', w6, ?_⟩⟩
    · unfold Insert
      simp [hip.1, IPv4len, IPv6len, hins]
    · intro y hy
      exact insert_links (fun y hy => hl y (List.mem_append.2 hy)) m2 hnext y
        (List.mem_append.1 hy)
  · obtain ⟨t', L1, hins, wf', _, _, m2, _, m4⟩ :=
      insert_mem le (Or.inr rfl) T.IPv6 T.lists hip hc p w6
        (fun y hy => (hl y (List.mem_append_right _ hy)).1)
        (fun y hy => (hl y (List.mem_append_right _ hy)).2)
    have hnext : L1.next = T.lists.next := by
      rcases m4 with ⟨rfl, _⟩ | ⟨q, e, rfl, _⟩ <;> rfl
    refine ⟨{ IPv4 := T.IPv4, IPv6 := t', lists := (PushBack L1 p (maskSelf ip cidr) cidr).2 },
      ?_, ⟨w4, wf', ?_⟩⟩
    · unfold Insert
      simp [hip.1, IPv6len, hins]
    · intro y hy
      exact insert_links (fun y hy => hl y (List.mem_append.2 hy.symm)) m2 hnext y
        (List.mem_append.1 hy).symm

theorem OpsInv.remove_ops {T : AllowedIPs} (h : OpsInv T) (P : Peer) :
    ∃ T', RemoveByPeer T (some P) = some T' ∧ OpsInv T' := by
  obtain ⟨w4, w6, hl⟩ := h
  obtain ⟨r4, L1, h4, k4⟩ := removeByPeer_spec P T.IPv4 T.lists
  obtain ⟨r6, L2, h6, k6⟩ := removeByPeer_spec P T.IPv6 L1
  have n1 := (removeByPeer_lists P T.IPv4 T.lists r4 L1 h4).1
  have n2 := (removeByPeer_lists P T.IPv6 L1 r6 L2 h6).1
  refine ⟨{ IPv4 := r4, IPv6 := r6, lists := L2 }, ?_,
    (removeByPeer_wf P T.IPv4 w4 T.lists r4 L1 h4).1,
    (removeByPeer_wf P T.IPv6 w6 L1 r6 L2 h6).1, ?_⟩
  · unfold RemoveByPeer
    simp only [h4, h6]
  · intro y hy
    have hy' : y ∈ entries T.IPv4 ++ entries T.IPv6 := by
      rcases List.mem_append.1 hy with h | h
      · exact List.mem_append_left _ (k4 y h).1
      · exact List.mem_append_right _ (k6 y h).1
    refine ⟨(hl y hy').1, fun e he => ?_⟩
    show e < L2.next
    rw [n2, n1]
    exact (hl y hy').2 e he

theorem OpsInv.apply_ops (le : Bool) {T : AllowedIPs} (h : OpsInv T) (op : Op) (hv : op.Valid) :
    ∃ T', applyOp le T op = some T' ∧ OpsInv T' := by
  cases op with
  | insert ip cidr peer => exact h.insert_ops le hv peer
  | remove peer => exact h.remove_ops peer

theorem OpsInv.runFrom_ops (le : Bool) : ∀ (ops : List Op) (T : AllowedIPs), OpsInv T →
    (∀ op ∈ ops, op.Valid) → ∃ T', runFrom le T ops = some T' ∧ OpsInv T'
  | [], T, h, _ => ⟨T, rfl, h⟩
  | op :: rest, T, h, hv => by
    obtain ⟨T1, h1, i1⟩ := h.apply_ops le op (hv op (List.mem_cons_self _ _))
    obtain ⟨T2, h2, i2⟩ := OpsInv.runFrom_ops le rest T1 i1
      (fun o ho => hv o (List.mem_cons_of_mem _ ho))
    refine ⟨T2, ?_, i2⟩
    simp only [runFrom, h1, h2]

/-- Every sequence of valid operations on the empty table returns, and its table
satisfies the invariant. -/
theorem run_opsInv (le : Bool) (ops : List Op) (hv : ∀ op ∈ ops, op.Valid) :
    ∃ T, run le ops = some T ∧ OpsInv T :=
  OpsInv.runFrom_ops le ops AllowedIPs.empty OpsInv.empty_ops hv

/-- The bits of a masked address beyond its prefix are zero. -/
theorem Masked.bitAt_zero {a : List Nat} {c i : Nat} (h : Masked a c) (hc : c ≤ i)
    (hi : i < 8 * a.length) : bitAt a i = 0 := by
  unfold Masked at h
  unfold bitAt
  obtain ⟨k, hk⟩ := Nat.dvd_of_mod_eq_zero h
  have e : 8 * a.length - c = (8 * a.length - 1 - i) + (i - c + 1) := by omega
  rw [hk, e, Nat.pow_add, Nat.mul_assoc, Nat.mul_div_cancel_left _ (Nat.pos_pow_of_pos _ (by decide)),
    Nat.pow_succ, Nat.mul_assoc]
  rw [Nat.mul_comm, Nat.mul_assoc]
  exact Nat.mul_mod_right 2 _

/-! ## Ordering, masking and bit selection in every table -/

theorem WF.ordering {w : Nat} {root : trieEntry} (h : WF w root)
    (path : List Nat) (n : trieEntry) (hn : root.get path = n) (i : Nat) (hi : i < 2)
    (hc : n.child i ≠ .null) :
    n.cidr < (n.child i).cidr ∧ Matches (n.child i).bits n.cidr n.bits ∧
    (∀ j, j < n.cidr → bitOf (n.child i).bits j = bitOf n.bits j) ∧
    bitAt (n.child i).bits n.cidr = i ∧ bitOf (n.child i).bits n.cidr = i := by
  have wn : WF w n := hn ▸ WF.at_get path root h
  have nn : n ≠ .null := by
    intro e; rw [e] at hc; exact hc rfl
  have okn := wn.nodeOK nn
  have okc := (wn.child i).nodeOK hc
  rcases wn.below i hi with hb | ⟨h1, h2, h3⟩
  · exact absurd hb hc
  · have hle : n.cidr ≤ 8 * w := okn.2.1
    have hcl : (n.child i).cidr ≤ 8 * w := okc.2.1
    refine ⟨h1, h2, ?_, h3, ?_⟩
    · intro j hj
      rw [bitOf_eq_bitAt okc.1 (by omega), bitOf_eq_bitAt okn.1 (by omega)]
      exact (matches_iff_bits okc.1 okn.1 n.cidr hle).1 h2 j hj
    · rw [bitOf_eq_bitAt okc.1 (by omega)]
      exact h3

theorem WF.masked_node {w : Nat} {root : trieEntry} (h : WF w root)
    (path : List Nat) (n : trieEntry) (hn : root.get path = n) (nn : n ≠ .null) :
    n.bits.length = w ∧ n.cidr ≤ 8 * w ∧ Masked n.bits n.cidr ∧
    (∀ i, n.cidr ≤ i → i < 8 * w → bitAt n.bits i = 0 ∧ bitOf n.bits i = 0) ∧
    n.bitAtByte = n.cidr / 8 ∧ n.bitAtShift = 7 - n.cidr % 8 := by
  have wn : WF w n := hn ▸ WF.at_get path root h
  obtain ⟨ha, hc, hb, hs, hm⟩ := wn.nodeOK nn
  refine ⟨ha.1, hc, hm, ?_, hb, hs⟩
  intro i h1 h2
  have z : bitAt n.bits i = 0 := hm.bitAt_zero h1 (by rw [ha.1]; exact h2)
  exact ⟨z, by rw [bitOf_eq_bitAt ha h2]; exact z⟩

theorem OpsInv.roots {T : AllowedIPs} (h : OpsInv T) {w : Nat} {root : trieEntry}
    (hr : (w = 4 ∧ root = T.IPv4) ∨ (w = 16 ∧ root = T.IPv6)) :
    (w = 4 ∨ w = 16) ∧ WF w root := by
  rcases hr with ⟨rfl, rfl⟩ | ⟨rfl, rfl⟩
  · exact ⟨Or.inl rfl, h.1⟩
  · exact ⟨Or.inr rfl, h.2.1⟩

/-- C16: every sequence of valid operations (inserts and removals of a peer) on the
empty table returns, and in its table every node `n` of either trie and every child of
`n` that is not nil, in slot `i`, satisfy: the child's cidr is greater than the cidr of
`n`, the top `n.cidr` bits of the child's bits are those of the bits of `n`, and bit
number `n.cidr` of the child's bits is `i`. -/
theorem trie_ordering_invariant (le : Bool) (ops : List Op) (hv : ∀ op ∈ ops, op.Valid) :
    ∃ T, run le ops = some T ∧
      ∀ w root, (w = 4 ∧ root = T.IPv4) ∨ (w = 16 ∧ root = T.IPv6) →
        ∀ (path : List Nat) (n : trieEntry), root.get path = n →
          ∀ i, i < 2 → n.child i ≠ .null →
            n.cidr < (n.child i).cidr ∧ Matches (n.child i).bits n.cidr n.bits ∧
            (∀ j, j < n.cidr → bitOf (n.child i).bits j = bitOf n.bits j) ∧
            bitAt (n.child i).bits n.cidr = i ∧ bitOf (n.child i).bits n.cidr = i := by
  obtain ⟨T, hrun, hinv⟩ := run_opsInv le ops hv
  refine ⟨T, hrun, ?_⟩
  intro w root hr path n hn i hi hc
  exact (hinv.roots hr).2.ordering path n hn i hi hc

/-- The example of C16: three inserts, a fourth one and the removal of peer 1. -/
theorem trie_ordering_invariant_witness :
    (∀ op ∈ opsMixed, op.Valid) ∧
    ∃ T, run true opsMixed = some T ∧
      ∀ w root, (w = 4 ∧ root = T.IPv4) ∨ (w = 16 ∧ root = T.IPv6) →
        ∀ (path : List Nat) (n : trieEntry), root.get path = n →
          ∀ i, i < 2 → n.child i ≠ .null →
            n.cidr < (n.child i).cidr ∧ Matches (n.child i).bits n.cidr n.bits ∧
            (∀ j, j < n.cidr → bitOf (n.child i).bits j = bitOf n.bits j) ∧
            bitAt (n.child i).bits n.cidr = i ∧ bitOf (n.child i).bits n.cidr = i :=
  ⟨by decide, trie_ordering_invariant true opsMixed (by decide)⟩

/-- C17: every sequence of valid operations on the empty table returns, and in its
table every node of either trie, with or without a peer, has bits of the width of its
family, a cidr of at most that many bits, all bits beyond the first cidr bits equal to
zero, `bitAtByte = cidr / 8` and `bitAtShift = 7 - cidr % 8`. -/
theorem masked_bits_invariant (le : Bool) (ops : List Op) (hv : ∀ op ∈ ops, op.Valid) :
    ∃ T, run le ops = some T ∧
      ∀ w root, (w = 4 ∧ root = T.IPv4) ∨ (w = 16 ∧ root = T.IPv6) →
        ∀ (path : List Nat) (n : trieEntry), root.get path = n → n ≠ .null →
          n.bits.length = w ∧ n.cidr ≤ 8 * w ∧ Masked n.bits n.cidr ∧
          (∀ i, n.cidr ≤ i → i < 8 * w → bitAt n.bits i = 0 ∧ bitOf n.bits i = 0) ∧
          n.bitAtByte = n.cidr / 8 ∧ n.bitAtShift = 7 - n.cidr % 8 := by
  obtain ⟨T, hrun, hinv⟩ := run_opsInv le ops hv
  refine ⟨T, hrun, ?_⟩
  intro w root hr path n hn nn
  exact (hinv.roots hr).2.masked_node path n hn nn

/-- The example of C17: the inserts `192.168.4.9/24` and `192.168.8.9/24`, which create
a split node, and the removal of peer 1. -/
theorem masked_bits_invariant_witness :
    (∀ op ∈ [Op.insert [192, 168, 4, 9] 24 1, Op.insert [192, 168, 8, 9] 24 2, Op.remove 1],
      op.Valid) ∧
    ∃ T, run true [Op.insert [192, 168, 4, 9] 24 1, Op.insert [192, 168, 8, 9] 24 2,
        Op.remove 1] = some T ∧
      ∀ w root, (w = 4 ∧ root = T.IPv4) ∨ (w = 16 ∧ root = T.IPv6) →
        ∀ (path : List Nat) (n : trieEntry), root.get path = n → n ≠ .null →
          n.bits.length = w ∧ n.cidr ≤ 8 * w ∧ Masked n.bits n.cidr ∧
          (∀ i, n.cidr ≤ i → i < 8 * w → bitAt n.bits i = 0 ∧ bitOf n.bits i = 0) ∧
          n.bitAtByte = n.cidr / 8 ∧ n.bitAtShift = 7 - n.cidr % 8 :=
  ⟨by decide,
   masked_bits_invariant true
     [Op.insert [192, 168, 4, 9] 24 1, Op.insert [192, 168, 8, 9] 24 2, Op.remove 1]
     (by decide)⟩

/-! ## Bit selection stays in range -/

theorem choose_none_iff (node : trieEntry) (ip : List Nat) :
    choose node ip = none ↔ ip.length ≤ node.bitAtByte := by
  unfold choose
  cases h : ip.get? node.bitAtByte with
  | none =>
    simp only [true_iff]
    exact List.get?_eq_none.1 h
  | some byte =>
    constructor
    · intro h'; cases h'
    · intro hle
      rw [List.get?_eq_none.2 hle] at h
      cases h

/-- The loop of `lookup` on a node whose `bitAtByte` is the size of the address: the
answer is given without a call of `choose` and without a look at the children. -/
theorem lookupLoop_full (le : Bool) (q : List Nat) (size : Nat) (p : Option Peer)
    (c0 c1 : trieEntry) (c s : Nat) (bs : List Nat) (e : Option Nat) (found : Option Peer) :
    lookupLoop le q size (.node p c0 c1 c size s bs e) found =
      (commonBits le bs q).map
        (fun common => if common ≥ c then (if p ≠ none then p else found) else found) := by
  unfold lookupLoop
  cases h : commonBits le bs q with
  | none => rfl
  | some n =>
    simp only [Option.map_some']
    by_cases hc : n ≥ c <;> simp [hc]

theorem WF.choose_node {w : Nat} {root : trieEntry} (h : WF w root)
    (path : List Nat) (n : trieEntry) (hn : root.get path = n) (nn : n ≠ .null) :
    n.bitAtByte ≤ w ∧ (n.bitAtByte = w ↔ n.cidr = 8 * w) ∧
    (n.cidr < 8 * w → n.bitAtByte < w ∧
      ∀ q, IsAddr w q → choose n q = some (bitAt q n.cidr)) := by
  have wn : WF w n := hn ▸ WF.at_get path root h
  obtain ⟨_, hc, hb, hs, _⟩ := wn.nodeOK nn
  refine ⟨by omega, by omega, fun hlt => ⟨by omega, fun q hq => ?_⟩⟩
  exact choose_spec n q n.cidr hb hs (by rw [hq.1]; exact hlt) hq.2

theorem WF.placement_total (le : Bool) {w : Nat} (hw : w = 4 ∨ w = 16) {root : trieEntry}
    (h : WF w root) {ip : List Nat} (hip : IsAddr w ip) {cidr : Nat} (hc : cidr ≤ 8 * w) :
    ∃ r, nodePlacement le root ip cidr = some r := by
  unfold nodePlacement
  rcases nodePlacementLoop_spec le hw hip hc root h [] none with ⟨_, h1⟩ | ⟨rel, exact, h1, _⟩
  · exact ⟨_, h1⟩
  · exact ⟨_, h1⟩

/-- C19: every sequence of valid operations on the empty table returns.  In its table a
call of `choose` panics exactly when `bitAtByte` is not an index of the address; every
node has `bitAtByte` at most the width, with equality exactly for a full-length node,
and for a node of smaller cidr `choose` returns the bit of that position; on a
full-length node the loop of `lookup` answers through the test `bitAtByte = size`,
without a call of `choose`; and `lookup`, `nodePlacement`, `Insert` with valid arguments
and `RemoveByPeer` all return, so that none of them selects a bit out of range. -/
theorem choose_index_in_range (le : Bool) (ops : List Op) (hv : ∀ op ∈ ops, op.Valid) :
    ∃ T, run le ops = some T ∧
      (∀ node ip, choose node ip = none ↔ ip.length ≤ node.bitAtByte) ∧
      (∀ w root, (w = 4 ∧ root = T.IPv4) ∨ (w = 16 ∧ root = T.IPv6) →
        (∀ (path : List Nat) (n : trieEntry), root.get path = n → n ≠ .null →
          n.bitAtByte ≤ w ∧ (n.bitAtByte = w ↔ n.cidr = 8 * w) ∧
          (n.cidr < 8 * w → n.bitAtByte < w ∧
            ∀ q, IsAddr w q → choose n q = some (bitAt q n.cidr)) ∧
          (n.cidr = 8 * w → ∀ q found, IsAddr w q →
            lookupLoop le q (q.length % 256) n found =
              (commonBits le n.bits q).map (fun common =>
                if common ≥ n.cidr then (if n.peer ≠ none then n.peer else found)
                else found))) ∧
        (∀ q, IsAddr w q → ∃ r, lookup le root q = some r) ∧
        (∀ ip cidr, IsAddr w ip → cidr ≤ 8 * w →
          ∃ r, nodePlacement le root ip cidr = some r)) ∧
      (∀ ip cidr p, ValidInsert ip cidr → ∃ T', Insert le T ip cidr (some p) = some T') ∧
      (∀ p : Peer, ∃ T', RemoveByPeer T (some p) = some T') := by
  obtain ⟨T, hrun, hinv⟩ := run_opsInv le ops hv
  refine ⟨T, hrun, choose_none_iff, ?_, ?_, ?_⟩
  · intro w root hr
    obtain ⟨hw, hwf⟩ := hinv.roots hr
    refine ⟨?_, ?_, ?_⟩
    · intro path n hn nn
      obtain ⟨h1, h2, h3⟩ := hwf.choose_node path n hn nn
      refine ⟨h1, h2, h3, ?_⟩
      intro hfull q found hq
      have hb : n.bitAtByte = q.length % 256 := by
        rw [h2.2 hfull, hq.1]
        rcases hw with rfl | rfl <;> rfl
      cases n with
      | null => exact absurd rfl nn
      | node p c0 c1 c b s bs e =>
        simp only [trieEntry.bitAtByte] at hb
        rw [hb]
        exact lookupLoop_full le q _ p c0 c1 c s bs e found
    · intro q hq
      obtain ⟨r, h1, _⟩ := lookup_spec le hw hq root hwf
      exact ⟨r, h1⟩
    · intro ip cidr hip hc
      exact hwf.placement_total le hw hip hc
  · intro ip cidr p hvi
    obtain ⟨T', h1, _⟩ := hinv.insert_ops le hvi p
    exact ⟨T', h1⟩
  · intro p
    obtain ⟨T', h1, _⟩ := hinv.remove_ops p
    exact ⟨T', h1⟩

/-- The example of C19: a default route, the host routes `10.1.2.3/32` and
`10.1.2.2/32`, the removal of peer 1; the lookup of `10.1.2.3` ends on the full-length
node of peer 2. -/
theorem choose_index_in_range_witness :
    (∀ op ∈ [Op.insert [0, 0, 0, 0] 0 1, Op.insert [10, 1, 2, 3] 32 2,
      Op.insert [10, 1, 2, 2] 32 3, Op.remove 1], op.Valid) ∧
    (∃ T, run true [Op.insert [0, 0, 0, 0] 0 1, Op.insert [10, 1, 2, 3] 32 2,
        Op.insert [10, 1, 2, 2] 32 3, Op.remove 1] = some T ∧
      (∀ w root, (w = 4 ∧ root = T.IPv4) ∨ (w = 16 ∧ root = T.IPv6) →
        (∀ q, IsAddr w q → ∃ r, lookup true root q = some r) ∧
        (∀ ip cidr, IsAddr w ip → cidr ≤ 8 * w →
          ∃ r, nodePlacement true root ip cidr = some r)) ∧
      (∀ ip cidr p, ValidInsert ip cidr → ∃ T', Insert true T ip cidr (some p) = some T')) ∧
    (run true [Op.insert [0, 0, 0, 0] 0 1, Op.insert [10, 1, 2, 3] 32 2,
        Op.insert [10, 1, 2, 2] 32 3, Op.remove 1]).bind
      (fun T => LookupIPv4 true T [10, 1, 2, 3]) = some (some 2) :=
  ⟨by decide,
   (choose_index_in_range true [Op.insert [0, 0, 0, 0] 0 1, Op.insert [10, 1, 2, 3] 32 2,
      Op.insert [10, 1, 2, 2] 32 3, Op.remove 1] (by decide)).imp
     (fun _ h => ⟨h.1, fun w root hr => ⟨(h.2.2.1 w root hr).2.1, (h.2.2.1 w root hr).2.2⟩,
       h.2.2.2.1⟩),
   by decide⟩

/-! ## Host bits of the inserted address -/

/-- Two addresses with the same top `cidr` bits have the same masked address. -/
theorem maskSelf_congr {w : Nat} (hw : w = 4 ∨ w = 16) {ip ip' : List Nat} {cidr : Nat}
    (hc : cidr ≤ 8 * w) (hip : IsAddr w ip) (hip' : IsAddr w ip') (hm : Matches ip cidr ip') :
    maskSelf ip cidr = maskSelf ip' cidr :=
  Masked.eq (maskSelf_isAddr hw hc hip) (maskSelf_isAddr hw hc hip')
    (maskSelf_masked hw hc hip) (maskSelf_masked hw hc hip')
    (((maskSelf_matches hw hc hip).trans hm).trans (maskSelf_matches hw hc hip').symm)

/-- The loop of `nodePlacement` takes the same steps for two addresses with the same top
`cidr` bits. -/
theorem nodePlacementLoop_congr (le : Bool) {w : Nat} (hw : w = 4 ∨ w = 16) {ip ip' : List Nat}
    (hip : IsAddr w ip) (hip' : IsAddr w ip') {cidr : Nat} (hc : cidr ≤ 8 * w)
    (hm : Matches ip cidr ip') (t : trieEntry) (h : WF w t) :
    ∀ (here : List Nat) (parent : Option (List Nat)),
      nodePlacementLoop le ip cidr t here parent = nodePlacementLoop le ip' cidr t here parent := by
  induction t with
  | null => intro here parent; rfl
  | node p c0 c1 c b s bs e ih0 ih1 =>
    intro here parent
    obtain ⟨hok, _, _, hw0, hw1⟩ := h
    obtain ⟨hbs, hcw, hb, hs, _⟩ := hok
    have hl : ip.length = ip'.length := by rw [hip.1, hip'.1]
    by_cases hcc : c ≤ cidr
    · obtain ⟨n, hn, _, hiff⟩ := commonBits_ge_iff le hw hbs hip hcw
      obtain ⟨n', hn', _, hiff'⟩ := commonBits_ge_iff le hw hbs hip' hcw
      have hmc : Matches ip c ip' := Matches.mono hl hm hcc
      have hnn : n ≥ c ↔ n' ≥ c := by
        rw [hiff, hiff']
        exact ⟨fun h => h.trans hmc, fun h => h.trans hmc.symm⟩
      simp only [nodePlacementLoop, hcc, if_true, hn, hn']
      by_cases hge : n ≥ c
      · have hge' : n' ≥ c := hnn.1 hge
        simp only [hge, hge', if_true]
        by_cases heq : c = cidr
        · simp only [heq, if_true]
        · simp only [heq, if_false]
          have hlt : c < cidr := by omega
          have ch : choose (.node p c0 c1 c b s bs e) ip = some (bitAt ip c) :=
            choose_spec _ ip c hb hs (by rw [hip.1]; omega) hip.2
          have ch' : choose (.node p c0 c1 c b s bs e) ip' = some (bitAt ip' c) :=
            choose_spec _ ip' c hb hs (by rw [hip'.1]; omega) hip'.2
          have hbit : bitAt ip c = bitAt ip' c :=
            Matches.bitAt_eq hl hm hlt (by rw [hip.1]; omega)
          rw [ch, ch', hbit]
          simp only
          by_cases h0 : bitAt ip' c = 0
          · simp only [h0, if_true]
            exact ih0 hw0 _ _
          · simp only [h0, if_false]
            exact ih1 hw1 _ _
      · have hge' : ¬ n' ≥ c := fun h => hge (hnn.2 h)
        simp only [hge, hge', if_false]
    · simp only [nodePlacementLoop, hcc, if_false]

/-- The method `insert` returns the same for two addresses with the same top `cidr` bits. -/
theorem insert_congr (le : Bool) {w : Nat} (hw : w = 4 ∨ w = 16) {ip ip' : List Nat}
    (hip : IsAddr w ip) (hip' : IsAddr w ip') {cidr : Nat} (hc : cidr ≤ 8 * w)
    (hm : Matches ip cidr ip') (t : trieEntry) (h : WF w t) (L : PeerLists)
    (peer : Option Peer) :
    insert le t L ip cidr peer = insert le t L ip' cidr peer := by
  have hne : newEntry peer ip cidr = newEntry peer ip' cidr := by
    unfold newEntry
    rw [maskSelf_congr hw hc hip hip' hm]
  cases t with
  | null => simp only [insert, hne]
  | node p c0 c1 c b s bs e =>
    have hnp : nodePlacement le (.node p c0 c1 c b s bs e) ip cidr =
        nodePlacement le (.node p c0 c1 c b s bs e) ip' cidr :=
      nodePlacementLoop_congr le hw hip hip' hc hm _ h [] none
    simp only [insert, hne, hnp]

/-- Agreement on the first `cidr` bits, read in the bytes, is agreement of the top
`cidr` bits. -/
theorem matches_of_bitOf {w : Nat} {ip ip' : List Nat} (hip : IsAddr w ip) (hip' : IsAddr w ip')
    {cidr : Nat} (hc : cidr ≤ 8 * w) (hbits : ∀ i, i < cidr → bitOf ip i = bitOf ip' i) :
    Matches ip cidr ip' := by
  apply (matches_iff_bits hip hip' cidr hc).2
  intro i hi
  rw [← bitOf_eq_bitAt hip (by omega), ← bitOf_eq_bitAt hip' (by omega)]
  exact hbits i hi

theorem Insert_congr (le : Bool) {T : AllowedIPs} (w4 : WF 4 T.IPv4) (w6 : WF 16 T.IPv6)
    {ip ip' : List Nat} {cidr : Nat} (hv : ValidInsert ip cidr) (hv' : ValidInsert ip' cidr)
    (hl : ip.length = ip'.length) (hm : Matches ip cidr ip') (peer : Option Peer) :
    Insert le T ip cidr peer = Insert le T ip' cidr peer := by
  rcases hv.cases with ⟨hip, hc⟩ | ⟨hip, hc⟩
  · have hip' : IsAddr 4 ip' := by
      rcases hv'.cases with ⟨h, _⟩ | ⟨h, _⟩
      · exact h
      · have := h.1; have := hip.1; omega
    unfold Insert
    have e1 : ip.length = 4 := hip.1
    have e2 : ip'.length = 4 := hip'.1
    simp only [e1, e2, IPv6len, IPv4len, show ¬ (4 : Nat) = 16 by decide, if_false, if_true]
    rw [insert_congr le (Or.inl rfl) hip hip' hc hm T.IPv4 w4]
  · have hip' : IsAddr 16 ip' := by
      rcases hv'.cases with ⟨h, _⟩ | ⟨h, _⟩
      · have := h.1; have := hip.1; omega
      · exact h
    unfold Insert
    have e1 : ip.length = 16 := hip.1
    have e2 : ip'.length = 16 := hip'.1
    simp only [e1, e2, IPv6len, if_true]
    rw [insert_congr le (Or.inr rfl) hip hip' hc hm T.IPv6 w6]

/-- C18: on a table obtained from the empty table by valid inserts, for valid
`(ip, cidr)` and `(ip', cidr)` of one family whose first `cidr` bits are equal and every
peer, `Insert` returns, and returns the same table for `ip`, for `ip'` and for `ip`
masked to `cidr` bits; `nodePlacement`, which runs on the unmasked address, finds the
same place for `ip` and for the masked address. -/
theorem insert_ignores_host_bits (le : Bool) (T : AllowedIPs) (h : Reachable le T)
    (ip ip' : List Nat) (cidr : Nat) (hv : ValidInsert ip cidr) (hv' : ValidInsert ip' cidr)
    (hl : ip.length = ip'.length) (hbits : ∀ i, i < cidr → bitOf ip i = bitOf ip' i)
    (p : Peer) :
    ∃ T', Insert le T ip cidr (some p) = some T' ∧ Insert le T ip' cidr (some p) = some T' ∧
      Insert le T (maskSelf ip cidr) cidr (some p) = some T' ∧
      nodePlacement le (T.root ip.length) ip cidr =
        nodePlacement le (T.root ip.length) (maskSelf ip cidr) cidr := by
  obtain ⟨T', hT', _⟩ := h.inv.insert_inv le hv p
  obtain ⟨w4, w6, _⟩ := h.inv
  have key : ∃ w, (w = 4 ∨ w = 16) ∧ IsAddr w ip ∧ IsAddr w ip' ∧ cidr ≤ 8 * w ∧
      WF w (T.root ip.length) := by
    rcases hv.cases with ⟨hip, hc⟩ | ⟨hip, hc⟩
    · refine ⟨4, Or.inl rfl, hip, ?_, hc, ?_⟩
      · rcases hv'.cases with ⟨h, _⟩ | ⟨h, _⟩
        · exact h
        · have := h.1; have := hip.1; omega
      · unfold AllowedIPs.root
        rw [hip.1]
        exact w4
    · refine ⟨16, Or.inr rfl, hip, ?_, hc, ?_⟩
      · rcases hv'.cases with ⟨h, _⟩ | ⟨h, _⟩
        · have := h.1; have := hip.1; omega
        · exact h
      · unfold AllowedIPs.root
        rw [hip.1]
        exact w6
  obtain ⟨w, hw, hip, hip', hc, hwf⟩ := key
  have hm : Matches ip cidr ip' := matches_of_bitOf hip hip' hc hbits
  have hmask : IsAddr w (maskSelf ip cidr) := maskSelf_isAddr hw hc hip
  have hmm : Matches ip cidr (maskSelf ip cidr) := (maskSelf_matches hw hc hip).symm
  have hvm : ValidInsert (maskSelf ip cidr) cidr := by
    refine ⟨?_, by rw [hmask.1]; exact hc⟩
    rcases hw with rfl | rfl
    · exact Or.inl hmask
    · exact Or.inr hmask
  refine ⟨T', hT', ?_, ?_, ?_⟩
  · rw [← Insert_congr le w4 w6 hv hv' hl hm]
    exact hT'
  · rw [← Insert_congr le w4 w6 hv hvm (by rw [hmask.1, hip.1]) hmm]
    exact hT'
  · exact nodePlacementLoop_congr le hw hip hmask hc hmm _ hwf [] none

/-- The example of C18: `10.1.2.3/16`, `10.1.200.7/16` and `10.1.0.0/16` for peer 2 in
the table that binds `10.0.0.0/8` to peer 1. -/
theorem insert_ignores_host_bits_witness :
    (Reachable true tableA ∧ ValidInsert [10, 1, 2, 3] 16 ∧ ValidInsert [10, 1, 200, 7] 16 ∧
      [10, 1, 2, 3].length = [10, 1, 200, 7].length ∧
      ∀ i, i < 16 → bitOf [10, 1, 2, 3] i = bitOf [10, 1, 200, 7] i) ∧
    (∃ T', Insert true tableA [10, 1, 2, 3] 16 (some 2) = some T' ∧
      Insert true tableA [10, 1, 200, 7] 16 (some 2) = some T' ∧
      Insert true tableA (maskSelf [10, 1, 2, 3] 16) 16 (some 2) = some T' ∧
      nodePlacement true (tableA.root [10, 1, 2, 3].length) [10, 1, 2, 3] 16 =
        nodePlacement true (tableA.root [10, 1, 2, 3].length) (maskSelf [10, 1, 2, 3] 16) 16) ∧
    maskSelf [10, 1, 2, 3] 16 = [10, 1, 0, 0] :=
  ⟨⟨reachable_tableA, by decide, by decide, by decide, by decide⟩,
   insert_ignores_host_bits true tableA reachable_tableA [10, 1, 2, 3] [10, 1, 200, 7] 16
     (by decide) (by decide) (by decide) (by decide) 2,
   by decide⟩

/-! ## The dispatch of `Insert` on the length of the address -/

/-- C12: `Insert` with an address of 4 bytes, when it returns, has run `insert` on the
IPv4 trie and leaves the IPv6 trie, hence every IPv6 lookup, as it was; with an address
of 16 bytes it has run `insert` on the IPv6 trie and leaves the IPv4 trie and every IPv4
lookup as they were; with an address of any other length it panics and leaves the table
it was given: both tries and every list.  On a table obtained from the empty table by
valid inserts, `Insert` with valid arguments returns. -/
theorem insert_family_dispatch (le : Bool) (T : AllowedIPs) (ip : List Nat) (cidr : Nat)
    (peer : Option Peer) :
    (ip.length = 4 → ∀ T', Insert le T ip cidr peer = some T' →
      InsertOutcome le T ip cidr peer = some (.returned T') ∧
      insert le T.IPv4 T.lists ip cidr peer = some (T'.IPv4, T'.lists) ∧
      T'.IPv6 = T.IPv6 ∧ ∀ q, LookupIPv6 le T' q = LookupIPv6 le T q) ∧
    (ip.length = 16 → ∀ T', Insert le T ip cidr peer = some T' →
      InsertOutcome le T ip cidr peer = some (.returned T') ∧
      insert le T.IPv6 T.lists ip cidr peer = some (T'.IPv6, T'.lists) ∧
      T'.IPv4 = T.IPv4 ∧ ∀ q, LookupIPv4 le T' q = LookupIPv4 le T q) ∧
    (ip.length ≠ 4 → ip.length ≠ 16 →
      Insert le T ip cidr peer = none ∧
      InsertOutcome le T ip cidr peer = some (.panicked T)) ∧
    (Reachable le T → ValidInsert ip cidr → ∀ p : Peer,
      ∃ T', Insert le T ip cidr (some p) = some T') := by
  refine ⟨?_, ?_, ?_, ?_⟩
  · intro hl T' h
    unfold Insert at h
    unfold InsertOutcome
    simp only [hl, IPv6len, IPv4len, show ¬ (4 : Nat) = 16 by decide, if_false, if_true] at h ⊢
    cases hi : insert le T.IPv4 T.lists ip cidr peer with
    | none => simp [hi] at h
    | some r =>
      obtain ⟨r, L⟩ := r
      simp only [hi, Option.some.injEq] at h
      subst h
      exact ⟨rfl, rfl, rfl, fun _ => rfl⟩
  · intro hl T' h
    unfold Insert at h
    unfold InsertOutcome
    simp only [hl, IPv6len, if_true] at h ⊢
    cases hi : insert le T.IPv6 T.lists ip cidr peer with
    | none => simp [hi] at h
    | some r =>
      obtain ⟨r, L⟩ := r
      simp only [hi, Option.some.injEq] at h
      subst h
      exact ⟨rfl, rfl, rfl, fun _ => rfl⟩
  · intro h4 h16
    unfold Insert InsertOutcome
    simp only [h4, h16, IPv6len, IPv4len, if_false, and_self]
  · intro hr hv p
    obtain ⟨T', h, _⟩ := hr.inv.insert_inv le hv p
    exact ⟨T', h⟩

/-- The example of C12: in the table that binds `10.0.0.0/8` to peer 1, the insert of
`10.1.0.0/16` leaves the IPv6 trie, the insert of a 16-byte address leaves the IPv4
trie, and an address of 3 bytes panics and leaves the table. -/
theorem insert_family_dispatch_witness :
    (Insert true tableA [10, 1, 0, 0] 16 (some 2) = some tableAB ∧
      tableAB.IPv6 = tableA.IPv6) ∧
    (∀ T', Insert true tableA [32, 1, 13, 184, 0, 0, 0, 0, 0, 0, 0, 0, 0, 0, 0, 0] 32 (some 2) =
        some T' → T'.IPv4 = tableA.IPv4) ∧
    (∃ T', Insert true tableA [32, 1, 13, 184, 0, 0, 0, 0, 0, 0, 0, 0, 0, 0, 0, 0] 32 (some 2) =
        some T') ∧
    (Insert true tableA [10, 1, 0] 16 (some 2) = none ∧
      InsertOutcome true tableA [10, 1, 0] 16 (some 2) = some (.panicked tableA)) :=
  ⟨⟨rfl, ((insert_family_dispatch true tableA [10, 1, 0, 0] 16 (some 2)).1 rfl tableAB rfl).2.2.1⟩,
   fun T' h => ((insert_family_dispatch true tableA
     [32, 1, 13, 184, 0, 0, 0, 0, 0, 0, 0, 0, 0, 0, 0, 0] 32 (some 2)).2.1 rfl T' h).2.2.1,
   (insert_family_dispatch true tableA
     [32, 1, 13, 184, 0, 0, 0, 0, 0, 0, 0, 0, 0, 0, 0, 0] 32 (some 2)).2.2.2
       reachable_tableA (by decide) 2,
   (insert_family_dispatch true tableA [10, 1, 0] 16 (some 2)).2.2.1 (by decide) (by decide)⟩

/-! ## The enumeration of a peer's list -/

theorem entriesLoop_eq (cb : List Nat → Nat → Bool) (l : List Element) :
    entriesLoop cb l = takeThrough cb (l.map (fun x => (x.bits, x.cidr))) := by
  induction l with
  | nil => rfl
  | cons e rest ih =>
    simp only [entriesLoop, List.map_cons, takeThrough, ih]

/-- The enumeration visits every element when the callback always returns true. -/
theorem takeThrough_all (cb : List Nat → Nat → Bool) (l : List (List Nat × Nat))
    (h : ∀ x ∈ l, cb x.1 x.2 = true) : takeThrough cb l = l := by
  induction l with
  | nil => rfl
  | cons x rest ih =>
    simp only [takeThrough, h x (List.mem_cons_self _ _), if_true]
    rw [ih (fun y hy => h y (List.mem_cons_of_mem _ hy))]

/-- The enumeration stops right after the first element for which the callback returns
false. -/
theorem takeThrough_stop (cb : List Nat → Nat → Bool) (l1 l2 : List (List Nat × Nat))
    (x : List Nat × Nat) (h : ∀ y ∈ l1, cb y.1 y.2 = true) (hx : cb x.1 x.2 = false) :
    takeThrough cb (l1 ++ x :: l2) = l1 ++ [x] := by
  induction l1 with
  | nil => simp [takeThrough, hx]
  | cons y rest ih =>
    simp only [List.cons_append, takeThrough, h y (List.mem_cons_self _ _), if_true]
    exact congrArg (List.cons y) (ih (fun z hz => h z (List.mem_cons_of_mem _ hz)))

theorem assignedTo_assign (S : List (List Nat × Nat × Peer)) (ip : List Nat) (cidr : Nat)
    (p P : Peer) :
    assignedTo (assign S ip cidr p) P =
      (assignedTo S P).filter (fun x => decide (x ≠ (maskSelf ip cidr, cidr))) ++
        (if P = p then [(maskSelf ip cidr, cidr)] else []) := by
  unfold assignedTo assign
  rw [List.filter_append, List.map_append, List.filter_filter, List.filter_map]
  congr 1
  · rw [List.filter_filter]
    congr 1
    apply List.filter_congr
    intro x _
    simp only [Function.comp, Bool.and_comm]
  · by_cases h : P = p
    · simp [h]
    · have : ¬ p = P := fun e => h e.symm
      simp [h, this]

/-- The prefixes of a peer's list after the detach and the push-back of an insert. -/
theorem lists_after_insert {L : PeerLists} {E : List (Option Peer × Option Nat × List Nat × Nat)}
    (h : Idx L E) (huniq : ∀ y ∈ E, ∀ z ∈ E, y.2.2 = z.2.2 → y = z)
    (p : Peer) (m : List Nat) (cidr : Nat) (L1 : PeerLists)
    (hL1 : (L1 = L ∧ ∀ y ∈ E, y.2.2 = (m, cidr) → y.2.1 = none) ∨
      (∃ q e, L1 = Remove L q e ∧ (some q, some e, m, cidr) ∈ E)) (P : Peer) :
    ((PushBack L1 p m cidr).2.trieEntries P).map (fun x => (x.bits, x.cidr)) =
      ((L.trieEntries P).map (fun x => (x.bits, x.cidr))).filter
          (fun x => decide (x ≠ (m, cidr))) ++
        (if P = p then [(m, cidr)] else []) := by
  have hbase : (L1.trieEntries P).map (fun x => (x.bits, x.cidr)) =
      ((L.trieEntries P).map (fun x => (x.bits, x.cidr))).filter
        (fun x => decide (x ≠ (m, cidr))) := by
    rw [List.filter_map]
    rcases hL1 with ⟨rfl, hnone⟩ | ⟨q, e, rfl, hin⟩
    · congr 1
      symm
      apply List.filter_eq_self.2
      intro x hx
      obtain ⟨i, a, c⟩ := x
      simp only [Function.comp, decide_eq_true_eq]
      intro hp
      have := hnone _ ((h.1 P i a c).1 hx) hp
      simp at this
    · rw [Remove_entries]
      by_cases hq : P = q
      · subst hq
        simp only [if_true]
        congr 1
        apply List.filter_congr
        intro x hx
        obtain ⟨i, a, c⟩ := x
        simp only [Function.comp, ne_eq, decide_not, Bool.not_eq_eq_eq_not, Bool.not_not,
          decide_eq_decide]
        constructor
        · intro hid
          subst hid
          have h1 := (h.1 P i m cidr).2 hin
          have := h.id_inj hx h1 rfl
          simp only [Element.mk.injEq, true_and] at this
          rw [this.1, this.2]
        · intro hp
          simp only [Prod.mk.injEq] at hp
          obtain ⟨rfl, rfl⟩ := hp
          have := huniq _ ((h.1 P i a c).1 hx) _ hin rfl
          simp only [Prod.mk.injEq, Option.some.injEq, and_true, true_and] at this
          exact this
      · simp only [hq, if_false]
        congr 1
        symm
        apply List.filter_eq_self.2
        intro x hx
        obtain ⟨i, a, c⟩ := x
        simp only [Function.comp, decide_eq_true_eq]
        intro hp
        simp only [Prod.mk.injEq] at hp
        obtain ⟨rfl, rfl⟩ := hp
        have := huniq _ ((h.1 P i a c).1 hx) _ hin rfl
        simp only [Prod.mk.injEq, Option.some.injEq, and_true] at this
        exact hq this.1
  rw [PushBack_entries]
  by_cases hp : P = p
  · simp only [hp, if_true, List.map_append, List.map_cons, List.map_nil]
    rw [← hp, hbase]
  · simp only [hp, if_false, List.append_nil]
    exact hbase

/-! ## The lists of the peers on tables built by inserts -/

/-- The insert into one trie, with the prefixes of every peer's list afterwards. -/
theorem insert_family_lists (le : Bool) {w w2 : Nat} (hw : w = 4 ∨ w = 16) (hne : w ≠ w2)
    (t t2 : trieEntry) (L : PeerLists) {ip : List Nat} (hip : IsAddr w ip) {cidr : Nat}
    (hc : cidr ≤ 8 * w) (p : Peer) (hwf : WF w t) (hwf2 : WF w2 t2)
    (hidx : Idx L (entries t ++ entries t2)) :
    ∃ t' L', insert le t L ip cidr (some p) = some (t', L') ∧ WF w t' ∧ (Full t → Full t') ∧
      Idx L' (entries t' ++ entries t2) ∧
      ∀ P, (L'.trieEntries P).map (fun x => (x.bits, x.cidr)) =
        ((L.trieEntries P).map (fun x => (x.bits, x.cidr))).filter
            (fun x => decide (x ≠ (maskSelf ip cidr, cidr))) ++
          (if P = p then [(maskSelf ip cidr, cidr)] else []) := by
  obtain ⟨t', L1, hins, wf', full', idx', _, _, _, m4⟩ :=
    insert_family le hw hne t t2 L hip hc p hwf hwf2 hidx
  have mA : IsAddr w (maskSelf ip cidr) := maskSelf_isAddr hw hc hip
  have other : ∀ y ∈ entries t2, y.2.2 ≠ (maskSelf ip cidr, cidr) := by
    intro y hy hp
    have h1 := (hwf2.subE y hy).2.2.1.1
    have : y.2.2.1 = maskSelf ip cidr := congrArg Prod.fst hp
    rw [this, mA.1] at h1
    exact hne h1
  have otherw : ∀ y ∈ entries t, ∀ z ∈ entries t2, y.2.2 ≠ z.2.2 := by
    intro y hy z hz hp
    have h1 := (hwf.subE y hy).2.2.1.1
    have h2 := (hwf2.subE z hz).2.2.1.1
    have : y.2.2.1 = z.2.2.1 := congrArg Prod.fst hp
    rw [this, h2] at h1
    exact hne h1.symm
  refine ⟨t', _, hins, wf', full', idx', fun P => ?_⟩
  apply lists_after_insert hidx _ p (maskSelf ip cidr) cidr L1 _ P
  · intro y hy z hz hp
    rcases List.mem_append.1 hy with h | h <;> rcases List.mem_append.1 hz with h' | h'
    · exact hwf.entries_unique y h z h' hp
    · exact absurd hp (otherw y h z h')
    · exact absurd hp.symm (otherw z h' y h)
    · exact hwf2.entries_unique y h z h' hp
  · rcases m4 with ⟨e, hnone⟩ | ⟨q, e, e1, hold⟩
    · left
      refine ⟨e, ?_⟩
      intro y hy hp
      rcases List.mem_append.1 hy with h | h
      · exact hnone y h hp
      · exact absurd hp (other y h)
    · exact Or.inr ⟨q, e, e1, List.mem_append_left _ hold⟩

/-- One valid insert, followed in the reference model of the assignments. -/
theorem Inv.insert_hist (le : Bool) {T : AllowedIPs} (h : Inv T)
    {S : List (List Nat × Nat × Peer)}
    (hS : ∀ P, (T.lists.trieEntries P).map (fun x => (x.bits, x.cidr)) = assignedTo S P)
    {ip : List Nat} {cidr : Nat} (hv : ValidInsert ip cidr) (p : Peer) :
    ∃ T', Insert le T ip cidr (some p) = some T' ∧ Inv T' ∧
      ∀ P, (T'.lists.trieEntries P).map (fun x => (x.bits, x.cidr)) =
        assignedTo (assign S ip cidr p) P := by
  obtain ⟨w4, w6, f4, f6, idx⟩ := h
  rcases hv.cases with ⟨hip, hc⟩ | ⟨hip, hc⟩
  · obtain ⟨t', L', hins, wf', full', idx', hl⟩ :=
      insert_family_lists le (Or.inl rfl) (by decide : (4 : Nat) ≠ 16) T.IPv4 T.IPv6 T.lists
        hip hc p w4 w6 idx
    refine ⟨{ IPv4 := t', IPv6 := T.IPv6, lists := L' }, ?_, ⟨wf', w6, full' f4, f6, idx'⟩, ?_⟩
    · unfold Insert
      simp [hip.1, IPv4len, IPv6len, hins]
    · intro P
      rw [assignedTo_assign, ← hS P]
      exact hl P
  · have idx2 : Idx T.lists (entries T.IPv6 ++ entries T.IPv4) :=
      idx.congr (fun y => by simp only [List.mem_append]; exact Or.comm)
    obtain ⟨t', L', hins, wf', full', idx', hl⟩ :=
      insert_family_lists le (Or.inr rfl) (by decide : (16 : Nat) ≠ 4) T.IPv6 T.IPv4 T.lists
        hip hc p w6 w4 idx2
    refine ⟨{ IPv4 := T.IPv4, IPv6 := t', lists := L' }, ?_, ⟨w4, wf', f4, full' f6, ?_⟩, ?_⟩
    · unfold Insert
      simp [hip.1, IPv6len, hins]
    · exact idx'.congr (fun y => by simp only [List.mem_append]; exact Or.comm)
    · intro P
      rw [assignedTo_assign, ← hS P]
      exact hl P

/-- A sequence of valid inserts, followed in the reference model of the assignments. -/
theorem Inv.runFrom_hist (le : Bool) : ∀ (ops : List Op) (T : AllowedIPs)
    (S : List (List Nat × Nat × Peer)), Inv T →
    (∀ P, (T.lists.trieEntries P).map (fun x => (x.bits, x.cidr)) = assignedTo S P) →
    (∀ op ∈ ops, op.Valid) → (∀ op ∈ ops, op.IsInsert) →
    ∃ T', runFrom le T ops = some T' ∧ Inv T' ∧
      ∀ P, (T'.lists.trieEntries P).map (fun x => (x.bits, x.cidr)) =
        assignedTo (assignmentsFrom S ops) P
  | [], T, S, h, hS, _, _ => ⟨T, rfl, h, hS⟩
  | .remove p :: rest, T, S, _, _, _, hi => by
    exact absurd (hi (.remove p) (List.mem_cons_self _ _)) (by simp [Op.IsInsert])
  | .insert ip cidr p :: rest, T, S, h, hS, hv, hi => by
    obtain ⟨T1, h1, i1, s1⟩ := h.insert_hist le hS (hv _ (List.mem_cons_self _ _)) p
    obtain ⟨T2, h2, i2, s2⟩ := Inv.runFrom_hist le rest T1 (assign S ip cidr p) i1 s1
      (fun o ho => hv o (List.mem_cons_of_mem _ ho))
      (fun o ho => hi o (List.mem_cons_of_mem _ ho))
    refine ⟨T2, ?_, i2, ?_⟩
    · simp only [runFrom, applyOp, h1, h2]
    · simpa only [assignmentsFrom] using s2

/-- The prefixes of a peer's list are those of the nodes assigned to the peer. -/
theorem Inv.list_bindings {T : AllowedIPs} (h : Inv T) (P : Peer) (a : List Nat) (c : Nat) :
    (a, c) ∈ (T.lists.trieEntries P).map (fun x => (x.bits, x.cidr)) ↔
      (a, c, P) ∈ bindings T.IPv4 ++ bindings T.IPv6 := by
  obtain ⟨_, _, _, _, idx⟩ := h
  constructor
  · intro hm
    obtain ⟨x, hx, hp⟩ := List.mem_map.1 hm
    obtain ⟨i, a', c'⟩ := x
    simp only [Prod.mk.injEq] at hp
    obtain ⟨rfl, rfl⟩ := hp
    have hE := (idx.1 P i a' c').1 hx
    rcases List.mem_append.1 hE with h4 | h6
    · exact List.mem_append_left _ (mem_bindings_iff.2 ⟨some i, h4⟩)
    · exact List.mem_append_right _ (mem_bindings_iff.2 ⟨some i, h6⟩)
  · intro hb
    have key : ∃ e, (some P, e, a, c) ∈ entries T.IPv4 ++ entries T.IPv6 := by
      rcases List.mem_append.1 hb with h4 | h6
      · obtain ⟨e, he⟩ := mem_bindings_iff.1 h4
        exact ⟨e, List.mem_append_left _ he⟩
      · obtain ⟨e, he⟩ := mem_bindings_iff.1 h6
        exact ⟨e, List.mem_append_right _ he⟩
    obtain ⟨e, he⟩ := key
    cases e with
    | none =>
      have := (idx.2.2.2 _ he).2 rfl
      simp at this
    | some i =>
      exact List.mem_map.2 ⟨⟨i, a, c⟩, (idx.1 P i a c).2 he, rfl⟩

/-- No prefix occurs twice in a peer's list. -/
theorem Inv.list_nodup {T : AllowedIPs} (h : Inv T) (P : Peer) :
    ((T.lists.trieEntries P).map (fun x => (x.bits, x.cidr))).Nodup := by
  obtain ⟨w4, w6, _, _, idx⟩ := h
  have uniq : ∀ y ∈ entries T.IPv4 ++ entries T.IPv6, ∀ z ∈ entries T.IPv4 ++ entries T.IPv6,
      y.2.2 = z.2.2 → y = z := fun y hy z hz hp =>
    List.inj_on_of_nodup_map (prefix_nodup_table w4 w6) hy hz hp
  apply List.Nodup.map_on _ (List.Nodup.of_map _ (idx.2.1 P))
  intro x hx y hy hxy
  obtain ⟨i, a, c⟩ := x
  obtain ⟨j, a', c'⟩ := y
  simp only [Prod.mk.injEq] at hxy
  obtain ⟨rfl, rfl⟩ := hxy
  have := uniq _ ((idx.1 P i a c).1 hx) _ ((idx.1 P j a c).1 hy) rfl
  simp only [Prod.mk.injEq, Option.some.injEq, and_true, true_and] at this
  rw [this]

/-- The enumeration on tables built by inserts: every sequence of valid inserts on the
empty table returns, and for every peer `P` and callback `cb` the calls of `cb` made by
`EntriesForPeer` are the prefixes assigned to `P` in the reference model, oldest
assignment first, up to and including the first one for which `cb` returns false; no
prefix is listed twice, and the prefixes listed are those of the nodes of the tries
assigned to `P`. -/
theorem entriesForPeer_insert_only (le : Bool) (ops : List Op) (hv : ∀ op ∈ ops, op.Valid)
    (hi : ∀ op ∈ ops, op.IsInsert) :
    ∃ T, run le ops = some T ∧ ∀ (P : Peer) (cb : List Nat → Nat → Bool),
      EntriesForPeer T (some P) cb = some (takeThrough cb (assignedTo (assignments ops) P)) ∧
      (assignedTo (assignments ops) P).Nodup ∧
      ∀ a c, (a, c) ∈ assignedTo (assignments ops) P ↔
        (a, c, P) ∈ bindings T.IPv4 ++ bindings T.IPv6 := by
  obtain ⟨T, hrun, hinv, hS⟩ := Inv.runFrom_hist le ops AllowedIPs.empty [] Inv.empty_inv
    (fun _ => rfl) hv hi
  refine ⟨T, hrun, fun P cb => ⟨?_, ?_, ?_⟩⟩
  · unfold EntriesForPeer
    simp only
    rw [entriesLoop_eq, hS P]
    rfl
  · have := hinv.list_nodup P
    rw [hS P] at this
    exact this
  · intro a c
    have := hinv.list_bindings P a c
    rw [hS P] at this
    exact this

/-- The example of the enumeration on inserts: `10.0.0.0/8`, `10.1.0.0/16` and
`10.2.0.0/16` for peer 1, then `10.1.0.0/16` once more; the callback stops at the
second call. -/
theorem entriesForPeer_insert_only_example :
    (run true [Op.insert [10, 0, 0, 0] 8 1, Op.insert [10, 1, 0, 0] 16 1,
        Op.insert [10, 2, 0, 0] 16 1, Op.insert [10, 1, 9, 9] 16 1]).bind
      (fun T => EntriesForPeer T (some 1) (fun _ _ => true)) =
      some [([10, 0, 0, 0], 8), ([10, 2, 0, 0], 16), ([10, 1, 0, 0], 16)] ∧
    (run true [Op.insert [10, 0, 0, 0] 8 1, Op.insert [10, 1, 0, 0] 16 1,
        Op.insert [10, 2, 0, 0] 16 1, Op.insert [10, 1, 9, 9] 16 1]).bind
      (fun T => EntriesForPeer T (some 1) (fun _ c => decide (c < 16))) =
      some [([10, 0, 0, 0], 8), ([10, 2, 0, 0], 16)] := by
  decide

/-- C13 at the failing input: `0.0.0.0/0` for peer 1, `0.0.0.0/1` for peer 2 and
`128.0.0.0/1` for peer 3, `RemoveByPeer` of peer 1, then `128.0.0.0/1` for peer 3 once
more: one node of the tries is assigned to peer 3, and `EntriesForPeer` of peer 3 calls
back twice with `128.0.0.0/1`. -/
theorem entriesForPeer_lists_prefix_twice :
    (run true opsTwice).map (fun T => bindings T.IPv4 ++ bindings T.IPv6) =
      some [([0, 0, 0, 0], 1, 2), ([128, 0, 0, 0], 1, 3)] ∧
    (run true opsTwice).bind (fun T => EntriesForPeer T (some 3) (fun _ _ => true)) =
      some [([128, 0, 0, 0], 1), ([128, 0, 0, 0], 1)] ∧
    assignedTo (assignments opsTwice) 3 = [([128, 0, 0, 0], 1)] := by
  decide

end Device

namespace Warp

/-! ## `SNICurveExtension.Read` and `Len` -/

set_option maxRecDepth 100000 in
/-- C20 at the failing input: the extension with `SNICurveLen = 1201` and `WillPad`
set, and a buffer of 1205 bytes `0xff`: `Read` returns `n = Len() = 1205` with the
header `0x00, 0x15, 0x04, 0xb1`, bytes 4 to 1203 are zero, and the last byte of the
extension, at index 1204, is still `0xff`. -/
theorem read_leaves_padding_byte :
    SNICurveExtension.Len ⟨1201, true⟩ = 1205 ∧
    (SNICurveExtension.Read ⟨1201, true⟩ (List.replicate 1205 255)).map
      (fun r => (r.2.1, r.2.2, r.1.take 4, r.1.get? 1203, r.1.get? 1204)) =
      some (1205, Err.EOF, [0, 21, 4, 177], some 0, some 255) := by
  decide

theorem read_not_padding (e : SNICurveExtension) (b : List Nat) (h : e.WillPad = false) :
    e.Len = 0 ∧ e.Read b = some (b, 0, .EOF) := by
  unfold SNICurveExtension.Len SNICurveExtension.Read
  simp [h]

theorem read_short_buffer (e : SNICurveExtension) (b : List Nat) (h : e.WillPad = true)
    (hs : (b.length : Int) < e.Len) : e.Read b = some (b, 0, .ErrShortBuffer) := by
  unfold SNICurveExtension.Read
  simp [h, hs]

theorem toByte_high (n : Int) (h0 : 0 ≤ n) (h1 : n ≤ 65535) :
    toByte (n >>> (8 : Nat)) = (n / 256).toNat := by
  unfold toByte
  rw [Int.shiftRight_eq_div_pow]
  have : ((2 ^ 8 : Nat) : Int) = 256 := by norm_num
  rw [this]
  congr 1
  omega

/-- The part of C20 the code satisfies: with `WillPad` set, `SNICurveLen` between 0 and
1200 and a buffer of at least `Len()` bytes, `Read` returns `n = Len() = 4 + SNICurveLen`
and the error `io.EOF`, and the buffer starts with `0x00, 0x15`, the high and the low
byte of `SNICurveLen` and `SNICurveLen` zero bytes. -/
theorem read_padding (e : SNICurveExtension) (b : List Nat) (hw : e.WillPad = true)
    (h0 : 0 ≤ e.SNICurveLen) (h1 : e.SNICurveLen ≤ 1200) (hb : e.Len ≤ b.length) :
    e.Len = 4 + e.SNICurveLen ∧
    ∃ b', e.Read b = some (b', e.Len, .EOF) ∧ b'.length = b.length ∧
      b'.take (4 + e.SNICurveLen.toNat) =
        [0, 0x15, (e.SNICurveLen / 256).toNat, (e.SNICurveLen % 256).toNat] ++
          List.replicate e.SNICurveLen.toNat 0 := by
  have hlen : e.Len = 4 + e.SNICurveLen := by
    unfold SNICurveExtension.Len wrapInt
    simp only [hw, if_true]
    omega
  refine ⟨hlen, ?_⟩
  rw [hlen] at hb
  obtain ⟨k, hk⟩ := Int.eq_ofNat_of_zero_le h0
  have hk1 : k ≤ 1200 := by omega
  have hbl : 4 + k ≤ b.length := by omega
  rcases b with _ | ⟨b0, _ | ⟨b1, _ | ⟨b2, _ | ⟨b3, rest⟩⟩⟩⟩
  · simp only [List.length_nil] at hbl; omega
  · simp only [List.length_cons, List.length_nil] at hbl; omega
  · simp only [List.length_cons, List.length_nil] at hbl; omega
  · simp only [List.length_cons, List.length_nil] at hbl; omega
  · have hr : k ≤ rest.length := by
      simp only [List.length_cons] at hbl; omega
    refine ⟨[0, 0x15, toByte (e.SNICurveLen >>> (8 : Nat)), toByte e.SNICurveLen] ++
      copy rest (List.replicate 1200 0), ?_, ?_, ?_⟩
    · unfold SNICurveExtension.Read
      have hns : ¬ ((List.length (b0 :: b1 :: b2 :: b3 :: rest) : Nat) : Int) < e.Len := by
        rw [hlen, hk]
        simp only [List.length_cons]
        omega
      have hn4 : ¬ (b0 :: b1 :: b2 :: b3 :: rest).length < 4 := by
        simp only [List.length_cons]; omega
      simp only [hw, Bool.not_true, Bool.false_eq_true, if_false, hns, hn4]
      rfl
    · unfold copy
      simp only [List.length_append, List.length_cons, List.length_nil, List.length_take,
        List.length_replicate, List.length_drop]
      omega
    · rw [hk, Int.toNat_ofNat]
      have e1 : toByte ((k : Int) >>> (8 : Nat)) = ((k : Int) / 256).toNat := by
        apply toByte_high <;> omega
      have e2 : toByte (k : Int) = ((k : Int) % 256).toNat := rfl
      rw [e1, e2]
      have : 4 + k = ([0, 0x15, ((k : Int) / 256).toNat, ((k : Int) % 256).toNat] : List Nat).length + k := rfl
      rw [this, List.take_append]
      congr 1
      unfold copy
      rw [List.take_append_of_le_length (by
        simp only [List.length_take, List.length_replicate]; omega)]
      rw [List.take_take, List.take_replicate]
      congr 1
      omega

set_option maxRecDepth 100000 in
/-- The example of the padding of the repository: `SNICurveLen = SNICurveSize`. -/
theorem read_padding_example :
    ((⟨SNICurveSize, true⟩ : SNICurveExtension).Len = 4 + SNICurveSize) ∧
    ∃ b', (⟨SNICurveSize, true⟩ : SNICurveExtension).Read (List.replicate 1204 255) =
        some (b', (⟨SNICurveSize, true⟩ : SNICurveExtension).Len, .EOF) ∧
      b'.length = (List.replicate 1204 255).length ∧
      b'.take (4 + SNICurveSize.toNat) =
        [0, 0x15, (SNICurveSize / 256).toNat, (SNICurveSize % 256).toNat] ++
          List.replicate SNICurveSize.toNat 0 :=
  read_padding ⟨SNICurveSize, true⟩ (List.replicate 1204 255) rfl (by decide) (by decide)
    (by decide)

end Warp
